import Mathlib

/-!
# The rengine scene graph and its helpers

The node tree of `include/scenegraph/node.h` comes first; the specialised
node kinds, the key events of the SDL backend, the signals of
`include/object/signal.h` and the allocation pool of
`include/common/allocationpool.h` follow, each under its own heading.

## Scene-graph node tree (`include/scenegraph/node.h`)

A shallow embedding of `rengine::Node`.  A `Node *` is a `NodeId`; the null
pointer stored in `m_parent` is `none`.  The heap maps every address to the
fields of the node living there.  Pointer arguments of the member functions
are addresses of nodes, so `assert(node)` in `injectAbove` holds by typing.

Every member function returns an `Outcome`: the heap after the call, or the
heap at the moment an `assert` fired.
-/

namespace Rengine

abbrev NodeId := Nat

/-- The enumeration `Node::Type`. -/
inductive NodeType where
  | BasicNodeType
  | RectangleNodeType
  | LayerNodeType
  | TransformNodeType
  | OpacityNodeType
  deriving DecidableEq, Repr

/-- The fields of `class Node`.  `hookCalls` and `alive` are ghost fields:
the number of times the virtual `onPreprocess()` has been entered on this
node, and whether the destructor has not yet completed on it. -/
structure Node where
  m_parent : Option NodeId
  m_children : List NodeId
  m_type : NodeType
  m_preprocess : Bool
  hookCalls : Nat
  alive : Bool
  deriving DecidableEq, Repr

abbrev Heap := NodeId → Node

/-- The constructor `Node(Type type = BasicNodeType)`. -/
def Node.new (type : NodeType) : Node :=
  { m_parent := none, m_children := [], m_type := type, m_preprocess := false,
    hookCalls := 0, alive := true }

/-- A heap in which every address holds a freshly constructed node. -/
def freshHeap : Heap := fun _ => Node.new NodeType.BasicNodeType

/-- Result of running a member function. -/
inductive Outcome where
  /-- the call returned, leaving this heap -/
  | done (h : Heap)
  /-- an `assert` failed; the heap is the one at that moment -/
  | assertFailed (h : Heap)
  /-- the behaviour of the call is undefined in C++ (it used iterators of two
  different vectors as one range, or a position outside a vector) -/
  | undefinedBehaviour
  /-- the bounded unfolding of a loop or recursion was too short -/
  | outOfFuel

/-- Sequencing of calls: the continuation runs only after a normal return. -/
def Outcome.bind : Outcome → (Heap → Outcome) → Outcome
  | .done h, k => k h
  | .assertFailed h, _ => .assertFailed h
  | .undefinedBehaviour, _ => .undefinedBehaviour
  | .outOfFuel, _ => .outOfFuel

/-- The call did not return normally. -/
def Outcome.failed : Outcome → Prop
  | .done _ => False
  | _ => True

/-- Assignment to the field `m_children` of the node at `n`. -/
def setChildren (h : Heap) (n : NodeId) (cs : List NodeId) : Heap :=
  fun m => if m = n then { h n with m_children := cs } else h m

/-- Assignment to the field `m_parent` of the node at `n`. -/
def setParentField (h : Heap) (n : NodeId) (p : Option NodeId) : Heap :=
  fun m => if m = n then { h n with m_parent := p } else h m

/-- Position returned by `std::find(v.begin(), v.end(), x)`, as an index;
`v.length` stands for `v.end()`. -/
def vecFind (v : List NodeId) (x : NodeId) : Nat := v.indexOf x

/-- The vector after `v.erase(v.begin() + i)`. -/
def vecErase (v : List NodeId) (i : Nat) : List NodeId := v.eraseIdx i

/-- The vector after `v.insert(v.begin() + i, x)`; the iterator returned by
`insert` points at the new element, i.e. it is index `i` again. -/
def vecInsert (v : List NodeId) (i : Nat) (x : NodeId) : List NodeId :=
  v.take i ++ x :: v.drop i

/-- `Node::setParent(Node *p)`: `assert(m_parent == 0 || p == 0); m_parent = p;` -/
def setParent (h : Heap) (this : NodeId) (p : Option NodeId) : Outcome :=
  if (h this).m_parent = none ∨ p = none then .done (setParentField h this p)
  else .assertFailed h

/-- `Node::append(Node *child)`. -/
def append (h : Heap) (this child : NodeId) : Outcome :=
  if vecFind (h this).m_children child = (h this).m_children.length then
    setParent (setChildren h this ((h this).m_children ++ [child])) child (some this)
  else .assertFailed h

/-- `Node::operator<<(Node *child)`: `append(child); return *this;`.  The
returned reference is the second component. -/
def shiftLeft (h : Heap) (this child : NodeId) : Outcome × NodeId :=
  (append h this child, this)

/-- `Node::prepend(Node *child)`. -/
def prepend (h : Heap) (this child : NodeId) : Outcome :=
  if vecFind (h this).m_children child = (h this).m_children.length then
    setParent (setChildren h this (vecInsert (h this).m_children 0 child)) child (some this)
  else .assertFailed h

/-- `Node::remove(Node *child)`. -/
def remove (h : Heap) (this child : NodeId) : Outcome :=
  if vecFind (h this).m_children child ≠ (h this).m_children.length then
    setParent
      (setChildren h this (vecErase (h this).m_children (vecFind (h this).m_children child)))
      child none
  else .assertFailed h

/-- `Node::injectAbove(Node *node)`. -/
def injectAbove (h : Heap) (this node : NodeId) : Outcome :=
  match (h node).m_parent with
  | none => .assertFailed h                                  -- assert(node->parent())
  | some p =>
    if (h this).m_parent ≠ none then .assertFailed h         -- assert(!parent())
    else
      let pos := vecFind (h p).m_children node
      if pos = (h p).m_children.length then .assertFailed h  -- assert(pos != end)
      else
        let h1 := setChildren h p ((h p).m_children.set pos this)     -- *pos = this
        let h2 := setParentField h1 this (some p)                     -- m_parent = p
        let h3 := setChildren h2 this ((h2 this).m_children ++ [node]) -- push_back(node)
        .done (setParentField h3 node (some this))                    -- node->m_parent = this

/-- The loop `for (auto i : m_children) { pos = p->m_children.insert(pos, i);
i->m_parent = p; }` of `evict`.  `insert` returns the position of the element
it inserted, so `pos` keeps its value. -/
def evictLoop (p : NodeId) (pos : Nat) : List NodeId → Heap → Heap
  | [], h => h
  | i :: rest, h =>
    let h1 := setChildren h p (vecInsert (h p).m_children pos i)
    evictLoop p pos rest (setParentField h1 i (some p))

/-- The statements of `Node::evict()` that follow the search, for a search
that returned the position `pos` of `p->m_children`; `pos` equal to the
length is `p->m_children.end()`.  The loop iterates over `m_children` as it
is when the loop starts; for `p == this` that is the vector the loop inserts
into, already without the erased entry. -/
def evictFrom (h : Heap) (this p : NodeId) (pos : Nat) : Outcome :=
  if pos = (h p).m_children.length then .assertFailed h       -- assert(pos != end)
  else if (h p).m_children.length < pos then .undefinedBehaviour  -- erase past the end
  else
    let h1 := setChildren h p (vecErase (h p).m_children pos)
    let h2 := evictLoop p pos (h1 this).m_children h1
    .done (setParentField (setChildren h2 this []) this none)

/-- `Node::evict()`.  The search is
`std::find(p->m_children.begin(), m_children.end(), this)`: it starts in the
parent's vector and is bounded by the end of this node's own vector.  The two
iterators bound a range only when both vectors are the same one
(`p == this`); for every other parent they belong to different vectors and
the behaviour of the search is undefined. -/
def evict (h : Heap) (this : NodeId) : Outcome :=
  match (h this).m_parent with
  | none => .assertFailed h                                  -- assert(parent())
  | some p =>
    if p = this then evictFrom h this p (vecFind (h p).m_children this)
    else .undefinedBehaviour

/-- `Node::requestPreprocess()`. -/
def requestPreprocess (h : Heap) (this : NodeId) : Heap :=
  fun m => if m = this then { h this with m_preprocess := true } else h m

/-- `Node::onPreprocess()` of the base class: the body is empty; the ghost
counter records that the hook was entered. -/
def onPreprocess (h : Heap) (this : NodeId) : Heap :=
  fun m => if m = this then { h this with hookCalls := (h this).hookCalls + 1 } else h m

/-- `Node::preprocess()`. -/
def preprocess (h : Heap) (this : NodeId) : Heap :=
  if (h this).m_preprocess = true then
    onPreprocess (fun m => if m = this then { h this with m_preprocess := false } else h m) this
  else h

/-- Deallocation at the end of `~Node()`: the node at `n` is no longer alive. -/
def free (h : Heap) (n : NodeId) : Heap :=
  fun m => if m = n then { h n with alive := false } else h m

mutual
/-- `Node::~Node()` followed by the deallocation of `delete`, unfolded at most
`fuel` levels: `if (m_parent) m_parent->remove(this);` then the loop, then
the storage is released. -/
def destroy : Nat → Heap → NodeId → Outcome
  | 0, _, _ => .outOfFuel
  | fuel + 1, h, this =>
    (match (h this).m_parent with
      | some p => remove h p this
      | none => .done h).bind fun h1 =>
    (destroyChildren fuel h1 this).bind fun h2 => .done (free h2 this)
/-- The loop `while (!m_children.empty()) delete m_children.back();`. -/
def destroyChildren : Nat → Heap → NodeId → Outcome
  | 0, _, _ => .outOfFuel
  | fuel + 1, h, this =>
    match (h this).m_children.getLast? with
    | none => .done h
    | some c => (destroy fuel h c).bind fun h1 => destroyChildren fuel h1 this
end

/-- A call of one of the five structural member functions. -/
inductive Op where
  | append (this child : NodeId)
  | prepend (this child : NodeId)
  | remove (this child : NodeId)
  | injectAbove (this node : NodeId)
  | evict (this : NodeId)
  deriving DecidableEq, Repr

/-- Performs one call. -/
def step (h : Heap) : Op → Outcome
  | .append t c => append h t c
  | .prepend t c => prepend h t c
  | .remove t c => remove h t c
  | .injectAbove t n => injectAbove h t n
  | .evict t => evict h t

/-- Performs the calls from left to right; stops at the first that does not
return. -/
def run : List Op → Heap → Outcome
  | [], h => .done h
  | op :: ops, h => (step h op).bind (run ops)

/-- Every node is detached and childless. -/
def Detached (h : Heap) : Prop :=
  ∀ n, (h n).m_parent = none ∧ (h n).m_children = []

/-- Parent/child consistency: a node with parent `p` occurs exactly once in
the child sequence of `p`, and every entry of a child sequence of `p` has
parent `p`. -/
def Consistent (h : Heap) : Prop :=
  (∀ c p, (h c).m_parent = some p → (h p).m_children.count c = 1) ∧
  (∀ p c, c ∈ (h p).m_children → (h c).m_parent = some p)

/-- The call is `evict` on a node whose parent reference is the node itself. -/
def selfEvict (h : Heap) : Op → Prop
  | .evict t => (h t).m_parent = some t
  | _ => False

/-- No call of the sequence is an `evict` on a node that is its own parent. -/
def NoSelfEvict : List Op → Heap → Prop
  | [], _ => True
  | op :: ops, h =>
    ¬ selfEvict h op ∧
    match step h op with
    | .done h1 => NoSelfEvict ops h1
    | _ => True

/-- The node reached from `n` by following `k` parent references. -/
def ancestor (h : Heap) : Nat → NodeId → Option NodeId
  | 0, n => some n
  | k + 1, n =>
    match (h n).m_parent with
    | none => none
    | some p => ancestor h k p

/-- No node is its own ancestor. -/
def Acyclic (h : Heap) : Prop :=
  ∀ n k, ancestor h (k + 1) n ≠ some n

/-- The call does not attach a node beneath itself: the child of `append` and
`prepend` is neither the target nor an ancestor of it, and the node injected
by `injectAbove` is not an ancestor of the node it is injected above. -/
def attachesBelowSelf (h : Heap) : Op → Prop
  | .append t c => ∃ k, ancestor h k t = some c
  | .prepend t c => ∃ k, ancestor h k t = some c
  | .injectAbove t n => ∃ k, ancestor h k n = some t
  | _ => False

/-- No call of the sequence attaches a node beneath itself. -/
def NoSelfAttach : List Op → Heap → Prop
  | [], _ => True
  | op :: ops, h =>
    ¬ attachesBelowSelf h op ∧
    match step h op with
    | .done h1 => NoSelfAttach ops h1
    | _ => True

/-- The nodes found below `n` (with `n` itself) within `k` levels, in
depth-first pre-order. -/
def subtree (h : Heap) : Nat → NodeId → List NodeId
  | 0, _ => []
  | k + 1, n => n :: (h n).m_children.flatMap (subtree h k)

/-- The child sequences below `n` close within `k` levels, and every node
listed below `n` points back to the node that lists it. -/
def ClosedWithin (h : Heap) : Nat → NodeId → Prop
  | 0, _ => False
  | k + 1, n => ∀ c ∈ (h n).m_children, (h c).m_parent = some n ∧ ClosedWithin h k c

/-- Unfolding `ClosedWithin` decides it. -/
instance decClosedWithin (h : Heap) : (k : Nat) → (n : NodeId) → Decidable (ClosedWithin h k n)
  | 0, _ => .isFalse (fun hf => hf)
  | k + 1, n =>
    @List.decidableBAll _ (fun c => (h c).m_parent = some n ∧ ClosedWithin h k c)
      (fun c => @instDecidableAnd _ _ _ (decClosedWithin h k c)) (h n).m_children

/-- The node `n` is the root of a well-formed finite subtree of at most `k`
levels: the child sequences close, no node is listed twice, and the parent of
`n`, if any, lists `n` and lies outside the subtree. -/
def WellFormedTree (h : Heap) (k : Nat) (n : NodeId) : Prop :=
  ClosedWithin h k n ∧ (subtree h k n).Nodup ∧
  ∀ p, (h n).m_parent = some p → n ∈ (h p).m_children ∧ p ∉ subtree h k n

/-- The fields of a node after its destructor has run: it has been removed
from its parent, its children are gone, and its storage is released. -/
def Node.destroyed (x : Node) : Node :=
  { x with m_parent := none, m_children := [], alive := false }

/-- The heap after `n` has been taken out of the child sequence of its
parent (nothing happens when `n` has no parent). -/
def detach (h : Heap) (n : NodeId) : Heap :=
  match (h n).m_parent with
  | none => h
  | some p => setParentField (setChildren h p ((h p).m_children.erase n)) n none

/-- The heap in which exactly the nodes of `ids` have been destroyed. -/
def destroyAll (ids : List NodeId) (h : Heap) : Heap :=
  fun m => if m ∈ ids then (h m).destroyed else h m

/-- Applies `preprocess()` to `this` `n` times. -/
def preprocessTimes (h : Heap) (this : NodeId) : Nat → Heap
  | 0 => h
  | n + 1 => preprocessTimes (preprocess h this) this n

/-- Applies `requestPreprocess()` to `this` `n` times. -/
def requestTimes (h : Heap) (this : NodeId) : Nat → Heap
  | 0 => h
  | n + 1 => requestTimes (requestPreprocess h this) this n

/-- The heap of a run that returned (the given heap otherwise). -/
def Outcome.heapOr (o : Outcome) (d : Heap) : Heap :=
  match o with
  | .done h => h
  | _ => d

/-- The parent reference and child sequence of a node after a run. -/
def Outcome.links (o : Outcome) (n : NodeId) : Option (Option NodeId × List NodeId) :=
  match o with
  | .done h => some ((h n).m_parent, (h n).m_children)
  | _ => none

/-- The tree built by `0.append(1); 1.append(2); 1.append(3); 0.append(4)`:
node `0` has the children `1` and `4`, node `1` has the children `2` and `3`. -/
def sampleTree : Heap :=
  (run [.append 0 1, .append 1 2, .append 1 3, .append 0 4] freshHeap).heapOr freshHeap

/-- The expression `P << a << b << c`: each `operator<<` is applied to the
reference returned by the one before. -/
def shiftLeft3 (h : Heap) (P a b c : NodeId) : Outcome :=
  let r1 := shiftLeft h P a
  r1.1.bind fun h1 =>
    let r2 := shiftLeft h1 r1.2 b
    r2.1.bind fun h2 => (shiftLeft h2 r2.2 c).1

/-- Fields that the structural member functions never write. -/
def SameData (h g : Heap) : Prop :=
  ∀ m, (g m).m_type = (h m).m_type ∧ (g m).m_preprocess = (h m).m_preprocess ∧
    (g m).hookCalls = (h m).hookCalls ∧ (g m).alive = (h m).alive

/-! ### Specialised node kinds (`OpacityNode`, `RectangleNode`, `LayerNode`) -/

/-- The numeric value of each enumerator of `Node::Type`
(`BasicNodeType = 0`, the others counting up). -/
def NodeType.value : NodeType → Nat
  | .BasicNodeType => 0
  | .RectangleNodeType => 1
  | .LayerNodeType => 2
  | .TransformNodeType => 3
  | .OpacityNodeType => 4

/-- All enumerators of `Node::Type`, in declaration order. -/
def NodeType.all : List NodeType :=
  [.BasicNodeType, .RectangleNodeType, .LayerNodeType, .TransformNodeType, .OpacityNodeType]

instance : Fintype NodeType :=
  ⟨⟨NodeType.all, by decide⟩, fun t => by cases t <;> decide⟩

/-- The value held by the bit-field `Type m_type : 4` after `v` is stored. -/
def tagField (v : Nat) : Nat := v % 2 ^ 4

/-- `Node::type()`. -/
def Node.type (x : Node) : NodeType := x.m_type

/-- The node classes `T` that declare `enum { StaticType = ... }`. -/
inductive NodeClass where
  | OpacityNode
  | TransformNode
  | RectangleNode
  | LayerNode
  deriving DecidableEq, Repr

/-- `T::StaticType`. -/
def NodeClass.StaticType : NodeClass → NodeType
  | .OpacityNode => .OpacityNodeType
  | .TransformNode => .TransformNodeType
  | .RectangleNode => .RectangleNodeType
  | .LayerNode => .LayerNodeType

/-- The tag that the public constructors of class `T` hand to `Node(Type)`:
`OpacityNode() : Node(OpacityNodeType)`, `TransformNode() :
Node(TransformNodeType)`, `RectangleNode() : Node(RectangleNodeType)`,
`LayerNode() : RectangleNode(LayerNodeType)`. -/
def NodeClass.constructedType : NodeClass → NodeType
  | .OpacityNode => .OpacityNodeType
  | .TransformNode => .TransformNodeType
  | .RectangleNode => .RectangleNodeType
  | .LayerNode => .LayerNodeType

/-- `Node::from<T>(Node *n)`:
`(n->type() == T::StaticType) ? static_cast<T *>(n) : 0`. -/
def Node.fromNode (T : NodeClass) (h : Heap) (n : NodeId) : Option NodeId :=
  if (h n).type = T.StaticType then some n else none

/-- The value type `vec4` of `common/mathtypes.h`, a file that is not among
the sources: four `float` components.  A `float` that is an ordinary number
is modelled as a rational; the code below only stores, compares and selects
components. -/
structure vec4 where
  x : ℚ
  y : ℚ
  z : ℚ
  w : ℚ
  deriving DecidableEq

/-- The value type `rect2d` of `common/mathtypes.h` (not among the sources);
it is only stored. -/
structure rect2d where
  tl : ℚ × ℚ
  br : ℚ × ℚ
  deriving DecidableEq

/-- `std::min(a, b)`, which is `(b < a) ? b : a`. -/
def stdMin (a b : ℚ) : ℚ := if b < a then b else a

/-- `std::max(a, b)`, which is `(a < b) ? b : a`. -/
def stdMax (a b : ℚ) : ℚ := if a < b then b else a

/-- The fields that `class RectangleNode` adds to `Node`, with the tag. -/
structure RectangleNode where
  m_type : NodeType
  m_geometry : rect2d
  m_color : vec4
  deriving DecidableEq

/-- `RectangleNode(const rect2d &geometry, const vec4 &color)`. -/
def RectangleNode.create (geometry : rect2d) (color : vec4) : RectangleNode :=
  { m_type := .RectangleNodeType, m_geometry := geometry, m_color := color }

/-- The protected `RectangleNode(Type type, const rect2d &geometry,
const vec4 &color)`. -/
def RectangleNode.createTyped (type : NodeType) (geometry : rect2d) (color : vec4) :
    RectangleNode :=
  { m_type := type, m_geometry := geometry, m_color := color }

/-- `RectangleNode::color()`. -/
def RectangleNode.color (n : RectangleNode) : vec4 := n.m_color

/-- `RectangleNode::setColor(const vec4 &color)`. -/
def RectangleNode.setColor (n : RectangleNode) (color : vec4) : RectangleNode :=
  let c0 := color
  let c1 := { c0 with x := stdMax (stdMin c0.x 1) 0 }
  let c2 := { c1 with y := stdMax (stdMin c1.y 1) 0 }
  let c3 := { c2 with z := stdMax (stdMin c2.z 1) 0 }
  let c4 := { c3 with w := stdMax (stdMin c3.w 1) 0 }
  { n with m_color := c4 }

/-- The function `clamp01 x = max(min(x, 1), 0)` of the order on numbers. -/
def clamp01 (x : ℚ) : ℚ := max (min x 1) 0

/-- Every component lies in `[0, 1]`. -/
def vec4.InUnitRange (c : vec4) : Prop :=
  (0 ≤ c.x ∧ c.x ≤ 1) ∧ (0 ≤ c.y ∧ c.y ≤ 1) ∧ (0 ≤ c.z ∧ c.z ≤ 1) ∧ (0 ≤ c.w ∧ c.w ≤ 1)

/-- The fields that `class OpacityNode` adds to `Node`, with the tag. -/
structure OpacityNode where
  m_type : NodeType
  m_opacity : ℚ
  deriving DecidableEq

/-- `OpacityNode()`: `Node(OpacityNodeType), m_opacity(1.0f)`. -/
def OpacityNode.default : OpacityNode := { m_type := .OpacityNodeType, m_opacity := 1 }

/-- `OpacityNode(float opacity)`. -/
def OpacityNode.create (opacity : ℚ) : OpacityNode :=
  { m_type := .OpacityNodeType, m_opacity := opacity }

/-- `OpacityNode::opacity()`. -/
def OpacityNode.opacity (n : OpacityNode) : ℚ := n.m_opacity

/-- `OpacityNode::setOpacity(float opacity)`. -/
def OpacityNode.setOpacity (n : OpacityNode) (opacity : ℚ) : OpacityNode :=
  { n with m_opacity := opacity }

/-! ### Events and the SDL backend (`windowsystem/event.h`, `backend/sdl/sdlbackend.h`) -/

/-- The enumeration `Event::Type`. -/
inductive EventType where
  | Invalid
  | PointerDown
  | PointerUp
  | PointerMove
  | KeyDown
  | KeyUp
  deriving DecidableEq, Repr

/-- The enumeration `KeyEvent::Key`. -/
inductive Key where
  | Key_0
  | Key_1
  | Key_2
  | Key_3
  | Key_4
  | Key_5
  | Key_6
  | Key_7
  | Key_8
  | Key_9
  | Key_A
  | Key_B
  | Key_C
  | Key_D
  | Key_E
  | Key_F
  | Key_G
  | Key_H
  | Key_I
  | Key_J
  | Key_K
  | Key_L
  | Key_M
  | Key_N
  | Key_O
  | Key_P
  | Key_Q
  | Key_R
  | Key_S
  | Key_T
  | Key_U
  | Key_V
  | Key_W
  | Key_X
  | Key_Y
  | Key_Z
  | Key_Up
  | Key_Left
  | Key_Right
  | Key_Down
  | Key_Enter
  | Key_Space
  | Key_Backspace
  | Key_Escape
  | Key_Shift
  | Key_Alt
  | Key_Ctrl
  deriving DecidableEq, Repr

/-- The numeric value of each enumerator of `KeyEvent::Key`: the keys count
up from `Key_0 = 0`; the modifiers are given explicitly. -/
def Key.value : Key → Nat
  | .Key_0 => 0
  | .Key_1 => 1
  | .Key_2 => 2
  | .Key_3 => 3
  | .Key_4 => 4
  | .Key_5 => 5
  | .Key_6 => 6
  | .Key_7 => 7
  | .Key_8 => 8
  | .Key_9 => 9
  | .Key_A => 10
  | .Key_B => 11
  | .Key_C => 12
  | .Key_D => 13
  | .Key_E => 14
  | .Key_F => 15
  | .Key_G => 16
  | .Key_H => 17
  | .Key_I => 18
  | .Key_J => 19
  | .Key_K => 20
  | .Key_L => 21
  | .Key_M => 22
  | .Key_N => 23
  | .Key_O => 24
  | .Key_P => 25
  | .Key_Q => 26
  | .Key_R => 27
  | .Key_S => 28
  | .Key_T => 29
  | .Key_U => 30
  | .Key_V => 31
  | .Key_W => 32
  | .Key_X => 33
  | .Key_Y => 34
  | .Key_Z => 35
  | .Key_Up => 36
  | .Key_Left => 37
  | .Key_Right => 38
  | .Key_Down => 39
  | .Key_Enter => 40
  | .Key_Space => 41
  | .Key_Backspace => 42
  | .Key_Escape => 43
  | .Key_Shift => 0x80
  | .Key_Alt => 0x100
  | .Key_Ctrl => 0x200

/-- The native key codes that the key table of `sendKeyEvent` names.  They
are constants of the SDL library. -/
inductive SDLKeyName where
  | SDLK_0
  | SDLK_1
  | SDLK_2
  | SDLK_3
  | SDLK_4
  | SDLK_5
  | SDLK_6
  | SDLK_7
  | SDLK_8
  | SDLK_9
  | SDLK_a
  | SDLK_b
  | SDLK_c
  | SDLK_d
  | SDLK_e
  | SDLK_f
  | SDLK_g
  | SDLK_h
  | SDLK_i
  | SDLK_j
  | SDLK_k
  | SDLK_l
  | SDLK_m
  | SDLK_n
  | SDLK_o
  | SDLK_p
  | SDLK_q
  | SDLK_r
  | SDLK_s
  | SDLK_t
  | SDLK_u
  | SDLK_v
  | SDLK_w
  | SDLK_x
  | SDLK_y
  | SDLK_z
  | SDLK_UP
  | SDLK_LEFT
  | SDLK_RIGHT
  | SDLK_DOWN
  | SDLK_RETURN
  | SDLK_KP_ENTER
  | SDLK_SPACE
  | SDLK_BACKSPACE
  | SDLK_ESCAPE
  deriving DecidableEq, Repr

/-- The type `SDL_Keycode` (a 32-bit signed integer). -/
abbrev SDL_Keycode := Int

/-- The values that SDL 2 (`SDL_keycode.h`) gives the named key codes:
printable keys have their character code, the others their scancode with
bit 30 set. -/
def sdl2Keycode : SDLKeyName → SDL_Keycode
  | .SDLK_0 => 48
  | .SDLK_1 => 49
  | .SDLK_2 => 50
  | .SDLK_3 => 51
  | .SDLK_4 => 52
  | .SDLK_5 => 53
  | .SDLK_6 => 54
  | .SDLK_7 => 55
  | .SDLK_8 => 56
  | .SDLK_9 => 57
  | .SDLK_a => 97
  | .SDLK_b => 98
  | .SDLK_c => 99
  | .SDLK_d => 100
  | .SDLK_e => 101
  | .SDLK_f => 102
  | .SDLK_g => 103
  | .SDLK_h => 104
  | .SDLK_i => 105
  | .SDLK_j => 106
  | .SDLK_k => 107
  | .SDLK_l => 108
  | .SDLK_m => 109
  | .SDLK_n => 110
  | .SDLK_o => 111
  | .SDLK_p => 112
  | .SDLK_q => 113
  | .SDLK_r => 114
  | .SDLK_s => 115
  | .SDLK_t => 116
  | .SDLK_u => 117
  | .SDLK_v => 118
  | .SDLK_w => 119
  | .SDLK_x => 120
  | .SDLK_y => 121
  | .SDLK_z => 122
  | .SDLK_UP => 1073741906
  | .SDLK_LEFT => 1073741904
  | .SDLK_RIGHT => 1073741903
  | .SDLK_DOWN => 1073741905
  | .SDLK_RETURN => 13
  | .SDLK_KP_ENTER => 1073741912
  | .SDLK_SPACE => 32
  | .SDLK_BACKSPACE => 8
  | .SDLK_ESCAPE => 27

/-- The initializer list of the static `keyMap` of `sendKeyEvent`, in source
order. -/
def keyMapEntries : List (SDLKeyName × Key) :=
  [(.SDLK_0, .Key_0),
   (.SDLK_1, .Key_1),
   (.SDLK_2, .Key_2),
   (.SDLK_3, .Key_3),
   (.SDLK_4, .Key_4),
   (.SDLK_5, .Key_5),
   (.SDLK_6, .Key_6),
   (.SDLK_7, .Key_7),
   (.SDLK_8, .Key_8),
   (.SDLK_9, .Key_9),
   (.SDLK_a, .Key_A),
   (.SDLK_b, .Key_B),
   (.SDLK_c, .Key_C),
   (.SDLK_d, .Key_D),
   (.SDLK_e, .Key_E),
   (.SDLK_f, .Key_F),
   (.SDLK_g, .Key_G),
   (.SDLK_h, .Key_H),
   (.SDLK_i, .Key_I),
   (.SDLK_j, .Key_J),
   (.SDLK_k, .Key_K),
   (.SDLK_l, .Key_L),
   (.SDLK_m, .Key_M),
   (.SDLK_n, .Key_N),
   (.SDLK_o, .Key_O),
   (.SDLK_p, .Key_P),
   (.SDLK_q, .Key_Q),
   (.SDLK_r, .Key_R),
   (.SDLK_s, .Key_S),
   (.SDLK_t, .Key_T),
   (.SDLK_u, .Key_U),
   (.SDLK_v, .Key_V),
   (.SDLK_w, .Key_W),
   (.SDLK_x, .Key_X),
   (.SDLK_y, .Key_Y),
   (.SDLK_z, .Key_Z),
   (.SDLK_UP, .Key_Up),
   (.SDLK_LEFT, .Key_Left),
   (.SDLK_RIGHT, .Key_Right),
   (.SDLK_DOWN, .Key_Down),
   (.SDLK_RETURN, .Key_Enter),
   (.SDLK_KP_ENTER, .Key_Enter),
   (.SDLK_SPACE, .Key_Space),
   (.SDLK_BACKSPACE, .Key_Backspace),
   (.SDLK_ESCAPE, .Key_Escape)]

/-- `keyMap.find(sym)` for the `std::unordered_map` built from the
initializer list (an entry whose key is already present is not inserted, so
the first entry for a code is the one kept); `none` stands for
`keyMap.end()`.  The values of the SDL constants are the parameter `code`. -/
def keyMapFind (code : SDLKeyName → SDL_Keycode) (sym : SDL_Keycode) : Option Key :=
  (keyMapEntries.find? (fun e => decide (code e.1 = sym))).map (fun e => e.2)

/-- A `KeyEvent` after `initialize(keyCode, modifiers)`. -/
structure KeyEvent where
  type : EventType
  m_keyCode : Key
  m_modifiers : Int
  deriving DecidableEq, Repr

/-- The fields of `SDL_Event` that `sendKeyEvent` reads:
`key.windowID` and `key.keysym.sym`. -/
structure SDL_KeyboardEvent where
  windowID : Nat
  sym : SDL_Keycode
  deriving DecidableEq, Repr

/-- The fields of `SDLBackend` used by the event functions.  The window is
identified with the id that `SDL_GetWindowID` returns for it; `none` is the
null pointer. -/
structure SDLBackend where
  m_surface : Option Nat
  m_window : Option Nat
  m_renderRequested : Bool
  deriving DecidableEq, Repr

/-- What a call of `sendKeyEvent` did: an `assert` failed, or it returned
after handing these events to `m_surface->onEvent`, in this order. -/
inductive Sent where
  | assertFailed
  | delivered (events : List KeyEvent)
  deriving DecidableEq, Repr

/-- `SDLBackend::sendKeyEvent(SDL_Event *sdlEvent, Event::Type type)`. -/
def sendKeyEvent (code : SDLKeyName → SDL_Keycode) (b : SDLBackend)
    (sdlEvent : SDL_KeyboardEvent) (type : EventType) : Sent :=
  match b.m_window with
  | none => .assertFailed                                   -- assert(m_window)
  | some w =>
    if w ≠ sdlEvent.windowID then .assertFailed             -- assert(window id matches)
    else
      match b.m_surface with
      | none => .assertFailed                               -- assert(m_surface)
      | some _ =>
        match keyMapFind code sdlEvent.sym with
        | none => .delivered []                             -- unknown key: return
        | some key =>
          -- KeyEvent keyEvent(type): assert(t == KeyDown || t == KeyUp)
          if type = .KeyDown ∨ type = .KeyUp then
            .delivered [{ type := type, m_keyCode := key, m_modifiers := 0 }]
          else .assertFailed

/-- A backend that owns window `7` and surface `1`. -/
def sampleBackend : SDLBackend :=
  { m_surface := some 1, m_window := some 7, m_renderRequested := false }

/-! ### Signals (`object/signal.h`) -/

/-- The address of a `Signal` object. -/
abbrev SignalId := Nat

/-- The address of a `SignalEmitter` object. -/
abbrev EmitterId := Nat

/-- The object a `std::shared_ptr<SignalHandler>` points to; two shared
pointers are equal, and hash alike, when they point to the same object. -/
abbrev HandlerId := Nat

/-- `Signal::Bucket`: the signal it belongs to and its
`std::unordered_set` of handlers, listed in the order in which a range-for
visits them (an order the container does not specify). -/
structure Bucket where
  signal : SignalId
  handlers : List HandlerId
  deriving DecidableEq, Repr

/-- The field `m_buckets` of every emitter: `none` is the null pointer, the
list is the vector it points to otherwise. -/
abbrev Emitters := EmitterId → Option (List Bucket)

/-- No emitter has a bucket vector yet (`m_buckets = nullptr`). -/
def noConnections : Emitters := fun _ => none

/-- `handlers.insert(handler)` on the unordered set. -/
def setInsert (s : List HandlerId) (x : HandlerId) : List HandlerId :=
  if x ∈ s then s else x :: s

/-- `handlers.erase(handler)` on the unordered set. -/
def setErase (s : List HandlerId) (x : HandlerId) : List HandlerId := s.erase x

/-- `Signal::findBucket(emitter)`: the first bucket in `*emitter->m_buckets`
whose `signal` is this signal; `none` is the null result. -/
def findBucket (st : Emitters) (this : SignalId) (emitter : EmitterId) : Option Bucket :=
  match st emitter with
  | none => none
  | some bs => bs.find? (fun b => decide (b.signal = this))

/-- A write to `bucket->handlers` through the pointer that `findBucket`
returned: the first bucket of the vector whose `signal` is `this` changes. -/
def updateBucket (this : SignalId) (f : List HandlerId → List HandlerId) :
    List Bucket → List Bucket
  | [] => []
  | b :: bs =>
    if b.signal = this then { b with handlers := f b.handlers } :: bs
    else b :: updateBucket this f bs

/-- `Signal::emit(emitter, args...)`: the handlers whose `onSignal(args...)`
is called, in call order. -/
def emit (st : Emitters) (this : SignalId) (emitter : EmitterId) : List HandlerId :=
  match findBucket st this emitter with
  | some bucket => bucket.handlers
  | none => []

/-- `Signal::connect(emitter, handler)`. -/
def connect (st : Emitters) (this : SignalId) (emitter : EmitterId) (handler : HandlerId) :
    Emitters :=
  match findBucket st this emitter with
  | none =>
    -- bucket = new Bucket(); bucket->signal = this; create the vector if
    -- there is none; push_back(bucket); bucket->handlers.insert(handler)
    let bs := match st emitter with
      | none => []
      | some bs => bs
    fun e => if e = emitter then some (bs ++ [{ signal := this, handlers := setInsert [] handler }])
      else st e
  | some _ =>
    fun e => if e = emitter then (st emitter).map (updateBucket this (fun s => setInsert s handler))
      else st e

/-- `Signal::disconnect(emitter, handler)`; `none` when `assert(bucket)`
fails. -/
def disconnect (st : Emitters) (this : SignalId) (emitter : EmitterId) (handler : HandlerId) :
    Option Emitters :=
  match findBucket st this emitter with
  | none => none
  | some _ =>
    some fun e =>
      if e = emitter then (st emitter).map (updateBucket this (fun s => setErase s handler))
      else st e

/-- The static signal `SignalEmitter::onDestruction`. -/
def onDestruction : SignalId := 0

/-- What `~SignalEmitter()` does, step by step. -/
inductive DestructionStep where
  /-- a call of `onSignal()` on a handler -/
  | onSignal (handler : HandlerId)
  /-- `delete bucket` for a bucket of the given signal -/
  | deleteBucket (signal : SignalId)
  /-- `delete m_buckets` -/
  | deleteBuckets
  deriving DecidableEq, Repr

/-- `SignalEmitter::~SignalEmitter()`: `onDestruction.emit(this)`, then every
bucket is deleted, then the vector.  Returns the steps in order and the
emitters afterwards, where the destroyed emitter has no buckets. -/
def destroyEmitter (st : Emitters) (this : EmitterId) : List DestructionStep × Emitters :=
  ((emit st onDestruction this).map DestructionStep.onSignal ++
    (match st this with
      | none => []
      | some bs => bs.map (fun b => DestructionStep.deleteBucket b.signal)) ++
    [DestructionStep.deleteBuckets],
   fun e => if e = this then none else st e)

/-- A call of `connect` or `disconnect` on signal `S` for emitter `E` with
handler `h`. -/
inductive SignalOp where
  | connect (S : SignalId) (E : EmitterId) (h : HandlerId)
  | disconnect (S : SignalId) (E : EmitterId) (h : HandlerId)
  deriving DecidableEq, Repr

/-- Performs one call. -/
def signalStep (st : Emitters) : SignalOp → Option Emitters
  | .connect S E h => some (connect st S E h)
  | .disconnect S E h => disconnect st S E h

/-- Performs the calls from left to right; `none` if an assertion failed. -/
def signalRun : List SignalOp → Emitters → Option Emitters
  | [], st => some st
  | op :: ops, st =>
    match signalStep st op with
    | none => none
    | some st1 => signalRun ops st1

/-- The effect of one call on the relation "handler `h` is connected to
signal `S` for emitter `E`", as the interface describes it. -/
def connectedStep (c : SignalId → EmitterId → HandlerId → Bool) :
    SignalOp → SignalId → EmitterId → HandlerId → Bool
  | .connect S E h => fun S1 E1 h1 => if S1 = S ∧ E1 = E ∧ h1 = h then true else c S1 E1 h1
  | .disconnect S E h => fun S1 E1 h1 => if S1 = S ∧ E1 = E ∧ h1 = h then false else c S1 E1 h1

/-- Whether, after the calls `ops` made from left to right, handler `h` has
been connected to `(S, E)` and not since disconnected; `c` is the relation
before the calls. -/
def connectedAfter (c : SignalId → EmitterId → HandlerId → Bool) :
    List SignalOp → SignalId → EmitterId → HandlerId → Bool
  | [] => c
  | op :: ops => connectedAfter (connectedStep c op) ops

/-- Nothing is connected. -/
def nothingConnected : SignalId → EmitterId → HandlerId → Bool := fun _ _ _ => false

/-- Handlers `100` and `103` are connected to signal `1` for emitter `10`,
handler `101` to the same signal for emitter `11`, handler `102` to signal `2`
for emitter `10`; then `103` is disconnected again. -/
def sampleSignalOps : List SignalOp :=
  [.connect 1 10 100, .connect 1 11 101, .connect 2 10 102, .connect 1 10 103,
   .disconnect 1 10 103]

/-- The emitters after `sampleSignalOps`. -/
def sampleEmitters : Emitters := (signalRun sampleSignalOps noConnections).getD noConnections

/-- Handler `100` is connected to `onDestruction` for emitter `10` and handler
`101` for emitter `11`. -/
def sampleDestructionOps : List SignalOp :=
  [.connect onDestruction 10 100, .connect onDestruction 11 101]

/-- The emitters after `sampleDestructionOps`. -/
def sampleDestructionEmitters : Emitters :=
  (signalRun sampleDestructionOps noConnections).getD noConnections

/-! ### Allocation pool (`common/allocationpool.h`) -/

/-- `AllocationPool<T>::Pool`.  A `T *` is a block offset from `memory`, so
`memory` only records whether the pointer is null (`none`) and its address;
`free` is the array the pointer `free` refers to (`none` for null). -/
structure Pool where
  memory : Option Nat
  free : Option (List Nat)
  nextFree : Nat
  size : Nat
  deriving DecidableEq, Repr

/-- The pool of a default-constructed `AllocationPool`: null pointers,
`nextFree = 0`, `size = 0`. -/
def Pool.fresh : Pool := { memory := none, free := none, nextFree := 0, size := 0 }

/-- Result of a pool function. -/
inductive PoolResult (α : Type) where
  /-- the call returned this value -/
  | ok (a : α)
  /-- an `assert` failed -/
  | assertFailed
  /-- the call read or wrote outside the `free` array -/
  | undefinedBehaviour
  deriving DecidableEq, Repr

/-- `AllocationPool::setMemory(void *m, unsigned blockCount)` with a non-null
`m`: after the assertions, `free[i] = i` for every `i < blockCount`.  The
parameter is an `unsigned`, so it holds the argument modulo `2 ^ 32`. -/
def Pool.setMemory (p : Pool) (m : Nat) (blockCount : Nat) : PoolResult Pool :=
  if p.memory = none ∧ p.free = none ∧ p.nextFree = 0 ∧ p.size = 0 then
    .ok { memory := some m, free := some (List.range (blockCount % 2 ^ 32)), nextFree := 0,
          size := blockCount % 2 ^ 32 }
  else .assertFailed

/-- `AllocationPool::isExhausted()`. -/
def Pool.isExhausted (p : Pool) : Bool := decide (p.nextFree ≥ p.size)

/-- `AllocationPool::isAlloctated(T *t)`: `unsigned(t - memory) < size`, where
`t` is given as the block offset `t - memory` and the conversion to
`unsigned` reduces it modulo `2 ^ 32`. -/
def Pool.isAlloctated (p : Pool) (t : Int) : Bool := decide ((t % 2 ^ 32).toNat < p.size)

/-- `AllocationPool::allocate()`: the new pool and the block offset of the
object returned. -/
def Pool.allocate (p : Pool) : PoolResult (Pool × Int) :=
  if p.isExhausted then .assertFailed                       -- assert(!isExhausted())
  else
    match p.memory with
    | none => .assertFailed                                 -- assert(m_pool->memory)
    | some _ =>
      match p.free with
      | none => .assertFailed                               -- assert(m_pool->free)
      | some fr =>
        match fr[p.nextFree]? with
        | none => .undefinedBehaviour
        | some i =>
          if i < p.size then                                -- assert(free[nextFree] < size)
            .ok ({ p with nextFree := p.nextFree + 1 }, (i : Int))
          else .assertFailed

/-- `AllocationPool::deallocate(T *t)`, with `t` given as the block offset
`t - memory`. -/
def Pool.deallocate (p : Pool) (t : Int) : PoolResult Pool :=
  match p.memory with
  | none => .assertFailed                                   -- assert(m_pool->memory)
  | some _ =>
    match p.free with
    | none => .assertFailed                                 -- assert(m_pool->free)
    | some fr =>
      if p.nextFree = 0 then .assertFailed                  -- assert(nextFree > 0)
      else if p.isAlloctated t = false then .assertFailed   -- assert(isAlloctated(t))
      else if p.nextFree - 1 < fr.length then
        .ok { p with nextFree := p.nextFree - 1,
                     free := some (fr.set (p.nextFree - 1) (t % 2 ^ 32).toNat) }
      else .undefinedBehaviour

/-- Modelled from the spec: an object of a class that uses
`RENGINE_ALLOCATION_POOL_DECLARATION`.  The helpers
`__mark_as_pool_allocated()` and `__is_pool_allocated()` are declared outside
the given sources; they are taken to set and to read a mark of the object
that is clear when the object is constructed.  `ptr` is the position of the
object as a block offset from the memory of the pool. -/
structure PoolObject where
  ptr : Int
  poolAllocated : Bool
  deriving DecidableEq, Repr

/-- The static `create()` of the macro.  `heapPtr` is where `new Type()`
places the object when the pool is exhausted. -/
def Pooled.create (p : Pool) (heapPtr : Int) : PoolResult (Pool × PoolObject) :=
  if p.isExhausted then .ok (p, { ptr := heapPtr, poolAllocated := false })
  else
    match p.allocate with
    | .ok (p1, t) => .ok (p1, { ptr := t, poolAllocated := true })
    | .assertFailed => .assertFailed
    | .undefinedBehaviour => .undefinedBehaviour

/-- The `destroy()` of the macro: `deallocate(this)` for a marked object,
`delete this` (which leaves the pool alone) otherwise. -/
def Pooled.destroy (p : Pool) (o : PoolObject) : PoolResult Pool :=
  if o.poolAllocated then p.deallocate o.ptr else .ok p

/-- A call on the pool of a pooled class. -/
inductive PoolOp where
  | setMemory (m : Nat) (blockCount : Nat)
  | create (heapPtr : Int)
  | destroy (o : PoolObject)
  deriving DecidableEq, Repr

/-- Performs one call and keeps the pool. -/
def poolStep (p : Pool) : PoolOp → PoolResult Pool
  | .setMemory m n => p.setMemory m n
  | .create heapPtr =>
    match Pooled.create p heapPtr with
    | .ok r => .ok r.1
    | .assertFailed => .assertFailed
    | .undefinedBehaviour => .undefinedBehaviour
  | .destroy o => Pooled.destroy p o

/-- Performs the calls from left to right; stops at the first that does not
return. -/
def poolRun : List PoolOp → Pool → PoolResult Pool
  | [], p => .ok p
  | op :: ops, p =>
    match poolStep p op with
    | .ok p1 => poolRun ops p1
    | .assertFailed => .assertFailed
    | .undefinedBehaviour => .undefinedBehaviour

/-- The pool has its arrays when it has blocks, `nextFree` is within the
array, and every entry of `free` is a block index. -/
def Pool.Sound (p : Pool) : Prop :=
  p.nextFree ≤ p.size ∧ p.size < 2 ^ 32 ∧
  (0 < p.size → p.memory ≠ none ∧
    ∃ fr, p.free = some fr ∧ fr.length = p.size ∧ ∀ x ∈ fr, x < p.size)

/-- A pool of two blocks is set up, three objects are created (the third on
the heap), and the object in block `0` is destroyed. -/
def samplePoolOps : List PoolOp :=
  [.setMemory 1000 2, .create 5000, .create 5001, .create 5002,
   .destroy { ptr := 0, poolAllocated := true }]

/-- The pool after `samplePoolOps`. -/
def samplePool : Pool :=
  { memory := some 1000, free := some [0, 0], nextFree := 1, size := 2 }

/-! ### `Node::dump` -/

/-- One line written by `Node::dump`: the number of leading spaces, the name
printed for the type, the address, the parent and the child count. -/
structure DumpLine where
  indent : Nat
  label : String
  node : NodeId
  parent : Option NodeId
  childCount : Nat
  deriving DecidableEq, Repr

/-- The name that the `switch` of `Node::dump` prints for a type. -/
def typeLabel : NodeType → String
  | .BasicNodeType => "Node"
  | .OpacityNodeType => "OpacityNode"
  | .TransformNodeType => "TransormNode"
  | .RectangleNodeType => "RectangleNode"
  | .LayerNodeType => "LayerNodeType"

/-- The line that `Node::dump(n, level)` writes for `n` itself. -/
def dumpLine (h : Heap) (n : NodeId) (level : Nat) : DumpLine :=
  { indent := level, label := typeLabel (h n).type, node := n, parent := (h n).m_parent,
    childCount := (h n).m_children.length }

/-- The loop `for (auto child : n->children()) dump(child, level + 1);`, given
what the recursive call writes for each child. -/
def dumpEach (f : NodeId → Option (List DumpLine)) : List NodeId → Option (List DumpLine)
  | [] => some []
  | c :: cs =>
    match f c with
    | none => none
    | some a =>
      match dumpEach f cs with
      | none => none
      | some b => some (a ++ b)

/-- `Node::dump(Node *n, unsigned level)`, unfolded at most `fuel` levels:
the lines written, in order.  `level + 1` is computed in `unsigned`. -/
def dump : Nat → Heap → NodeId → Nat → Option (List DumpLine)
  | 0, _, _, _ => none
  | fuel + 1, h, n, level =>
    match dumpEach (fun child => dump fuel h child ((level + 1) % 2 ^ 32)) (h n).m_children with
    | none => none
    | some rest => some (dumpLine h n level :: rest)

/-- The lines of the nodes found below `n` within `k` levels, in depth-first
pre-order, each indented one more than the node that lists it. -/
def preorderLines (h : Heap) : Nat → NodeId → Nat → List DumpLine
  | 0, _, _ => []
  | k + 1, n, level =>
    dumpLine h n level :: (h n).m_children.flatMap (fun c => preorderLines h k c (level + 1))

/-! ### The range searched by `evict` and `injectAbove` -/

/-- The bounds handed to `std::find`: `first` is the node whose
`m_children.begin()` starts the search, `last` the node whose
`m_children.end()` ends it. -/
structure SearchRange where
  first : NodeId
  last : NodeId
  deriving DecidableEq, Repr

/-- The search of `Node::evict()`:
`std::find(p->m_children.begin(), m_children.end(), this)` with
`p = parent()`; `none` when the node has no parent. -/
def evictSearchRange (h : Heap) (this : NodeId) : Option SearchRange :=
  (h this).m_parent.map fun p => { first := p, last := this }

/-- The search of `Node::injectAbove(node)`:
`std::find(p->m_children.begin(), p->m_children.end(), node)` with
`p = node->parent()`; `none` when `node` has no parent. -/
def injectAboveSearchRange (h : Heap) (node : NodeId) : Option SearchRange :=
  (h node).m_parent.map fun p => { first := p, last := p }

/-- The heap after `0.append(1)`. -/
def parentAndChild : Heap := (run [.append 0 1] freshHeap).heapOr freshHeap

/-! ### Layout of `KeyEvent::Key` -/

/-- The enumerators of `KeyEvent::Key` that come before the comment
`// Also modifiers`, in declaration order. -/
def nonModifierKeys : List Key :=
  [.Key_0, .Key_1, .Key_2, .Key_3, .Key_4, .Key_5, .Key_6, .Key_7, .Key_8, .Key_9, .Key_A,
   .Key_B, .Key_C, .Key_D, .Key_E, .Key_F, .Key_G, .Key_H, .Key_I, .Key_J, .Key_K, .Key_L,
   .Key_M, .Key_N, .Key_O, .Key_P, .Key_Q, .Key_R, .Key_S, .Key_T, .Key_U, .Key_V, .Key_W,
   .Key_X, .Key_Y, .Key_Z, .Key_Up, .Key_Left, .Key_Right, .Key_Down, .Key_Enter, .Key_Space,
   .Key_Backspace, .Key_Escape]

/-- The enumerators declared after `// Also modifiers`. -/
def modifierKeys : List Key := [.Key_Shift, .Key_Alt, .Key_Ctrl]

/-- A set of modifiers. -/
structure Modifiers where
  shift : Bool
  alt : Bool
  ctrl : Bool
  deriving DecidableEq, Repr

/-- The bitwise or of the flags of the modifiers in the set. -/
def Modifiers.mask (m : Modifiers) : Nat :=
  (if m.shift then Key.Key_Shift.value else 0) |||
  (if m.alt then Key.Key_Alt.value else 0) |||
  (if m.ctrl then Key.Key_Ctrl.value else 0)

/-- The value `k | m` of a key combined with a set of modifiers. -/
def keyWithModifiers (k : Key) (m : Modifiers) : Nat := k.value ||| m.mask

/-- All sets of modifiers. -/
def Modifiers.all : List Modifiers :=
  [⟨false, false, false⟩, ⟨true, false, false⟩, ⟨false, true, false⟩, ⟨true, true, false⟩,
   ⟨false, false, true⟩, ⟨true, false, true⟩, ⟨false, true, true⟩, ⟨true, true, true⟩]

/-- The native key codes named in the key table, in the order of
`SDLKeyName`. -/
def SDLKeyName.all : List SDLKeyName :=
  [.SDLK_0, .SDLK_1, .SDLK_2, .SDLK_3, .SDLK_4, .SDLK_5, .SDLK_6, .SDLK_7, .SDLK_8, .SDLK_9,
   .SDLK_a, .SDLK_b, .SDLK_c, .SDLK_d, .SDLK_e, .SDLK_f, .SDLK_g, .SDLK_h, .SDLK_i, .SDLK_j,
   .SDLK_k, .SDLK_l, .SDLK_m, .SDLK_n, .SDLK_o, .SDLK_p, .SDLK_q, .SDLK_r, .SDLK_s, .SDLK_t,
   .SDLK_u, .SDLK_v, .SDLK_w, .SDLK_x, .SDLK_y, .SDLK_z, .SDLK_UP, .SDLK_LEFT, .SDLK_RIGHT,
   .SDLK_DOWN, .SDLK_RETURN, .SDLK_KP_ENTER, .SDLK_SPACE, .SDLK_BACKSPACE, .SDLK_ESCAPE]

/-- The native key codes that the key table maps to `key`, by name, in
table order. -/
def keyMapNames (key : Key) : List SDLKeyName :=
  (keyMapEntries.filter (fun e => decide (e.2 = key))).map (fun e => e.1)

/-! ### Live blocks of the allocation pool -/

/-- A pool together with the blocks that are live: those handed out by
`allocate()` and not yet given back.  The list is not part of the program. -/
structure TrackedPool where
  pool : Pool
  live : List Nat
  deriving DecidableEq, Repr

/-- A call of `allocate()`, or of `deallocate(t)` with `t` the block of index
`block`. -/
inductive BlockOp where
  | allocate
  | deallocate (block : Nat)
  deriving DecidableEq, Repr

/-- Performs one call and updates the list of live blocks. -/
def trackedStep (s : TrackedPool) : BlockOp → PoolResult TrackedPool
  | .allocate =>
    match s.pool.allocate with
    | .ok r => .ok { pool := r.1, live := r.2.toNat :: s.live }
    | .assertFailed => .assertFailed
    | .undefinedBehaviour => .undefinedBehaviour
  | .deallocate i =>
    match s.pool.deallocate (i : Int) with
    | .ok p => .ok { pool := p, live := s.live.erase i }
    | .assertFailed => .assertFailed
    | .undefinedBehaviour => .undefinedBehaviour

/-- Performs the calls from left to right; stops at the first that does not
return. -/
def trackedRun : List BlockOp → TrackedPool → PoolResult TrackedPool
  | [], s => .ok s
  | op :: ops, s =>
    match trackedStep s op with
    | .ok s1 => trackedRun ops s1
    | .assertFailed => .assertFailed
    | .undefinedBehaviour => .undefinedBehaviour

/-- The caller's obligation for one call: `allocate()` only when the pool is
not exhausted, `deallocate(t)` only on a live block. -/
def BlockOp.allowed (s : TrackedPool) : BlockOp → Prop
  | .allocate => s.pool.isExhausted = false
  | .deallocate i => i ∈ s.live

/-- Every call of the sequence meets the caller's obligation. -/
def Disciplined : List BlockOp → TrackedPool → Prop
  | [], _ => True
  | op :: ops, s =>
    op.allowed s ∧
    match trackedStep s op with
    | .ok s1 => Disciplined ops s1
    | _ => True

/-- The free-list invariant: the entries `free[nextFree ..]` are pairwise
distinct and are exactly the block indices that are not live, and `nextFree`
counts the live blocks. -/
def FreeListInv (s : TrackedPool) : Prop :=
  s.pool.memory ≠ none ∧ s.pool.size < 2 ^ 32 ∧
  ∃ fr, s.pool.free = some fr ∧ fr.length = s.pool.size ∧
    s.pool.nextFree = s.live.length ∧ s.pool.nextFree ≤ s.pool.size ∧
    (fr.drop s.pool.nextFree).Nodup ∧ s.live.Nodup ∧
    (∀ i, i ∈ fr.drop s.pool.nextFree ↔ (i < s.pool.size ∧ i ∉ s.live)) ∧
    (∀ i ∈ s.live, i < s.pool.size)

/-- A pool of three blocks right after `setMemory`, with no live block. -/
def samplePool3 : TrackedPool :=
  { pool := { memory := some 1000, free := some [0, 1, 2], nextFree := 0, size := 3 },
    live := [] }

/-- Two blocks are taken, the first is given back, and one more is taken. -/
def sampleBlockOps : List BlockOp := [.allocate, .allocate, .deallocate 0, .allocate]

/-- The emitters after `connect(emitter, handler)` has been called `n` times
on the same signal with the same handler object. -/
def connectTimes (st : Emitters) (this : SignalId) (emitter : EmitterId) (handler : HandlerId) :
    Nat → Emitters
  | 0 => st
  | n + 1 => connectTimes (connect st this emitter handler) this emitter handler n

/-! ### Render requests (`backend/sdl/sdlbackend.h`) -/

/-- What `processEvents` reads of an `SDL_Event` taken from the queue. -/
inductive SDL_Event where
  /-- an event of type `SDL_USEREVENT` -/
  | userEvent
  /-- an event of type `SDL_WINDOWEVENT`, with `window.windowID` and whether
  `window.event` is `SDL_WINDOWEVENT_RESIZED` -/
  | windowEvent (windowID : Nat) (resized : Bool)
  /-- an event of any other type -/
  | other
  deriving DecidableEq, Repr

/-- The backend together with SDL's event queue, oldest event first. -/
structure EventLoop where
  backend : SDLBackend
  queue : List SDL_Event
  deriving DecidableEq, Repr

/-- `SDLBackend::requestRender()`; `SDL_PushEvent` is taken to succeed and
puts the event at the back of the queue. -/
def requestRender (s : EventLoop) : EventLoop :=
  if s.backend.m_renderRequested then s                      -- if (m_renderRequested) return;
  else
    { backend := { s.backend with m_renderRequested := true }
      queue := s.queue ++ [SDL_Event.userEvent] }

/-- The number `n` of calls of `requestRender()` in a row. -/
def requestRenderTimes : Nat → EventLoop → EventLoop
  | 0, s => s
  | n + 1, s => requestRenderTimes n (requestRender s)

/-- The number of render events waiting in the queue. -/
def pendingRenders (s : EventLoop) : Nat := s.queue.count SDL_Event.userEvent

/-- `SDL_GetWindowID(m_window)`, which is `0` for a null window. -/
def getWindowID (b : SDLBackend) : Nat := b.m_window.getD 0

/-- `SDLBackend::processEvents()`.  `evt` is `1` when an event is waiting and
`0` otherwise, so the loop body runs at most once, on the oldest event.  The
functions of the surface are application code: `inHandler` is the number of
`requestRender()` calls made by the function the event is handed to
(`onRender` for `SDL_USEREVENT`, `onEvent` for an input event, nothing for a
window event) and `inTick` the number made by `onTick`.  `none` is the call
through a null `m_surface`. -/
def processEvents (s : EventLoop) (inHandler inTick : Nat) : Option EventLoop :=
  match s.backend.m_surface with
  | none => none
  | some _ =>
    let s1 : EventLoop :=
      match s.queue with
      | [] => s
      | SDL_Event.userEvent :: rest =>
        -- m_renderRequested = false; m_surface->onRender();
        requestRenderTimes inHandler
          { backend := { s.backend with m_renderRequested := false }, queue := rest }
      | SDL_Event.windowEvent windowID resized :: rest =>
        if windowID ≠ getWindowID s.backend then { s with queue := rest }
        else if resized then requestRender { s with queue := rest }
        else { s with queue := rest }
      | SDL_Event.other :: rest => requestRenderTimes inHandler { s with queue := rest }
    -- m_surface->onTick();
    some (requestRenderTimes inTick s1)

/-- What happens to the backend and the queue between and in the calls of
`processEvents`. -/
inductive LoopOp where
  /-- a call of `requestRender()` from outside `processEvents` -/
  | requestRender
  /-- SDL puts a window event on the queue -/
  | postWindow (windowID : Nat) (resized : Bool)
  /-- SDL puts an event of another type, not `SDL_USEREVENT`, on the queue -/
  | postOther
  /-- a call of `processEvents()` -/
  | processEvents (inHandler inTick : Nat)
  deriving DecidableEq, Repr

/-- Performs one step. -/
def loopStep (s : EventLoop) : LoopOp → Option EventLoop
  | .requestRender => some (requestRender s)
  | .postWindow windowID resized =>
    some { s with queue := s.queue ++ [SDL_Event.windowEvent windowID resized] }
  | .postOther => some { s with queue := s.queue ++ [SDL_Event.other] }
  | .processEvents inHandler inTick => processEvents s inHandler inTick

/-- Performs the steps from left to right. -/
def loopRun : List LoopOp → EventLoop → Option EventLoop
  | [], s => some s
  | op :: ops, s =>
    match loopStep s op with
    | none => none
    | some s1 => loopRun ops s1

/-- The backend of `sampleBackend` with an empty event queue. -/
def sampleLoop : EventLoop := { backend := sampleBackend, queue := [] }

/-- A render is requested, a resize of the own window arrives, the render
runs and requests three more, the resize is handled with two requests from
`onTick`, and another render is requested. -/
def sampleLoopOps : List LoopOp :=
  [.requestRender, .postWindow 7 true, .processEvents 3 0, .processEvents 0 2, .requestRender]

/-- The loop after `sampleLoopOps`. -/
def sampleLoopAfter : EventLoop := (loopRun sampleLoopOps sampleLoop).getD sampleLoop

/-- The number of waiting render events is one when the flag is set and zero
when it is clear. -/
def RenderInv (s : EventLoop) : Prop :=
  pendingRenders s = if s.backend.m_renderRequested = true then 1 else 0

end Rengine

/-! ## Theorems -/

namespace Rengine

@[simp] theorem setChildren_children (h : Heap) (n : NodeId) (cs : List NodeId) (m : NodeId) :
    (setChildren h n cs m).m_children = if m = n then cs else (h m).m_children := by
  unfold setChildren; split <;> simp_all

@[simp] theorem setChildren_parent (h : Heap) (n : NodeId) (cs : List NodeId) (m : NodeId) :
    (setChildren h n cs m).m_parent = (h m).m_parent := by
  unfold setChildren; split <;> simp_all

@[simp] theorem setParentField_parent (h : Heap) (n : NodeId) (p : Option NodeId) (m : NodeId) :
    (setParentField h n p m).m_parent = if m = n then p else (h m).m_parent := by
  unfold setParentField; split <;> simp_all

@[simp] theorem setParentField_children (h : Heap) (n : NodeId) (p : Option NodeId)
    (m : NodeId) : (setParentField h n p m).m_children = (h m).m_children := by
  unfold setParentField; split <;> simp_all

theorem sameData_refl (h : Heap) : SameData h h := fun _ => ⟨rfl, rfl, rfl, rfl⟩

theorem sameData_trans {h g k : Heap} (a : SameData h g) (b : SameData g k) : SameData h k :=
  fun m => ⟨(b m).1.trans (a m).1, (b m).2.1.trans (a m).2.1,
    (b m).2.2.1.trans (a m).2.2.1, (b m).2.2.2.trans (a m).2.2.2⟩

theorem sameData_setChildren (h : Heap) (n : NodeId) (cs : List NodeId) :
    SameData h (setChildren h n cs) := by
  intro m; unfold setChildren; split <;> simp_all

theorem sameData_setParentField (h : Heap) (n : NodeId) (p : Option NodeId) :
    SameData h (setParentField h n p) := by
  intro m; unfold setParentField; split <;> simp_all

theorem vecFind_eq_length (v : List NodeId) (x : NodeId) :
    vecFind v x = v.length ↔ x ∉ v := by
  unfold vecFind; exact List.indexOf_eq_length

theorem vecErase_vecFind (v : List NodeId) (x : NodeId) :
    vecErase v (vecFind v x) = v.erase x := by
  unfold vecErase vecFind; exact List.eraseIdx_indexOf_eq_erase x v

/-- The heap left by a successful `append`. -/
theorem append_done (h : Heap) (P c : NodeId) (hpar : (h c).m_parent = none)
    (hnot : c ∉ (h P).m_children) :
    append h P c =
      .done (setParentField (setChildren h P ((h P).m_children ++ [c])) c (some P)) := by
  simp [append, setParent, vecFind_eq_length, hnot, hpar]

/-- The heap left by a successful `prepend`. -/
theorem prepend_done (h : Heap) (P c : NodeId) (hpar : (h c).m_parent = none)
    (hnot : c ∉ (h P).m_children) :
    prepend h P c =
      .done (setParentField (setChildren h P (c :: (h P).m_children)) c (some P)) := by
  simp [prepend, setParent, vecFind_eq_length, hnot, hpar, vecInsert]

/-- The heap left by a successful `remove`. -/
theorem remove_done (h : Heap) (P c : NodeId) (hmem : c ∈ (h P).m_children) :
    remove h P c =
      .done (setParentField (setChildren h P ((h P).m_children.erase c)) c none) := by
  simp [remove, setParent, vecFind_eq_length, hmem, vecErase_vecFind]

/-- C5: when `c` has no parent and is not a child of `P`, `P.append(c)` returns
with child sequence `cs ++ [c]` and `P.prepend(c)` returns with `c :: cs`; in
both cases the parent of `c` is `P`, no other child sequence and no other
parent reference changes, and the remaining fields of every node are kept.
The chained form `P << a << b << d` appends `a`, `b`, `d` in that order. -/
theorem append_prepend_placement (h : Heap) (P c : NodeId)
    (hpar : (h c).m_parent = none) (hnot : c ∉ (h P).m_children) :
    (∃ g, append h P c = .done g ∧
      (g P).m_children = (h P).m_children ++ [c] ∧ (g c).m_parent = some P ∧
      (∀ m, m ≠ P → (g m).m_children = (h m).m_children) ∧
      (∀ m, m ≠ c → (g m).m_parent = (h m).m_parent) ∧ SameData h g) ∧
    (∃ g, prepend h P c = .done g ∧
      (g P).m_children = c :: (h P).m_children ∧ (g c).m_parent = some P ∧
      (∀ m, m ≠ P → (g m).m_children = (h m).m_children) ∧
      (∀ m, m ≠ c → (g m).m_parent = (h m).m_parent) ∧ SameData h g) ∧
    (∀ a b : NodeId, (h a).m_parent = none → (h b).m_parent = none →
      a ∉ (h P).m_children → b ∉ (h P).m_children → a ≠ b → a ≠ c → b ≠ c →
      ∃ g, shiftLeft3 h P a b c = .done g ∧
        (g P).m_children = (h P).m_children ++ [a, b, c] ∧
        (g a).m_parent = some P ∧ (g b).m_parent = some P ∧ (g c).m_parent = some P) := by
  refine ⟨⟨_, append_done h P c hpar hnot, ?_⟩, ⟨_, prepend_done h P c hpar hnot, ?_⟩, ?_⟩
  · refine ⟨by simp, by simp, ?_, ?_, ?_⟩
    · intro m hm; simp [hm]
    · intro m hm; simp [hm]
    · exact sameData_trans (sameData_setChildren _ _ _) (sameData_setParentField _ _ _)
  · refine ⟨by simp, by simp, ?_, ?_, ?_⟩
    · intro m hm; simp [hm]
    · intro m hm; simp [hm]
    · exact sameData_trans (sameData_setChildren _ _ _) (sameData_setParentField _ _ _)
  · intro a b ha hb hna hnb hab hac hbc
    have e1 := append_done h P a ha hna
    have e2 := append_done (setParentField (setChildren h P ((h P).m_children ++ [a])) a (some P))
      P b (by simp [Ne.symm hab, hb]) (by simp [hnb, Ne.symm hab])
    have e3 := append_done _ P c
      (show ((setParentField (setChildren
        (setParentField (setChildren h P ((h P).m_children ++ [a])) a (some P)) P
        (((setParentField (setChildren h P ((h P).m_children ++ [a])) a (some P)) P).m_children
          ++ [b])) b (some P)) c).m_parent = none by simp [Ne.symm hac, Ne.symm hbc, hpar])
      (by simp [hnot, Ne.symm hac, Ne.symm hbc])
    simp only [shiftLeft3, shiftLeft, e1, Outcome.bind, e2, e3]
    refine ⟨_, rfl, ?_⟩
    simp [hab, hac, hbc, Ne.symm hab, Ne.symm hac, Ne.symm hbc]

/-- Witness for C5: on the fresh heap node `1` is appended and prepended to
node `0`. -/
theorem append_prepend_placement_witness :
    (∃ g, append freshHeap 0 1 = .done g ∧
      (g 0).m_children = (freshHeap 0).m_children ++ [1] ∧ (g 1).m_parent = some 0 ∧
      (∀ m, m ≠ 0 → (g m).m_children = (freshHeap m).m_children) ∧
      (∀ m, m ≠ 1 → (g m).m_parent = (freshHeap m).m_parent) ∧ SameData freshHeap g) ∧
    (∃ g, prepend freshHeap 0 1 = .done g ∧
      (g 0).m_children = 1 :: (freshHeap 0).m_children ∧ (g 1).m_parent = some 0 ∧
      (∀ m, m ≠ 0 → (g m).m_children = (freshHeap m).m_children) ∧
      (∀ m, m ≠ 1 → (g m).m_parent = (freshHeap m).m_parent) ∧ SameData freshHeap g) ∧
    (∀ a b : NodeId, (freshHeap a).m_parent = none → (freshHeap b).m_parent = none →
      a ∉ (freshHeap 0).m_children → b ∉ (freshHeap 0).m_children → a ≠ b → a ≠ 1 → b ≠ 1 →
      ∃ g, shiftLeft3 freshHeap 0 a b 1 = .done g ∧
        (g 0).m_children = (freshHeap 0).m_children ++ [a, b, 1] ∧
        (g a).m_parent = some 0 ∧ (g b).m_parent = some 0 ∧ (g 1).m_parent = some 0) :=
  append_prepend_placement freshHeap 0 1 rfl (by simp [freshHeap, Node.new])

/-- C6: `append` and `prepend` stop at an assertion exactly when the child
already has a parent or already occurs in the child sequence of the target;
in every other case they return. -/
theorem append_prepend_fail_iff (h : Heap) (P c : NodeId) :
    ((append h P c).failed ↔ ((h c).m_parent ≠ none ∨ c ∈ (h P).m_children)) ∧
    ((prepend h P c).failed ↔ ((h c).m_parent ≠ none ∨ c ∈ (h P).m_children)) ∧
    ((append h P c).failed → ∃ g, append h P c = .assertFailed g) ∧
    ((prepend h P c).failed → ∃ g, prepend h P c = .assertFailed g) ∧
    (¬ ((h c).m_parent ≠ none ∨ c ∈ (h P).m_children) →
      ∃ g k, append h P c = .done g ∧ prepend h P c = .done k) := by
  by_cases hmem : c ∈ (h P).m_children
  · have ea : append h P c = .assertFailed h := by
      simp [append, vecFind_eq_length, hmem]
    have ep : prepend h P c = .assertFailed h := by
      simp [prepend, vecFind_eq_length, hmem]
    simp [ea, ep, Outcome.failed, hmem]
  · cases hpar : (h c).m_parent with
    | none =>
      simp [append_done h P c hpar hmem, prepend_done h P c hpar hmem, Outcome.failed, hmem]
    | some q =>
      have ea : append h P c =
          .assertFailed (setChildren h P ((h P).m_children ++ [c])) := by
        simp [append, setParent, vecFind_eq_length, hmem, hpar]
      have ep : prepend h P c =
          .assertFailed (setChildren h P (c :: (h P).m_children)) := by
        simp [prepend, setParent, vecFind_eq_length, hmem, hpar, vecInsert]
      simp [ea, ep, Outcome.failed]

/-- C7: `P.remove(c)` stops at its assertion exactly when `c` is not in the
child sequence of `P`.  Otherwise it returns: the child sequence of `P` is
the former one with `c` erased, `c` has no parent, `c` is still alive, the
child sequence of every node other than `P` (so that of `c`) and the parent
reference of every node other than `c` (so those of its descendants) are
unchanged, and the remaining fields of every node are kept. -/
theorem remove_spec (h : Heap) (P c : NodeId) :
    ((remove h P c).failed ↔ c ∉ (h P).m_children) ∧
    (c ∉ (h P).m_children → remove h P c = .assertFailed h) ∧
    (c ∈ (h P).m_children → ∃ g, remove h P c = .done g ∧
      (g P).m_children = (h P).m_children.erase c ∧
      (g P).m_children.Sublist (h P).m_children ∧
      (g c).m_parent = none ∧ (g c).alive = (h c).alive ∧
      (c ≠ P → (g c).m_children = (h c).m_children) ∧
      (∀ m, m ≠ P → (g m).m_children = (h m).m_children) ∧
      (∀ m, m ≠ c → (g m).m_parent = (h m).m_parent) ∧ SameData h g) := by
  by_cases hmem : c ∈ (h P).m_children
  · have e := remove_done h P c hmem
    refine ⟨by simp [e, Outcome.failed, hmem], fun hn => absurd hmem hn, fun _ => ⟨_, e, ?_⟩⟩
    have hs : SameData h (setParentField (setChildren h P ((h P).m_children.erase c)) c none) :=
      sameData_trans (sameData_setChildren _ _ _) (sameData_setParentField _ _ _)
    refine ⟨by simp, by simpa using List.erase_sublist c _, by simp, (hs c).2.2.2, ?_, ?_, ?_, hs⟩
    · intro hm; simp [hm]
    · intro m hm; simp [hm]
    · intro m hm; simp [hm]
  · have e : remove h P c = .assertFailed h := by
      simp [remove, vecFind_eq_length, hmem]
    exact ⟨by simp [e, Outcome.failed, hmem], fun _ => e, fun hm => absurd hm hmem⟩

/-- The heap left by a successful `injectAbove`. -/
theorem injectAbove_done (h : Heap) (N E P : NodeId)
    (hN : (h N).m_parent = none) (hE : (h E).m_parent = some P)
    (hmem : E ∈ (h P).m_children) :
    injectAbove h N E = .done
      (setParentField
        (setChildren
          (setParentField
            (setChildren h P ((h P).m_children.set (vecFind (h P).m_children E) N)) N (some P))
          N
          (((setParentField
            (setChildren h P ((h P).m_children.set (vecFind (h P).m_children E) N)) N (some P))
              N).m_children ++ [E]))
        E (some N)) := by
  have hne : vecFind (h P).m_children E ≠ (h P).m_children.length := by
    simp [vecFind_eq_length, hmem]
  rw [injectAbove, hE]
  simp only [hN, ne_eq, not_true_eq_false, if_false, hne]

/-- C4 (as stated, refuted): node `5` is detached and has the child `2`, node
`1` has parent `0`; after `5.injectAbove(1)` the child sequence of `5` is
`[2, 1]`, not `[1]`. -/
theorem injectAbove_not_sole_child :
    (run [.append 0 1, .append 5 2] freshHeap).links 5 = some (none, [2]) ∧
    (run [.append 0 1, .append 5 2] freshHeap).links 1 = some (some 0, []) ∧
    (run [.append 0 1, .append 5 2, .injectAbove 5 1] freshHeap).links 5
      = some (some 0, [2, 1]) ∧
    ([2, 1] : List NodeId) ≠ [1] := by
  refine ⟨by decide, by decide, by decide, by decide⟩

/-- C4 (amended): for a detached node `N` and a node `E` listed by its parent
`P`, `N.injectAbove(E)` returns; the child sequence of `P` is the former one
with the entry at the index of `E` replaced by `N`, the parent of `N` is `P`,
the parent of `E` is `N`, and the child sequence of `N` is its former child
sequence followed by `E` (exactly `[E]` when `N` had no children).  When `N`
is `P` itself both writes go to the one sequence.  Nothing else changes. -/
theorem injectAbove_spec (h : Heap) (N E P : NodeId)
    (hN : (h N).m_parent = none) (hE : (h E).m_parent = some P)
    (hmem : E ∈ (h P).m_children) :
    ∃ g, injectAbove h N E = .done g ∧
      (N ≠ P → (g P).m_children = (h P).m_children.set ((h P).m_children.indexOf E) N) ∧
      (g N).m_parent = some P ∧ (g E).m_parent = some N ∧
      (N ≠ P → (g N).m_children = (h N).m_children ++ [E]) ∧
      (N = P → (g N).m_children =
        (h P).m_children.set ((h P).m_children.indexOf E) N ++ [E]) ∧
      ((h N).m_children = [] → (g N).m_children = [E]) ∧
      (∀ m, m ≠ P → m ≠ N → (g m).m_children = (h m).m_children) ∧
      (∀ m, m ≠ N → m ≠ E → (g m).m_parent = (h m).m_parent) ∧ SameData h g := by
  have hne : vecFind (h P).m_children E ≠ (h P).m_children.length := by
    simp [vecFind_eq_length, hmem]
  have hEN : E ≠ N := by
    intro e; rw [e, hN] at hE; exact Option.noConfusion hE
  refine ⟨_, injectAbove_done h N E P hN hE hmem, ?_⟩
  refine ⟨?_, ?_, ?_, ?_, ?_, ?_, ?_, ?_, ?_⟩
  · intro hNP; simp [Ne.symm hNP, vecFind]
  · simp [Ne.symm hEN]
  · simp
  · intro hNP; simp [hNP]
  · intro hNP; simp [hNP, vecFind]
  · intro hnil
    by_cases hNP : N = P
    · subst hNP; rw [hnil] at hmem; exact absurd hmem (List.not_mem_nil E)
    · simp [hNP, hnil]
  · intro m hmP hmN; simp [hmP, hmN]
  · intro m hmN hmE; simp [hmN, hmE]
  · exact sameData_trans (sameData_trans (sameData_trans (sameData_setChildren _ _ _)
      (sameData_setParentField _ _ _)) (sameData_setChildren _ _ _))
      (sameData_setParentField _ _ _)

/-- Witness for C4: a heap with two nodes linked, `0` the parent of `1`;
node `5` is detached and has no children. -/
theorem injectAbove_spec_witness :
    ∃ g, injectAbove (setParentField (setChildren freshHeap 0 [1]) 1 (some 0)) 5 1 = .done g ∧
      (5 ≠ 0 → (g 0).m_children =
        ((setParentField (setChildren freshHeap 0 [1]) 1 (some 0)) 0).m_children.set
          (((setParentField (setChildren freshHeap 0 [1]) 1 (some 0)) 0).m_children.indexOf 1) 5) ∧
      (g 5).m_parent = some 0 ∧ (g 1).m_parent = some 5 ∧
      (5 ≠ 0 → (g 5).m_children =
        ((setParentField (setChildren freshHeap 0 [1]) 1 (some 0)) 5).m_children ++ [1]) ∧
      (5 = 0 → (g 5).m_children =
        ((setParentField (setChildren freshHeap 0 [1]) 1 (some 0)) 0).m_children.set
          (((setParentField (setChildren freshHeap 0 [1]) 1 (some 0)) 0).m_children.indexOf 1) 5
          ++ [1]) ∧
      (((setParentField (setChildren freshHeap 0 [1]) 1 (some 0)) 5).m_children = [] →
        (g 5).m_children = [1]) ∧
      (∀ m, m ≠ 0 → m ≠ 5 → (g m).m_children =
        ((setParentField (setChildren freshHeap 0 [1]) 1 (some 0)) m).m_children) ∧
      (∀ m, m ≠ 5 → m ≠ 1 → (g m).m_parent =
        ((setParentField (setChildren freshHeap 0 [1]) 1 (some 0)) m).m_parent) ∧
      SameData (setParentField (setChildren freshHeap 0 [1]) 1 (some 0)) g :=
  injectAbove_spec (setParentField (setChildren freshHeap 0 [1]) 1 (some 0)) 5 1 0
    (by decide) (by decide) (by decide)

/-! ### `evict` -/

theorem evictLoop_parent (p : NodeId) (pos : Nat) (kids : List NodeId) (h : Heap) (m : NodeId) :
    (evictLoop p pos kids h m).m_parent = if m ∈ kids then some p else (h m).m_parent := by
  induction kids generalizing h with
  | nil => simp [evictLoop]
  | cons i rest ih =>
    simp only [evictLoop, ih, List.mem_cons]
    by_cases h1 : m ∈ rest
    · simp [h1]
    · by_cases h2 : m = i <;> simp [h1, h2]

theorem evictLoop_children_other (p : NodeId) (pos : Nat) (kids : List NodeId) (h : Heap)
    (m : NodeId) (hm : m ≠ p) : (evictLoop p pos kids h m).m_children = (h m).m_children := by
  induction kids generalizing h with
  | nil => simp [evictLoop]
  | cons i rest ih => simp [evictLoop, ih, hm]

theorem evictLoop_children_parent (p : NodeId) (pos : Nat) (kids : List NodeId) (h : Heap)
    (hpos : pos ≤ (h p).m_children.length) :
    (evictLoop p pos kids h p).m_children =
      (h p).m_children.take pos ++ kids.reverse ++ (h p).m_children.drop pos := by
  induction kids generalizing h with
  | nil => simp [evictLoop]
  | cons i rest ih =>
    simp only [evictLoop]
    rw [ih]
    · simp only [setParentField_children, setChildren_children, if_true, vecInsert]
      have h1 : ((h p).m_children.take pos ++ i :: (h p).m_children.drop pos).take pos =
          (h p).m_children.take pos := by
        rw [List.take_append_of_le_length (by simp [hpos])]
        simp [List.take_take]
      have h2 : ((h p).m_children.take pos ++ i :: (h p).m_children.drop pos).drop pos =
          i :: (h p).m_children.drop pos := by
        rw [List.drop_append_of_le_length (by simp [hpos])]
        simp [List.drop_eq_nil_of_le, hpos]
      rw [h1, h2]; simp
    · simp [vecInsert]; omega

theorem sameData_evictLoop (p : NodeId) (pos : Nat) (kids : List NodeId) (h : Heap) :
    SameData h (evictLoop p pos kids h) := by
  induction kids generalizing h with
  | nil => exact sameData_refl h
  | cons i rest ih =>
    exact sameData_trans (sameData_trans (sameData_setChildren _ _ _)
      (sameData_setParentField _ _ _)) (ih _)

/-- The heap left by the statements of `evict` after the search, when the
search has returned the position of the node in its parent's vector. -/
theorem evictFrom_done (h : Heap) (C p : NodeId) (hmem : C ∈ (h p).m_children) :
    evictFrom h C p (vecFind (h p).m_children C) = .done
      (setParentField (setChildren
        (evictLoop p (vecFind (h p).m_children C)
          ((setChildren h p (vecErase (h p).m_children (vecFind (h p).m_children C)) C).m_children)
          (setChildren h p (vecErase (h p).m_children (vecFind (h p).m_children C))))
        C []) C none) := by
  have hne : vecFind (h p).m_children C ≠ (h p).m_children.length := by
    simp [vecFind_eq_length, hmem]
  have hlt : ¬ (h p).m_children.length < vecFind (h p).m_children C := by
    have := List.indexOf_lt_length.2 hmem
    simp only [vecFind]; omega
  simp only [evictFrom, hne, hlt, if_false]

/-- `evict` on a node without parent stops at its first assertion. -/
theorem evict_of_root (h : Heap) (C : NodeId) (hC : (h C).m_parent = none) :
    evict h C = .assertFailed h := by
  rw [evict, hC]

/-- `evict` on a node whose parent is another node hands `std::find` the
`begin()` of one vector and the `end()` of another. -/
theorem evict_of_other (h : Heap) (C p : NodeId) (hC : (h C).m_parent = some p)
    (hne : p ≠ C) : evict h C = .undefinedBehaviour := by
  rw [evict, hC]
  simp only [hne, if_false]

/-- `evict` on a node that is its own parent searches its own vector. -/
theorem evict_of_self (h : Heap) (C : NodeId) (hC : (h C).m_parent = some C) :
    evict h C = evictFrom h C C (vecFind (h C).m_children C) := by
  rw [evict, hC]
  simp only [if_true]

/-- The links after the statements of `evict` that follow the search, on a
node `C` listed by another node `p`, when the search has returned the
position of `C`: the entry `C` of `p` is replaced by the children of `C` in
reverse order. -/
theorem evictFrom_links (h : Heap) (C p : NodeId)
    (hmem : C ∈ (h p).m_children) (hne : p ≠ C) :
    ∃ g, evictFrom h C p (vecFind (h p).m_children C) = .done g ∧
      (g p).m_children = (h p).m_children.take ((h p).m_children.indexOf C)
        ++ (h C).m_children.reverse
        ++ (h p).m_children.drop ((h p).m_children.indexOf C + 1) ∧
      (g C).m_children = [] ∧
      (∀ m, m ≠ p → m ≠ C → (g m).m_children = (h m).m_children) ∧
      (∀ m, (g m).m_parent =
        if m = C then none else if m ∈ (h C).m_children then some p else (h m).m_parent) ∧
      SameData h g := by
  have hlt : (h p).m_children.indexOf C < (h p).m_children.length :=
    List.indexOf_lt_length.2 hmem
  refine ⟨_, evictFrom_done h C p hmem, ?_, ?_, ?_, ?_, ?_⟩
  · simp only [setParentField_children, setChildren_children, if_neg hne, if_neg (Ne.symm hne)]
    rw [evictLoop_children_parent]
    · simp only [setChildren_children, if_true, vecErase, vecFind]
      rw [List.eraseIdx_eq_take_drop_succ]
      have h1 : ((h p).m_children.take ((h p).m_children.indexOf C) ++
          (h p).m_children.drop ((h p).m_children.indexOf C + 1)).take
            ((h p).m_children.indexOf C) = (h p).m_children.take ((h p).m_children.indexOf C) := by
        rw [List.take_append_of_le_length (by simp; omega)]
        simp [List.take_take]
      have h2 : ((h p).m_children.take ((h p).m_children.indexOf C) ++
          (h p).m_children.drop ((h p).m_children.indexOf C + 1)).drop
            ((h p).m_children.indexOf C) =
          (h p).m_children.drop ((h p).m_children.indexOf C + 1) := by
        rw [List.drop_append_of_le_length (by simp; omega)]
        simp [List.drop_eq_nil_of_le]
      rw [h1, h2]
    · simp only [setChildren_children, if_true, vecErase, vecFind, List.length_eraseIdx]
      split <;> omega
  · simp
  · intro m hmp hmC
    simp only [setParentField_children, setChildren_children, if_neg hmC]
    rw [evictLoop_children_other _ _ _ _ _ hmp]
    simp [hmp]
  · intro m
    simp only [setParentField_parent, setChildren_parent, evictLoop_parent,
      setChildren_children, if_neg (Ne.symm hne)]
  · exact sameData_trans (sameData_trans (sameData_trans (sameData_setChildren _ _ _)
      (sameData_evictLoop _ _ _ _)) (sameData_setChildren _ _ _))
      (sameData_setParentField _ _ _)

/-- C2 (the code departs from the claim): node `1` sits between `7` and `8`
under node `0` and has the children `[2, 3]`.  `1.evict()` as written does
not return: its search is bounded by iterators of two vectors.  When the
search is taken to return the position `1` of node `1` in the vector of `0`,
the statements that follow leave `0` with the child sequence `[7, 3, 2, 8]`:
the children arrive in reverse order. -/
theorem evict_reverses_children :
    (run [.append 0 7, .append 0 1, .append 0 8, .append 1 2, .append 1 3]
      freshHeap).links 0 = some (none, [7, 1, 8]) ∧
    (run [.append 0 7, .append 0 1, .append 0 8, .append 1 2, .append 1 3]
      freshHeap).links 1 = some (some 0, [2, 3]) ∧
    run [.append 0 7, .append 0 1, .append 0 8, .append 1 2, .append 1 3, .evict 1]
      freshHeap = .undefinedBehaviour ∧
    (evictFrom ((run [.append 0 7, .append 0 1, .append 0 8, .append 1 2, .append 1 3]
      freshHeap).heapOr freshHeap) 1 0 1).links 0 = some (none, [7, 3, 2, 8]) := by
  refine ⟨by decide, by decide, rfl, by decide⟩

/-! ### Parent/child consistency -/

theorem Consistent.mem_of_parent {h : Heap} (hc : Consistent h) {c p : NodeId}
    (hp : (h c).m_parent = some p) : c ∈ (h p).m_children := by
  have := hc.1 c p hp
  exact List.count_pos_iff.1 (by omega)

theorem Consistent.nodup {h : Heap} (hc : Consistent h) (p : NodeId) :
    (h p).m_children.Nodup :=
  List.nodup_iff_count_eq_one.2 fun c hcm => hc.1 c p (hc.2 p c hcm)

theorem consistent_of {h : Heap} (hn : ∀ p, (h p).m_children.Nodup)
    (hm : ∀ c p, c ∈ (h p).m_children ↔ (h c).m_parent = some p) : Consistent h :=
  ⟨fun c p hp => List.count_eq_one_of_mem (hn p) ((hm c p).2 hp), fun p c hc => (hm c p).1 hc⟩

theorem Consistent.mem_iff {h : Heap} (hc : Consistent h) (c p : NodeId) :
    c ∈ (h p).m_children ↔ (h c).m_parent = some p :=
  ⟨hc.2 p c, hc.mem_of_parent⟩

theorem consistent_of_detached {h : Heap} (hd : Detached h) : Consistent h := by
  refine consistent_of (fun p => by simp [(hd p).2]) (fun c p => ?_)
  simp [(hd p).2, (hd c).1]

theorem detached_freshHeap : Detached freshHeap := fun _ => ⟨rfl, rfl⟩

/-- C8 (the code departs from the claim): after `0.append(1)` node `1` has a
parent, yet `1.evict()` does not return and does not stop at an assertion
either: its search is bounded by iterators of two vectors.  In general
`evict` stops at its first assertion, on the unmodified heap, when the node
has no parent, and has undefined behaviour whenever the parent is another
node.  `N.injectAbove(E)` stops at an assertion, on the unmodified heap,
exactly when `E` has no parent, `N` already has one, or the parent of `E`
does not list `E`; the last case cannot arise when the links are
consistent. -/
theorem evict_not_fail_fast :
    (parentAndChild 1).m_parent = some 0 ∧
    evict parentAndChild 1 = .undefinedBehaviour ∧
    (∀ (h : Heap) (N : NodeId), (h N).m_parent = none → evict h N = .assertFailed h) ∧
    (∀ (h : Heap) (N p : NodeId), (h N).m_parent = some p → p ≠ N →
      evict h N = .undefinedBehaviour) ∧
    (∀ (h : Heap) (N E : NodeId), (injectAbove h N E).failed ↔
      ((h E).m_parent = none ∨ (h N).m_parent ≠ none ∨
        ∃ p, (h E).m_parent = some p ∧ E ∉ (h p).m_children)) ∧
    (∀ (h : Heap) (N E : NodeId), (injectAbove h N E).failed →
      injectAbove h N E = .assertFailed h) ∧
    (∀ (h : Heap) (N E : NodeId), Consistent h →
      ((injectAbove h N E).failed ↔ ((h E).m_parent = none ∨ (h N).m_parent ≠ none))) := by
  have hi : ∀ (h : Heap) (N E : NodeId),
      ((injectAbove h N E).failed ↔
        ((h E).m_parent = none ∨ (h N).m_parent ≠ none ∨
          ∃ p, (h E).m_parent = some p ∧ E ∉ (h p).m_children)) ∧
      ((injectAbove h N E).failed → injectAbove h N E = .assertFailed h) := by
    intro h N E
    cases hp : (h E).m_parent with
    | none =>
      have e : injectAbove h N E = .assertFailed h := by rw [injectAbove, hp]
      simp [e, Outcome.failed]
    | some p =>
      cases hn : (h N).m_parent with
      | none =>
        by_cases hmem : E ∈ (h p).m_children
        · have e := injectAbove_done h N E p hn hp hmem
          simp [e, Outcome.failed, hmem]
        · have e : injectAbove h N E = .assertFailed h := by
            rw [injectAbove, hp]
            simp [hn, (vecFind_eq_length _ _).2 hmem]
          simp [e, Outcome.failed, hmem]
      | some q =>
        have e : injectAbove h N E = .assertFailed h := by
          rw [injectAbove, hp]; simp [hn]
        simp [e, Outcome.failed]
  refine ⟨by decide, rfl, evict_of_root, evict_of_other, fun h N E => (hi h N E).1,
    fun h N E => (hi h N E).2, ?_⟩
  intro h N E hc
  rw [(hi h N E).1]
  constructor
  · rintro (h1 | h1 | ⟨p, hp, hn⟩)
    · exact Or.inl h1
    · exact Or.inr h1
    · exact absurd (hc.mem_of_parent hp) hn
  · rintro (h1 | h1)
    · exact Or.inl h1
    · exact Or.inr (Or.inl h1)


/-! ### Preprocess -/

theorem requestTimes_other (h : Heap) (n m : NodeId) (r : Nat) (hm : m ≠ n) :
    requestTimes h n r m = h m := by
  induction r generalizing h with
  | zero => rfl
  | succ r ih => rw [requestTimes, ih]; simp [requestPreprocess, hm]

theorem requestTimes_self (h : Heap) (n : NodeId) (r : Nat) :
    requestTimes h n r n =
      { h n with m_preprocess := if r = 0 then (h n).m_preprocess else true } := by
  induction r generalizing h with
  | zero => rfl
  | succ r ih =>
    rw [requestTimes, ih]
    by_cases hr : r = 0 <;> simp [requestPreprocess, hr]

theorem preprocess_self (h : Heap) (n : NodeId) :
    preprocess h n n =
      { h n with m_preprocess := false,
                 hookCalls := (h n).hookCalls + if (h n).m_preprocess then 1 else 0 } := by
  unfold preprocess
  cases hf : (h n).m_preprocess with
  | false =>
    have : h n = { h n with m_preprocess := false } := by rw [← hf]
    simpa using this
  | true => simp [onPreprocess]

theorem preprocess_other (h : Heap) (n m : NodeId) (hm : m ≠ n) : preprocess h n m = h m := by
  unfold preprocess
  split <;> simp [onPreprocess, hm]

theorem preprocessTimes_self (h : Heap) (n : NodeId) (k : Nat) :
    preprocessTimes h n (k + 1) n =
      { h n with m_preprocess := false,
                 hookCalls := (h n).hookCalls + if (h n).m_preprocess then 1 else 0 } := by
  induction k generalizing h with
  | zero => simp [preprocessTimes, preprocess_self]
  | succ k ih =>
    rw [preprocessTimes, ih, preprocess_self]
    simp

/-- C10: after `preprocess()` the flag is clear; `preprocess()` enters the
`onPreprocess` hook once if the flag was set and not at all otherwise, and
touches no other node; `r` calls of `requestPreprocess()` followed by `k + 1`
calls of `preprocess()` enter the hook exactly once when `r ≥ 1` (or the flag
was already set) and leave the flag clear; `preprocess()` on a freshly
constructed node changes nothing. -/
theorem preprocess_one_shot (h : Heap) (n : NodeId) :
    (preprocess h n n).m_preprocess = false ∧
    (preprocess h n n).hookCalls = (h n).hookCalls + (if (h n).m_preprocess then 1 else 0) ∧
    (∀ m, m ≠ n → preprocess h n m = h m) ∧
    (∀ r k, (preprocessTimes (requestTimes h n r) n (k + 1) n).m_preprocess = false ∧
      (preprocessTimes (requestTimes h n r) n (k + 1) n).hookCalls =
        (h n).hookCalls + (if 1 ≤ r ∨ (h n).m_preprocess = true then 1 else 0)) ∧
    (∀ t, h n = Node.new t → preprocess h n = h ∧ (preprocess h n n).hookCalls = 0) := by
  refine ⟨by simp [preprocess_self], by simp [preprocess_self],
    fun m hm => preprocess_other h n m hm, ?_, ?_⟩
  · intro r k
    rw [preprocessTimes_self, requestTimes_self]
    by_cases hr : r = 0
    · subst hr; simp
    · have : 1 ≤ r := Nat.one_le_iff_ne_zero.2 hr
      simp [hr, this]
  · intro t ht
    have hf : (h n).m_preprocess = false := by rw [ht]; rfl
    have e : preprocess h n = h := by
      unfold preprocess; simp [hf]
    exact ⟨e, by rw [e, ht]; rfl⟩

/-! ### Preservation of consistency -/

theorem append_inv {h g : Heap} {P c : NodeId} (e : append h P c = .done g) :
    (h c).m_parent = none ∧ c ∉ (h P).m_children := by
  by_cases hmem : c ∈ (h P).m_children
  · simp [append, vecFind_eq_length, hmem] at e
  · cases hp : (h c).m_parent with
    | none => exact ⟨rfl, hmem⟩
    | some q => simp [append, setParent, vecFind_eq_length, hmem, hp] at e

theorem prepend_inv {h g : Heap} {P c : NodeId} (e : prepend h P c = .done g) :
    (h c).m_parent = none ∧ c ∉ (h P).m_children := by
  by_cases hmem : c ∈ (h P).m_children
  · simp [prepend, vecFind_eq_length, hmem] at e
  · cases hp : (h c).m_parent with
    | none => exact ⟨rfl, hmem⟩
    | some q => simp [prepend, setParent, vecFind_eq_length, hmem, hp] at e

theorem remove_inv {h g : Heap} {P c : NodeId} (e : remove h P c = .done g) :
    c ∈ (h P).m_children := by
  by_cases hmem : c ∈ (h P).m_children
  · exact hmem
  · simp [remove, vecFind_eq_length, hmem] at e

theorem injectAbove_inv {h g : Heap} {N E : NodeId} (e : injectAbove h N E = .done g) :
    (h N).m_parent = none ∧ ∃ P, (h E).m_parent = some P ∧ E ∈ (h P).m_children := by
  cases hp : (h E).m_parent with
  | none => simp [injectAbove, hp] at e
  | some P =>
    cases hn : (h N).m_parent with
    | some q => simp [injectAbove, hp, hn] at e
    | none =>
      refine ⟨rfl, P, rfl, ?_⟩
      by_cases hmem : E ∈ (h P).m_children
      · exact hmem
      · simp [injectAbove, hp, hn, vecFind_eq_length, hmem] at e

/-- A call of `evict` that returned was made on a node that is its own
parent and lists itself. -/
theorem evict_inv {h g : Heap} {C : NodeId} (e : evict h C = .done g) :
    (h C).m_parent = some C ∧ C ∈ (h C).m_children := by
  cases hp : (h C).m_parent with
  | none => rw [evict_of_root h C hp] at e; exact Outcome.noConfusion e
  | some p =>
    by_cases hpc : p = C
    · subst hpc
      refine ⟨rfl, ?_⟩
      by_cases hmem : p ∈ (h p).m_children
      · exact hmem
      · have : vecFind (h p).m_children p = (h p).m_children.length :=
          (vecFind_eq_length _ _).2 hmem
        rw [evict_of_self h p hp, evictFrom, if_pos this] at e
        exact Outcome.noConfusion e
    · rw [evict_of_other h C p hp hpc] at e
      exact Outcome.noConfusion e

theorem consistent_append {h : Heap} (hc : Consistent h) {P c : NodeId}
    (hp : (h c).m_parent = none) (hn : c ∉ (h P).m_children) :
    Consistent (setParentField (setChildren h P ((h P).m_children ++ [c])) c (some P)) := by
  refine consistent_of (fun p => ?_) (fun x p => ?_)
  · by_cases e : p = P
    · subst e
      simp only [setParentField_children, setChildren_children, if_true]
      exact List.nodup_append.2 ⟨hc.nodup p, List.nodup_singleton c, by simpa using hn⟩
    · simpa [e] using hc.nodup p
  · by_cases e : p = P <;> by_cases e2 : x = c
    · subst e; subst e2; simp
    · subst e; simp [e2, hc.mem_iff]
    · subst e2; simp [e, hc.mem_iff, hp, Ne.symm e]
    · simp [e, e2, hc.mem_iff]

theorem consistent_prepend {h : Heap} (hc : Consistent h) {P c : NodeId}
    (hp : (h c).m_parent = none) (hn : c ∉ (h P).m_children) :
    Consistent (setParentField (setChildren h P (c :: (h P).m_children)) c (some P)) := by
  refine consistent_of (fun p => ?_) (fun x p => ?_)
  · by_cases e : p = P
    · subst e
      simp only [setParentField_children, setChildren_children, if_true]
      exact List.nodup_cons.2 ⟨hn, hc.nodup p⟩
    · simpa [e] using hc.nodup p
  · by_cases e : p = P <;> by_cases e2 : x = c
    · subst e; subst e2; simp
    · subst e; simp [e2, hc.mem_iff]
    · subst e2; simp [e, hc.mem_iff, hp, Ne.symm e]
    · simp [e, e2, hc.mem_iff]

theorem consistent_remove {h : Heap} (hc : Consistent h) {P c : NodeId}
    (hm : c ∈ (h P).m_children) :
    Consistent (setParentField (setChildren h P ((h P).m_children.erase c)) c none) := by
  have hcp : (h c).m_parent = some P := hc.2 P c hm
  refine consistent_of (fun p => ?_) (fun x p => ?_)
  · by_cases e : p = P
    · subst e
      simp only [setParentField_children, setChildren_children, if_true]
      exact (hc.nodup p).erase c
    · simpa [e] using hc.nodup p
  · by_cases e : p = P <;> by_cases e2 : x = c
    · subst e; subst e2; simp [(hc.nodup p).mem_erase_iff]
    · subst e; simp [e2, (hc.nodup p).mem_erase_iff, hc.mem_iff]
    · subst e2; simp [e, hc.mem_iff, hcp, Ne.symm e]
    · simp [e, e2, hc.mem_iff]

theorem take_drop_indexOf (cs : List NodeId) (E : NodeId) :
    cs.take (cs.indexOf E) ++ cs.drop (cs.indexOf E + 1) = cs.erase E := by
  rw [← List.eraseIdx_eq_take_drop_succ, List.eraseIdx_indexOf_eq_erase]

theorem set_indexOf_perm (cs : List NodeId) (E N : NodeId) (hE : E ∈ cs) :
    (cs.set (cs.indexOf E) N).Perm (N :: cs.erase E) := by
  rw [List.set_eq_take_append_cons_drop, if_pos (List.indexOf_lt_length.2 hE),
    ← take_drop_indexOf]
  exact List.perm_middle

theorem splice_perm (cs kids : List NodeId) (C : NodeId) :
    (cs.take (cs.indexOf C) ++ kids.reverse ++ cs.drop (cs.indexOf C + 1)).Perm
      (kids ++ cs.erase C) := by
  rw [← take_drop_indexOf, List.append_assoc]
  refine (List.perm_append_comm_assoc _ _ _).trans ?_
  exact List.Perm.append_right _ (List.reverse_perm kids)

theorem consistent_injectAbove {h : Heap} (hc : Consistent h) {N E P : NodeId}
    (hN : (h N).m_parent = none) (hE : (h E).m_parent = some P) :
    Consistent (setParentField
        (setChildren
          (setParentField
            (setChildren h P ((h P).m_children.set (vecFind (h P).m_children E) N)) N (some P))
          N
          (((setParentField
            (setChildren h P ((h P).m_children.set (vecFind (h P).m_children E) N)) N (some P))
              N).m_children ++ [E]))
        E (some N)) := by
  have hmem : E ∈ (h P).m_children := hc.mem_of_parent hE
  have hEN : E ≠ N := by
    intro e; rw [e, hN] at hE; exact Option.noConfusion hE
  have hNn : ∀ p, N ∉ (h p).m_children := fun p hm => by
    have := hc.2 p N hm; rw [hN] at this; exact Option.noConfusion this
  have hperm := set_indexOf_perm (h P).m_children E N hmem
  have hnd : ((h P).m_children.set ((h P).m_children.indexOf E) N).Nodup :=
    hperm.nodup_iff.2 (List.nodup_cons.2
      ⟨fun hm => hNn P (List.mem_of_mem_erase hm), (hc.nodup P).erase E⟩)
  have hmemset : ∀ x, x ∈ (h P).m_children.set ((h P).m_children.indexOf E) N ↔
      x = N ∨ (x ≠ E ∧ (h x).m_parent = some P) := fun x => by
    rw [hperm.mem_iff, List.mem_cons, (hc.nodup P).mem_erase_iff, hc.mem_iff]
  have hEset : E ∉ (h P).m_children.set ((h P).m_children.indexOf E) N := by
    rw [hmemset]; simp [hEN]
  refine consistent_of (fun p => ?_) (fun x p => ?_)
  · by_cases e1 : p = N
    · subst e1
      by_cases e2 : p = P
      · subst e2
        simp only [setParentField_children, setChildren_children, if_true, vecFind]
        exact List.nodup_append.2 ⟨hnd, List.nodup_singleton E, by simpa using hEset⟩
      · simp only [setParentField_children, setChildren_children, if_true, if_neg e2]
        refine List.nodup_append.2 ⟨hc.nodup p, List.nodup_singleton E, ?_⟩
        intro y hy hy2
        rw [List.mem_singleton] at hy2
        subst hy2
        have := hc.2 p y hy
        rw [hE] at this
        exact e2 (Option.some.inj this).symm
    · by_cases e2 : p = P
      · subst e2
        simpa [e1, vecFind] using hnd
      · simpa [e1, e2] using hc.nodup p
  · by_cases e1 : p = N
    · subst e1
      by_cases e2 : p = P
      · subst e2
        simp only [setParentField_children, setChildren_children, setParentField_parent,
          setChildren_parent, if_true, vecFind, List.mem_append, List.mem_singleton, hmemset]
        by_cases e3 : x = E
        · simp [e3]
        · by_cases e4 : x = p <;> simp [e3, e4]
      · simp only [setParentField_children, setChildren_children, setParentField_parent,
          setChildren_parent, if_true, if_neg e2, List.mem_append, List.mem_singleton,
          hc.mem_iff]
        by_cases e3 : x = E
        · simp [e3]
        · by_cases e4 : x = p
          · subst e4; simp [e3, hN, Ne.symm e2]
          · simp [e3, e4]
    · by_cases e2 : p = P
      · subst e2
        simp only [setParentField_children, setChildren_children, setParentField_parent,
          setChildren_parent, if_true, if_neg e1, vecFind, hmemset]
        by_cases e3 : x = E
        · simp [e3, hEN, Ne.symm e1]
        · by_cases e4 : x = N <;> simp [e3, e4, Ne.symm hEN]
      · simp only [setParentField_children, setChildren_children, setParentField_parent,
          setChildren_parent, if_neg e1, if_neg e2, hc.mem_iff]
        by_cases e3 : x = E
        · simp [e3, hE, Ne.symm e1, Ne.symm e2]
        · by_cases e4 : x = N
          · simp [e3, e4, hN, Ne.symm e2, Ne.symm hEN]
          · simp [e3, e4]

/-- The statements of `evict` that follow the search keep the links
consistent when the search has returned the position of the node in the
vector of its parent, another node. -/
theorem consistent_evictFrom {h g : Heap} (hc : Consistent h) {C p : NodeId}
    (hC : (h C).m_parent = some p) (hne : p ≠ C)
    (e : evictFrom h C p (vecFind (h p).m_children C) = .done g) :
    Consistent g := by
  obtain ⟨g1, e1, hp1, hC1, hother, hpar, _⟩ := evictFrom_links h C p (hc.mem_of_parent hC) hne
  rw [e] at e1
  have hg : g = g1 := Outcome.done.inj e1
  subst hg
  have hperm := splice_perm (h p).m_children (h C).m_children C
  rw [← hp1] at hperm
  have hmemp : ∀ x, x ∈ (g p).m_children ↔
      (h x).m_parent = some C ∨ (x ≠ C ∧ (h x).m_parent = some p) := fun x => by
    rw [hperm.mem_iff, List.mem_append, (hc.nodup p).mem_erase_iff, hc.mem_iff, hc.mem_iff]
  refine consistent_of (fun q => ?_) (fun x q => ?_)
  · by_cases e2 : q = C
    · subst e2; rw [hC1]; exact List.nodup_nil
    · by_cases e3 : q = p
      · subst e3
        refine hperm.nodup_iff.2 (List.nodup_append.2 ⟨hc.nodup C, (hc.nodup q).erase C, ?_⟩)
        intro y hy hy2
        have h1 := hc.2 C y hy
        have h2 := hc.2 q y (List.mem_of_mem_erase hy2)
        rw [h1] at h2
        exact hne (Option.some.inj h2).symm
      · rw [hother q e3 e2]; exact hc.nodup q
  · rw [hpar x]
    by_cases e2 : q = C
    · subst e2
      rw [hC1]
      by_cases e4 : x = q
      · simp [e4]
      · simp only [if_neg e4, hc.mem_iff, List.not_mem_nil, false_iff]
        by_cases e5 : (h x).m_parent = some q
        · simp [e5, hne]
        · simp [e5]
    · by_cases e3 : q = p
      · subst e3
        rw [hmemp]
        by_cases e4 : x = C
        · subst e4; simp [hC, hne]
        · simp only [if_neg e4, hc.mem_iff]
          by_cases e5 : (h x).m_parent = some C
          · simp [e5]
          · simp [e5, e4]
      · rw [hother q e3 e2, hc.mem_iff]
        by_cases e4 : x = C
        · subst e4; simp [hC, e3, Ne.symm e3]
        · simp only [if_neg e4, hc.mem_iff]
          by_cases e5 : (h x).m_parent = some C
          · simp [e5, Ne.symm e2, Ne.symm e3]
          · simp [e5]

/-- One returning call keeps the links consistent, unless it is `evict` on a
node that is its own parent. -/
theorem consistent_step {h g : Heap} (hc : Consistent h) (op : Op)
    (hs : ¬ selfEvict h op) (e : step h op = .done g) : Consistent g := by
  cases op with
  | append t c =>
    have hi := append_inv e
    have e2 := append_done h t c hi.1 hi.2
    simp only [step] at e
    rw [e] at e2
    rw [Outcome.done.inj e2]
    exact consistent_append hc hi.1 hi.2
  | prepend t c =>
    have hi := prepend_inv e
    have e2 := prepend_done h t c hi.1 hi.2
    simp only [step] at e
    rw [e] at e2
    rw [Outcome.done.inj e2]
    exact consistent_prepend hc hi.1 hi.2
  | remove t c =>
    have hi := remove_inv e
    have e2 := remove_done h t c hi
    simp only [step] at e
    rw [e] at e2
    rw [Outcome.done.inj e2]
    exact consistent_remove hc hi
  | injectAbove t n =>
    obtain ⟨hN, P, hE, hm⟩ := injectAbove_inv e
    have e2 := injectAbove_done h t n P hN hE hm
    simp only [step] at e
    rw [e] at e2
    rw [Outcome.done.inj e2]
    exact consistent_injectAbove hc hN hE
  | evict t => exact absurd (evict_inv e).1 hs

/-- Consistency along a sequence of returning calls. -/
theorem consistent_run (ops : List Op) {h g : Heap} (hc : Consistent h)
    (hs : NoSelfEvict ops h) (e : run ops h = .done g) : Consistent g := by
  induction ops generalizing h with
  | nil =>
    simp only [run] at e
    rw [← Outcome.done.inj e]; exact hc
  | cons op ops ih =>
    simp only [run] at e
    cases hstep : step h op with
    | done h1 =>
      rw [hstep] at e
      have hs2 : NoSelfEvict ops h1 := by
        have := hs.2
        rw [hstep] at this
        exact this
      exact ih (consistent_step hc op hs.1 hstep) hs2 e
    | assertFailed h1 => rw [hstep] at e; exact Outcome.noConfusion e
    | undefinedBehaviour => rw [hstep] at e; exact Outcome.noConfusion e
    | outOfFuel => rw [hstep] at e; exact Outcome.noConfusion e

theorem ancestor_succ (h : Heap) (k : Nat) (n p : NodeId) (hp : (h n).m_parent = some p) :
    ancestor h (k + 1) n = ancestor h k p := by
  simp [ancestor, hp]

theorem ancestor_succ_none (h : Heap) (k : Nat) (n : NodeId) (hp : (h n).m_parent = none) :
    ancestor h (k + 1) n = none := by
  simp [ancestor, hp]

theorem ancestor_add (h : Heap) (a b : Nat) (n : NodeId) :
    ancestor h (a + b) n = (ancestor h a n).bind (ancestor h b) := by
  induction a generalizing n with
  | zero => simp [ancestor]
  | succ a ih =>
    rw [Nat.add_right_comm]
    cases hp : (h n).m_parent with
    | none => simp [ancestor_succ_none h _ n hp]
    | some q => rw [ancestor_succ h _ n q hp, ancestor_succ h _ n q hp, ih]

/-- A cycle through `n` that passes `c` is also a cycle through `c`. -/
theorem ancestor_rotate (h : Heap) (k j : Nat) (n c : NodeId)
    (hk : ancestor h k n = some n) (hj : ancestor h j n = some c) :
    ancestor h k c = some c := by
  have h1 : ancestor h (j + k) n = ancestor h k c := by
    rw [ancestor_add, hj]; rfl
  have h2 : ancestor h (k + j) n = some c := by
    rw [ancestor_add, hk]; exact hj
  rw [← h1, Nat.add_comm, h2]

/-- If every parent link of `g` is one or two parent links of `h`, a parent
chain of `g` is a parent chain of `h` that is at least as long. -/
theorem ancestor_of_refines {h g : Heap}
    (hr : ∀ n m, (g n).m_parent = some m →
      (h n).m_parent = some m ∨ ∃ x, (h n).m_parent = some x ∧ (h x).m_parent = some m)
    (k : Nat) (n a : NodeId) (hk : ancestor g k n = some a) :
    ∃ j, k ≤ j ∧ ancestor h j n = some a := by
  induction k generalizing n with
  | zero => exact ⟨0, Nat.le_refl 0, by simpa [ancestor] using hk⟩
  | succ k ih =>
    cases hp : (g n).m_parent with
    | none => rw [ancestor_succ_none g k n hp] at hk; exact Option.noConfusion hk
    | some m =>
      rw [ancestor_succ g k n m hp] at hk
      obtain ⟨j, hj, hja⟩ := ih m hk
      rcases hr n m hp with h1 | ⟨x, hx1, hx2⟩
      · exact ⟨j + 1, by omega, by rw [ancestor_succ h j n m h1]; exact hja⟩
      · refine ⟨j + 2, by omega, ?_⟩
        rw [ancestor_succ h (j + 1) n x hx1, ancestor_succ h j x m hx2]; exact hja

theorem acyclic_of_refines {h g : Heap} (ha : Acyclic h)
    (hr : ∀ n m, (g n).m_parent = some m →
      (h n).m_parent = some m ∨ ∃ x, (h n).m_parent = some x ∧ (h x).m_parent = some m) :
    Acyclic g := by
  intro n k hk
  obtain ⟨j, hj, hja⟩ := ancestor_of_refines hr (k + 1) n n hk
  obtain ⟨i, rfl⟩ : ∃ i, j = i + 1 := ⟨j - 1, by omega⟩
  exact ha n i hja

/-- When `g` differs from `h` only in the parent of `c`, a parent chain of `g`
is a parent chain of `h` or reaches `c` along links common to both. -/
theorem ancestor_of_update {h g : Heap} {c : NodeId}
    (hu : ∀ m, m ≠ c → (g m).m_parent = (h m).m_parent)
    (k : Nat) (n a : NodeId) (hk : ancestor g k n = some a) :
    ancestor h k n = some a ∨
      ∃ j, j < k ∧ ancestor h j n = some c ∧ ancestor g j n = some c := by
  induction k generalizing n with
  | zero => left; simpa [ancestor] using hk
  | succ k ih =>
    by_cases hn : n = c
    · right; exact ⟨0, Nat.succ_pos k, by simp [ancestor, hn], by simp [ancestor, hn]⟩
    · cases hp : (g n).m_parent with
      | none => rw [ancestor_succ_none g k n hp] at hk; exact Option.noConfusion hk
      | some m =>
        have hp2 : (h n).m_parent = some m := by rw [← hu n hn]; exact hp
        rw [ancestor_succ g k n m hp] at hk
        rcases ih m hk with h1 | ⟨j, hj, h2, h3⟩
        · left; rw [ancestor_succ h k n m hp2]; exact h1
        · right
          exact ⟨j + 1, by omega, by rw [ancestor_succ h j n m hp2]; exact h2,
            by rw [ancestor_succ g j n m hp]; exact h3⟩

/-- Giving `c` the parent `p` keeps the heap acyclic when `c` is neither `p`
nor an ancestor of `p`. -/
theorem acyclic_of_update {h g : Heap} {c p : NodeId} (ha : Acyclic h)
    (hu : ∀ m, m ≠ c → (g m).m_parent = (h m).m_parent) (hc : (g c).m_parent = some p)
    (hg : ∀ k, ancestor h k p ≠ some c) : Acyclic g := by
  intro n k hk
  rcases ancestor_of_update hu (k + 1) n n hk with h1 | ⟨j, _, _, h3⟩
  · exact ha n k h1
  · have hcc := ancestor_rotate g (k + 1) j n c hk h3
    rw [ancestor_succ g k c p hc] at hcc
    rcases ancestor_of_update hu k p c hcc with h4 | ⟨i, _, h5, _⟩
    · exact hg k h4
    · exact hg i h5

theorem not_selfEvict_of_acyclic {h : Heap} (ha : Acyclic h) (op : Op) : ¬ selfEvict h op := by
  cases op with
  | evict t =>
    intro hs
    exact ha t 0 (by rw [ancestor_succ h 0 t t hs]; rfl)
  | append t c => exact id
  | prepend t c => exact id
  | remove t c => exact id
  | injectAbove t n => exact id

/-- One returning call that does not attach a node beneath itself keeps a
consistent heap acyclic. -/
theorem acyclic_step {h g : Heap} (_hc : Consistent h) (ha : Acyclic h) (op : Op)
    (hs : ¬ attachesBelowSelf h op) (e : step h op = .done g) : Acyclic g := by
  cases op with
  | append t c =>
    have hi := append_inv e
    have e2 := append_done h t c hi.1 hi.2
    simp only [step] at e
    rw [e] at e2
    rw [Outcome.done.inj e2]
    refine acyclic_of_update (c := c) (p := t) ha (fun m hm => by simp [hm]) (by simp) ?_
    intro k hk
    exact hs ⟨k, hk⟩
  | prepend t c =>
    have hi := prepend_inv e
    have e2 := prepend_done h t c hi.1 hi.2
    simp only [step] at e
    rw [e] at e2
    rw [Outcome.done.inj e2]
    refine acyclic_of_update (c := c) (p := t) ha (fun m hm => by simp [hm]) (by simp) ?_
    intro k hk
    exact hs ⟨k, hk⟩
  | remove t c =>
    have hi := remove_inv e
    have e2 := remove_done h t c hi
    simp only [step] at e
    rw [e] at e2
    rw [Outcome.done.inj e2]
    refine acyclic_of_refines ha (fun n m hnm => ?_)
    left
    by_cases hn : n = c
    · simp [hn] at hnm
    · simpa [hn] using hnm
  | injectAbove N E =>
    obtain ⟨hN, P, hE, hm⟩ := injectAbove_inv e
    have e2 := injectAbove_done h N E P hN hE hm
    simp only [step] at e
    rw [e] at e2
    rw [Outcome.done.inj e2]
    have hEN : E ≠ N := by
      intro e; rw [e, hN] at hE; exact Option.noConfusion hE
    have hg1 : ∀ k, ancestor h k P ≠ some N := fun k hk =>
      hs ⟨k + 1, by rw [ancestor_succ h k E P hE]; exact hk⟩
    have hu1 : ∀ m, m ≠ N → ((setParentField h N (some P)) m).m_parent = (h m).m_parent :=
      fun m hm => by simp [hm]
    have ha1 : Acyclic (setParentField h N (some P)) :=
      acyclic_of_update (c := N) (p := P) ha hu1 (by simp) hg1
    refine acyclic_of_update (c := E) (p := N) ha1 (fun m hm => by simp [hm]) (by simp) ?_
    intro k hk
    cases k with
    | zero => exact hEN (Option.some.inj (by simpa [ancestor] using hk)).symm
    | succ k =>
      rw [ancestor_succ _ k N P (by simp)] at hk
      rcases ancestor_of_update hu1 k P E hk with h1 | ⟨j, _, h2, _⟩
      · exact ha E k (by rw [ancestor_succ h k E P hE]; exact h1)
      · exact hg1 j h2
  | evict C => exact absurd (evict_inv e).1 (not_selfEvict_of_acyclic ha (.evict C))

/-- The statements of `evict` that follow the search keep a consistent heap
acyclic when the search has returned the position of the node in the vector
of its parent. -/
theorem acyclic_evictFrom {h g : Heap} (hc : Consistent h) (ha : Acyclic h) {C p : NodeId}
    (hp : (h C).m_parent = some p)
    (e : evictFrom h C p (vecFind (h p).m_children C) = .done g) : Acyclic g := by
  have hne : p ≠ C := fun hpc =>
    not_selfEvict_of_acyclic ha (.evict C) (by simpa [selfEvict, hpc] using hp)
  obtain ⟨g1, e1, _, _, _, hpar, _⟩ := evictFrom_links h C p (hc.mem_of_parent hp) hne
  rw [e] at e1
  rw [Outcome.done.inj e1]
  refine acyclic_of_refines ha (fun n m hnm => ?_)
  rw [hpar n] at hnm
  by_cases h1 : n = C
  · simp [h1] at hnm
  · rw [if_neg h1] at hnm
    by_cases h2 : n ∈ (h C).m_children
    · rw [if_pos h2] at hnm
      right
      exact ⟨C, hc.2 C n h2, by rw [← Option.some.inj hnm]; exact hp⟩
    · rw [if_neg h2] at hnm
      exact Or.inl hnm

theorem acyclic_of_detached {h : Heap} (hd : Detached h) : Acyclic h :=
  fun n k => by rw [ancestor_succ_none h k n (hd n).1]; exact Option.noConfusion

/-- Consistency and acyclicity along a sequence of returning calls none of
which attaches a node beneath itself. -/
theorem wellFormed_run (ops : List Op) {h g : Heap} (hc : Consistent h) (ha : Acyclic h)
    (hs : NoSelfAttach ops h) (e : run ops h = .done g) : Consistent g ∧ Acyclic g := by
  induction ops generalizing h with
  | nil =>
    simp only [run] at e
    rw [← Outcome.done.inj e]; exact ⟨hc, ha⟩
  | cons op ops ih =>
    simp only [run] at e
    cases hstep : step h op with
    | done h1 =>
      rw [hstep] at e
      have hs2 : NoSelfAttach ops h1 := by
        have := hs.2
        rw [hstep] at this
        exact this
      exact ih (consistent_step hc op (not_selfEvict_of_acyclic ha op) hstep)
        (acyclic_step hc ha op hs.1 hstep) hs2 e
    | assertFailed h1 => rw [hstep] at e; exact Outcome.noConfusion e
    | undefinedBehaviour => rw [hstep] at e; exact Outcome.noConfusion e
    | outOfFuel => rw [hstep] at e; exact Outcome.noConfusion e

theorem not_acyclic_of_links (o : Outcome) (c : NodeId) (cs : List NodeId)
    (h1 : o.links c = some (some c, cs)) :
    ∃ g, o = .done g ∧ (g c).m_parent = some c ∧ ¬ Acyclic g := by
  cases o with
  | done g =>
    simp only [Outcome.links, Option.some.injEq, Prod.mk.injEq] at h1
    exact ⟨g, rfl, h1.1, fun ha => ha c 0 (by rw [ancestor_succ g 0 c c h1.1]; rfl)⟩
  | assertFailed g => simp [Outcome.links] at h1
  | undefinedBehaviour => simp [Outcome.links] at h1
  | outOfFuel => simp [Outcome.links] at h1

/-- C3 (as stated, refuted): node `0` has no parent and is not among its own
children, so `0.append(0)` passes both assertions; afterwards `0` is its own
parent.  Likewise `0.append(1); 1.append(0)` returns with `0` and `1` each
the parent of the other, and `0.append(1); 0.injectAbove(1)` returns with `0`
its own parent. -/
theorem self_append_makes_cycle :
    (freshHeap 0).m_parent = none ∧ 0 ∉ (freshHeap 0).m_children ∧
    (∃ g, run [.append 0 0] freshHeap = .done g ∧ (g 0).m_parent = some 0 ∧ ¬ Acyclic g) ∧
    (run [.append 0 1, .append 1 0] freshHeap).links 0 = some (some 1, [1]) ∧
    (run [.append 0 1, .append 1 0] freshHeap).links 1 = some (some 0, [0]) ∧
    (run [.append 0 1, .injectAbove 0 1] freshHeap).links 0 = some (some 0, [0, 1]) :=
  ⟨rfl, by decide, not_acyclic_of_links _ 0 [0] (by decide), by decide, by decide, by decide⟩

/-- C3 (amended): starting from detached childless nodes, after every
sequence of `append`, `prepend`, `remove`, `injectAbove` and `evict` calls
that all return and in which the child given to `append` or `prepend` is
neither the target nor an ancestor of it and the node given the role of new
parent by `injectAbove` is not an ancestor of the node it is injected above,
no node is its own ancestor. -/
theorem acyclic_invariant (h0 : Heap) (ops : List Op) (g : Heap) (hd : Detached h0)
    (hs : NoSelfAttach ops h0) (e : run ops h0 = .done g) :
    ∀ n k, ancestor g (k + 1) n ≠ some n :=
  (wellFormed_run ops (consistent_of_detached hd) (acyclic_of_detached hd) hs e).2

/-- Witness for C3: node `2` is attached under `1` under `0`. -/
theorem acyclic_invariant_witness :
    Detached freshHeap ∧
    NoSelfAttach [.append 0 1, .append 1 2] freshHeap ∧
    run [.append 0 1, .append 1 2] freshHeap =
      .done ((run [.append 0 1, .append 1 2] freshHeap).heapOr freshHeap) ∧
    ∀ n k, ancestor ((run [.append 0 1, .append 1 2] freshHeap).heapOr freshHeap) (k + 1) n
      ≠ some n :=
  have hs : NoSelfAttach [.append 0 1, .append 1 2] freshHeap := by
    refine ⟨?_, ?_, trivial⟩
    · rintro ⟨k, hk⟩
      cases k with
      | zero => exact absurd hk (by decide)
      | succ k => rw [ancestor_succ_none _ k 0 rfl] at hk; exact Option.noConfusion hk
    · rintro ⟨k, hk⟩
      cases k with
      | zero => exact absurd hk (by decide)
      | succ k =>
        rw [ancestor_succ _ k 1 0 rfl] at hk
        cases k with
        | zero => exact absurd hk (by decide)
        | succ k => rw [ancestor_succ_none _ k 0 rfl] at hk; exact Option.noConfusion hk
  ⟨detached_freshHeap, hs, rfl,
    acyclic_invariant freshHeap [.append 0 1, .append 1 2] _ detached_freshHeap hs rfl⟩

/-! ### The destructor -/

theorem flatMap_congr_mem {f g : NodeId → List NodeId} (l : List NodeId)
    (hfg : ∀ c ∈ l, f c = g c) : l.flatMap f = l.flatMap g := by
  induction l with
  | nil => rfl
  | cons a l ih =>
    rw [List.flatMap_cons, List.flatMap_cons, hfg a (List.mem_cons_self a l),
      ih (fun c hc => hfg c (List.mem_cons_of_mem a hc))]

theorem mem_subtree_self {h : Heap} {k : Nat} {c : NodeId} (hc : ClosedWithin h k c) :
    c ∈ subtree h k c := by
  cases k with
  | zero => exact absurd hc (by simp [ClosedWithin])
  | succ k => simp [subtree]

theorem mem_subtree_child {h : Heap} {k : Nat} {x c m : NodeId}
    (hc : c ∈ (h x).m_children) (hm : m ∈ subtree h k c) : m ∈ subtree h (k + 1) x := by
  simp only [subtree, List.mem_cons, List.mem_flatMap]
  exact Or.inr ⟨c, hc, hm⟩

theorem subtree_congr {h g : Heap} (k : Nat) (x : NodeId)
    (hag : ∀ m ∈ subtree h k x, g m = h m) : subtree g k x = subtree h k x := by
  induction k generalizing x with
  | zero => rfl
  | succ k ih =>
    have hx : g x = h x := hag x (by simp [subtree])
    simp only [subtree, hx]
    congr 1
    exact flatMap_congr_mem _ (fun c hc => ih c (fun m hm => hag m (mem_subtree_child hc hm)))

theorem closedWithin_congr {h g : Heap} (k : Nat) (x : NodeId)
    (hag : ∀ m ∈ subtree h k x, g m = h m) (hcl : ClosedWithin h k x) :
    ClosedWithin g k x := by
  induction k generalizing x with
  | zero => exact hcl
  | succ k ih =>
    have hx : g x = h x := hag x (by simp [subtree])
    intro c hc
    rw [hx] at hc
    have h1 := hcl c hc
    have hcc : g c = h c := hag c (mem_subtree_child hc (mem_subtree_self h1.2))
    exact ⟨by rw [hcc]; exact h1.1,
      ih c (fun m hm => hag m (mem_subtree_child hc hm)) h1.2⟩

theorem detach_of_parent (h : Heap) (n p : NodeId) (hp : (h n).m_parent = some p) :
    detach h n = setParentField (setChildren h p ((h p).m_children.erase n)) n none := by
  simp [detach, hp]

theorem detach_of_root (h : Heap) (n : NodeId) (hp : (h n).m_parent = none) :
    detach h n = h := by
  simp [detach, hp]

theorem detach_parent_self (h : Heap) (n : NodeId) : (detach h n n).m_parent = none := by
  cases hp : (h n).m_parent with
  | none => rw [detach_of_root h n hp]; exact hp
  | some p => rw [detach_of_parent h n p hp]; simp

theorem detach_other (h : Heap) (n m : NodeId) (hm : m ≠ n)
    (hmp : ∀ p, (h n).m_parent = some p → m ≠ p) : detach h n m = h m := by
  cases hp : (h n).m_parent with
  | none => rw [detach_of_root h n hp]
  | some p =>
    rw [detach_of_parent h n p hp]
    simp [setParentField, setChildren, hm, hmp p hp]

theorem detach_children_self (h : Heap) (n : NodeId)
    (hmp : ∀ p, (h n).m_parent = some p → n ≠ p) :
    (detach h n n).m_children = (h n).m_children := by
  cases hp : (h n).m_parent with
  | none => rw [detach_of_root h n hp]
  | some p =>
    rw [detach_of_parent h n p hp]
    simp [hmp p hp]

theorem detach_step (h : Heap) (n : NodeId)
    (hmem : ∀ p, (h n).m_parent = some p → n ∈ (h p).m_children) :
    (match (h n).m_parent with
      | some p => remove h p n
      | none => Outcome.done h) = .done (detach h n) := by
  cases hp : (h n).m_parent with
  | none => simp [detach_of_root h n hp]
  | some p => simp [detach_of_parent h n p hp, remove_done h p n (hmem p hp)]

theorem node_eta_children (x : Node) (hx : x.m_children = []) :
    { x with m_children := [] } = x := by
  cases x; simp_all

theorem destroyed_eq (x y : Node) (h1 : x.m_type = y.m_type)
    (h2 : x.m_preprocess = y.m_preprocess) (h3 : x.hookCalls = y.hookCalls) :
    x.destroyed = y.destroyed := by
  cases x; cases y; simp_all [Node.destroyed]

/-- The loop of the destructor, given the destructor on the children. -/
theorem destroyChildren_spec (k : Nat)
    (IH : ∀ (h : Heap) (n : NodeId) (fuel : Nat), ClosedWithin h k n → (subtree h k n).Nodup →
      (∀ p, (h n).m_parent = some p → n ∈ (h p).m_children ∧ p ∉ subtree h k n) →
      2 * (subtree h k n).length ≤ fuel →
      destroy fuel h n = .done (destroyAll (subtree h k n) (detach h n)))
    (ks : List NodeId) :
    ∀ (g : Heap) (n : NodeId) (f : Nat), (g n).m_children = ks →
      (∀ c ∈ ks, (g c).m_parent = some n ∧ ClosedWithin g k c) →
      (n :: ks.flatMap (subtree g k)).Nodup →
      2 * (ks.flatMap (subtree g k)).length + 1 ≤ f →
      destroyChildren f g n =
        .done (destroyAll (ks.flatMap (subtree g k)) (setChildren g n [])) := by
  induction ks using List.reverseRecOn with
  | nil =>
    intro g n f hks _ _ hf
    obtain ⟨f, rfl⟩ : ∃ f1, f = f1 + 1 := ⟨f - 1, by omega⟩
    simp only [destroyChildren, hks, List.getLast?_nil, List.flatMap_nil]
    congr 1
    funext m
    by_cases hm : m = n
    · subst hm; simp [destroyAll, setChildren, node_eta_children _ hks]
    · simp [destroyAll, setChildren, hm]
  | append_singleton ks c ih =>
    intro g n f hks hkids hnd hf
    obtain ⟨f, rfl⟩ : ∃ f1, f = f1 + 1 := ⟨f - 1, by omega⟩
    have hc := hkids c (by simp)
    have hcs : c ∈ subtree g k c := mem_subtree_self hc.2
    have hflat : (ks ++ [c]).flatMap (subtree g k) =
        ks.flatMap (subtree g k) ++ subtree g k c := by
      simp [List.flatMap_append]
    rw [hflat] at hnd hf ⊢
    rw [List.nodup_cons, List.nodup_append, List.mem_append] at hnd
    obtain ⟨hn, hnd1, hnd2, hdis⟩ := hnd
    have hn1 : n ∉ ks.flatMap (subtree g k) := fun hh => hn (Or.inl hh)
    have hn2 : n ∉ subtree g k c := fun hh => hn (Or.inr hh)
    have hcn : c ≠ n := fun hh => hn2 (hh ▸ hcs)
    have hcks : c ∉ ks := fun hh =>
      hdis (List.mem_flatMap.2 ⟨c, hh, hcs⟩) hcs
    have hlen : 1 ≤ (subtree g k c).length := List.length_pos_of_mem hcs
    rw [List.length_append] at hf
    have herase : (g n).m_children.erase c = ks := by
      rw [hks, List.erase_append_right _ hcks]; simp
    have hd : destroy f g c = .done (destroyAll (subtree g k c) (detach g c)) :=
      IH g c f hc.2 hnd2
        (fun p hp => by
          have hpn : p = n := (Option.some.inj (hp.symm.trans hc.1))
          subst hpn
          exact ⟨by rw [hks]; simp, hn2⟩)
        (by omega)
    have hdet : detach g c = setParentField (setChildren g n ks) c none := by
      rw [detach_of_parent g c n hc.1, herase]
    have hag : ∀ m, m ∉ subtree g k c → m ≠ n →
        destroyAll (subtree g k c) (detach g c) m = g m := by
      intro m hm1 hm2
      have hmc : m ≠ c := fun hh => hm1 (hh ▸ hcs)
      simp [destroyAll, hm1, hdet, setParentField, setChildren, hmc, hm2]
    have hagf : ∀ c1 ∈ ks, ∀ m ∈ subtree g k c1,
        destroyAll (subtree g k c) (detach g c) m = g m := by
      intro c1 hc1 m hm
      have hmf : m ∈ ks.flatMap (subtree g k) := List.mem_flatMap.2 ⟨c1, hc1, hm⟩
      exact hag m (fun hh => hdis hmf hh) (fun hh => hn1 (hh ▸ hmf))
    have hsub : ks.flatMap (subtree (destroyAll (subtree g k c) (detach g c)) k) =
        ks.flatMap (subtree g k) :=
      flatMap_congr_mem ks (fun c1 hc1 => subtree_congr k c1 (hagf c1 hc1))
    have hloop := ih (destroyAll (subtree g k c) (detach g c)) n f
      (by simp [destroyAll, hn2, hdet, setParentField, setChildren, Ne.symm hcn])
      (fun c1 hc1 => by
        have h1 := hkids c1 (List.mem_append_left _ hc1)
        have h2 := hagf c1 hc1 c1 (mem_subtree_self h1.2)
        exact ⟨by rw [h2]; exact h1.1, closedWithin_congr k c1 (hagf c1 hc1) h1.2⟩)
      (by rw [hsub]; exact List.nodup_cons.2 ⟨hn1, hnd1⟩)
      (by rw [hsub]; omega)
    rw [hsub] at hloop
    simp only [destroyChildren, hks, List.getLast?_concat, hd, Outcome.bind, hloop]
    congr 1
    funext m
    by_cases hm1 : m ∈ ks.flatMap (subtree g k)
    · have hmn : m ≠ n := fun hh => hn1 (hh ▸ hm1)
      have hm2 : m ∉ subtree g k c := fun hh => hdis hm1 hh
      have := hag m hm2 hmn
      simp only [destroyAll, List.mem_append, hm1, true_or, if_true, setChildren, if_neg hmn]
      simp only [destroyAll] at this
      rw [this]
    · by_cases hm2 : m ∈ subtree g k c
      · have hmn : m ≠ n := fun hh => hn2 (hh ▸ hm2)
        simp only [destroyAll, List.mem_append, hm1, hm2, or_true, false_or, if_true, if_false,
          setChildren, if_neg hmn, hdet, setParentField]
        by_cases hmc : m = c
        · rw [hmc]; simp [Node.destroyed, hcn]
        · simp [hmc]
      · by_cases hmn : m = n
        · subst hmn
          simp [destroyAll, hm1, hm2, setChildren, hdet, setParentField, Ne.symm hcn]
        · have := hag m hm2 hmn
          simp only [destroyAll, if_neg hm2] at this
          simp only [destroyAll, List.mem_append, hm1, hm2, or_self, if_false, setChildren,
            if_neg hmn]
          exact this

/-- The destructor on a well-formed finite subtree, for every sufficient
bound on the unfolding. -/
theorem destroy_spec (k : Nat) :
    ∀ (h : Heap) (n : NodeId) (fuel : Nat), ClosedWithin h k n → (subtree h k n).Nodup →
      (∀ p, (h n).m_parent = some p → n ∈ (h p).m_children ∧ p ∉ subtree h k n) →
      2 * (subtree h k n).length ≤ fuel →
      destroy fuel h n = .done (destroyAll (subtree h k n) (detach h n)) := by
  induction k with
  | zero => intro h n fuel hcl; exact absurd hcl (by simp [ClosedWithin])
  | succ k IH =>
    intro h n fuel hcl hnd hpar hfuel
    have hsub : subtree h (k + 1) n = n :: (h n).m_children.flatMap (subtree h k) := rfl
    rw [hsub] at hnd hfuel hpar ⊢
    rw [List.length_cons] at hfuel
    obtain ⟨f, rfl⟩ : ∃ f1, fuel = f1 + 1 := ⟨fuel - 1, by omega⟩
    have hnn : n ∉ (h n).m_children.flatMap (subtree h k) := (List.nodup_cons.1 hnd).1
    have hnp : ∀ p, (h n).m_parent = some p → n ≠ p := fun p hp hh =>
      (hpar p hp).2 (by rw [← hh]; exact List.mem_cons_self _ _)
    have hag : ∀ c ∈ (h n).m_children, ∀ m ∈ subtree h k c, detach h n m = h m := by
      intro c hc m hm
      have hmf : m ∈ (h n).m_children.flatMap (subtree h k) := List.mem_flatMap.2 ⟨c, hc, hm⟩
      exact detach_other h n m (fun hh => hnn (hh ▸ hmf))
        (fun p hp hh => (hpar p hp).2 (by rw [← hh]; exact List.mem_cons_of_mem _ hmf))
    have hflat : (h n).m_children.flatMap (subtree (detach h n) k) =
        (h n).m_children.flatMap (subtree h k) :=
      flatMap_congr_mem _ (fun c hc => subtree_congr k c (hag c hc))
    have hloop := destroyChildren_spec k IH (h n).m_children (detach h n) n f
      (detach_children_self h n hnp)
      (fun c hc => by
        have h1 := hcl c hc
        have h2 := hag c hc c (mem_subtree_self h1.2)
        exact ⟨by rw [h2]; exact h1.1, closedWithin_congr k c (hag c hc) h1.2⟩)
      (by rw [hflat]; exact hnd)
      (by rw [hflat]; omega)
    rw [hflat] at hloop
    simp only [destroy, detach_step h n (fun p hp => (hpar p hp).1), Outcome.bind, hloop]
    congr 1
    funext m
    by_cases hm : m = n
    · subst hm
      have hp0 := detach_parent_self h m
      simp only [free, if_true, destroyAll, if_neg hnn, setChildren, List.mem_cons, true_or]
      cases hx : detach h m m with
      | mk a b c d e f1 =>
        rw [hx] at hp0
        simp only at hp0
        simp [Node.destroyed, hp0]
    · simp [free, destroyAll, hm, setChildren]

theorem destroyAll_alive (ids : List NodeId) (h : Heap) (m : NodeId) :
    (destroyAll ids h m).alive = ((h m).alive && decide (m ∉ ids)) := by
  by_cases hm : m ∈ ids <;> simp [destroyAll, hm, Node.destroyed]

/-- C9: on the root `n` of a well-formed finite subtree, attached or detached,
the destructor returns for every sufficient bound on its unfolding (the loop
over the children terminates).  It removes `n` from the child sequence of its
parent, whose other entries keep their order; afterwards exactly the nodes of
the subtree that were alive are no longer alive, and every node outside the
subtree other than the parent is untouched. -/
theorem destroy_total (h : Heap) (k : Nat) (n : NodeId) (hw : WellFormedTree h k n) :
    ∃ g, (∀ fuel, 2 * (subtree h k n).length ≤ fuel → destroy fuel h n = .done g) ∧
      (∀ m, m ∈ subtree h k n → (g m).alive = false) ∧
      (∀ m, m ∉ subtree h k n → (g m).alive = (h m).alive) ∧
      (∀ p, (h n).m_parent = some p →
        (g p).m_children = (h p).m_children.erase n ∧
        (g p).m_children.Sublist (h p).m_children ∧ (g p).m_parent = (h p).m_parent) ∧
      (∀ m, m ∉ subtree h k n → (∀ p, (h n).m_parent = some p → m ≠ p) → g m = h m) := by
  obtain ⟨hcl, hnd, hpar⟩ := hw
  have hself : n ∈ subtree h k n := mem_subtree_self hcl
  refine ⟨destroyAll (subtree h k n) (detach h n),
    fun fuel hf => destroy_spec k h n fuel hcl hnd hpar hf, ?_, ?_, ?_, ?_⟩
  · intro m hm; simp [destroyAll_alive, hm]
  · intro m hm
    rw [destroyAll_alive]
    cases hp : (h n).m_parent with
    | none => simp [detach_of_root h n hp, hm]
    | some p =>
      rw [detach_of_parent h n p hp]
      simp only [hm, not_false_eq_true, decide_True, Bool.and_true]
      exact ((sameData_trans (sameData_setChildren _ _ _) (sameData_setParentField _ _ _))
        m).2.2.2
  · intro p hp
    have hps := (hpar p hp).2
    have hpn : p ≠ n := fun hh => hps (hh ▸ hself)
    have e : (destroyAll (subtree h k n) (detach h n) p).m_children =
        (h p).m_children.erase n := by
      simp [destroyAll, hps, detach_of_parent h n p hp]
    refine ⟨e, by rw [e]; exact List.erase_sublist n _, ?_⟩
    simp [destroyAll, hps, detach_of_parent h n p hp, hpn]
  · intro m hm hmp
    have hmn : m ≠ n := fun hh => hm (hh ▸ hself)
    simp only [destroyAll, if_neg hm]
    exact detach_other h n m hmn hmp

/-- Witness for C9: the inner node `1` of `sampleTree`, with its children `2`
and `3`, is destroyed. -/
theorem destroy_total_witness :
    WellFormedTree sampleTree 2 1 ∧
    ∃ g, (∀ fuel, 2 * (subtree sampleTree 2 1).length ≤ fuel →
        destroy fuel sampleTree 1 = .done g) ∧
      (∀ m, m ∈ subtree sampleTree 2 1 → (g m).alive = false) ∧
      (∀ m, m ∉ subtree sampleTree 2 1 → (g m).alive = (sampleTree m).alive) ∧
      (∀ p, (sampleTree 1).m_parent = some p →
        (g p).m_children = (sampleTree p).m_children.erase 1 ∧
        (g p).m_children.Sublist (sampleTree p).m_children ∧
        (g p).m_parent = (sampleTree p).m_parent) ∧
      (∀ m, m ∉ subtree sampleTree 2 1 →
        (∀ p, (sampleTree 1).m_parent = some p → m ≠ p) → g m = sampleTree m) :=
  have hw : WellFormedTree sampleTree 2 1 :=
    ⟨by decide, by decide, fun p hp => by
      cases (show some 0 = some p from hp)
      exact ⟨by decide, by decide⟩⟩
  ⟨hw, destroy_total sampleTree 2 1 hw⟩

/-! ### Colours, opacity and type tags -/

theorem stdMin_eq_min (a b : ℚ) : stdMin a b = min a b := by
  unfold stdMin
  split
  · rename_i hlt; exact (min_eq_right hlt.le).symm
  · rename_i hlt; exact (min_eq_left (not_lt.1 hlt)).symm

theorem stdMax_eq_max (a b : ℚ) : stdMax a b = max a b := by
  unfold stdMax
  split
  · rename_i hlt; exact (max_eq_right hlt.le).symm
  · rename_i hlt; exact (max_eq_left (not_lt.1 hlt)).symm

theorem clamp01_range (x : ℚ) : 0 ≤ clamp01 x ∧ clamp01 x ≤ 1 := by
  unfold clamp01
  exact ⟨le_max_right _ _, max_le (min_le_right _ _) zero_le_one⟩

theorem clamp01_of_range (x : ℚ) (h0 : 0 ≤ x) (h1 : x ≤ 1) : clamp01 x = x := by
  unfold clamp01
  rw [min_eq_left h1, max_eq_left h0]

theorem clamp01_idem (x : ℚ) : clamp01 (clamp01 x) = clamp01 x :=
  clamp01_of_range _ (clamp01_range x).1 (clamp01_range x).2

theorem setColor_color (n : RectangleNode) (c : vec4) :
    (n.setColor c).color =
      { x := clamp01 c.x, y := clamp01 c.y, z := clamp01 c.z, w := clamp01 c.w } := by
  simp [RectangleNode.setColor, RectangleNode.color, stdMin_eq_min, stdMax_eq_max, clamp01]

/-- C11: `setColor` stores the componentwise clamp
`max(min(x, 1), 0)` of the colour it is given and changes nothing else;
`(1.5, -0.2, 0.5, 2.0)` is stored as `(1.0, 0.0, 0.5, 1.0)`; setting the
stored colour again, or the same colour twice, changes nothing. -/
theorem setColor_clamps (n : RectangleNode) (r g b a : ℚ) :
    (n.setColor { x := r, y := g, z := b, w := a }).color =
      { x := clamp01 r, y := clamp01 g, z := clamp01 b, w := clamp01 a } ∧
    (n.setColor { x := r, y := g, z := b, w := a }).m_type = n.m_type ∧
    (n.setColor { x := r, y := g, z := b, w := a }).m_geometry = n.m_geometry ∧
    (n.setColor { x := 3 / 2, y := -1 / 5, z := 1 / 2, w := 2 }).color =
      { x := 1, y := 0, z := 1 / 2, w := 1 } ∧
    (n.setColor { x := r, y := g, z := b, w := a }).setColor
        (n.setColor { x := r, y := g, z := b, w := a }).color =
      n.setColor { x := r, y := g, z := b, w := a } ∧
    (n.setColor { x := r, y := g, z := b, w := a }).setColor { x := r, y := g, z := b, w := a } =
      n.setColor { x := r, y := g, z := b, w := a } := by
  have hc := setColor_color n { x := r, y := g, z := b, w := a }
  refine ⟨hc, rfl, rfl, ?_, ?_, ?_⟩
  · rw [setColor_color]
    norm_num [clamp01]
  · have h2 := setColor_color (n.setColor { x := r, y := g, z := b, w := a })
      (n.setColor { x := r, y := g, z := b, w := a }).color
    rw [hc] at h2
    simp only [clamp01_idem] at h2
    have h3 : ∀ p q : RectangleNode, p.m_type = q.m_type → p.m_geometry = q.m_geometry →
        p.color = q.color → p = q := by
      intro p q h4 h5 h6
      cases p; cases q; simp_all [RectangleNode.color]
    exact h3 _ _ rfl rfl (by rw [hc] at *; rw [h2])
  · have h3 : ∀ p q : RectangleNode, p.m_type = q.m_type → p.m_geometry = q.m_geometry →
        p.color = q.color → p = q := by
      intro p q h4 h5 h6
      cases p; cases q; simp_all [RectangleNode.color]
    exact h3 _ _ rfl rfl (by rw [setColor_color, setColor_color])

/-- C12 (the code departs from the claim): `setColor` leaves every component
in `[0, 1]`, but both constructors store the colour they are given as it is:
`RectangleNode(geometry, (1.5, -0.2, 0.5, 2.0))` holds a colour whose red
component is `1.5`. -/
theorem constructor_stores_unclamped (geometry : rect2d) (t : NodeType) :
    (RectangleNode.create geometry { x := 3 / 2, y := -1 / 5, z := 1 / 2, w := 2 }).color =
      { x := 3 / 2, y := -1 / 5, z := 1 / 2, w := 2 } ∧
    (RectangleNode.createTyped t geometry { x := 3 / 2, y := -1 / 5, z := 1 / 2, w := 2 }).color =
      { x := 3 / 2, y := -1 / 5, z := 1 / 2, w := 2 } ∧
    ¬ (RectangleNode.create geometry
        { x := 3 / 2, y := -1 / 5, z := 1 / 2, w := 2 }).color.InUnitRange ∧
    (∀ (n : RectangleNode) (c : vec4), (n.setColor c).color.InUnitRange) := by
  refine ⟨rfl, rfl, ?_, ?_⟩
  · intro h
    have := h.1.2
    simp only [RectangleNode.create, RectangleNode.color] at this
    norm_num at this
  · intro n c
    rw [setColor_color]
    exact ⟨clamp01_range _, clamp01_range _, clamp01_range _, clamp01_range _⟩

/-- C13 (as stated, refuted): `setOpacity(2)` and `OpacityNode(2)` store `2`,
`setOpacity(-1)` stores `-1`. -/
theorem opacity_not_clamped :
    (OpacityNode.default.setOpacity 2).opacity = 2 ∧
    (OpacityNode.create 2).opacity = 2 ∧
    (OpacityNode.default.setOpacity (-1)).opacity = -1 ∧
    ¬ ((0 : ℚ) ≤ (OpacityNode.default.setOpacity 2).opacity ∧
        (OpacityNode.default.setOpacity 2).opacity ≤ 1) := by
  refine ⟨rfl, rfl, rfl, ?_⟩
  intro h
  have := h.2
  simp only [OpacityNode.setOpacity, OpacityNode.opacity] at this
  norm_num at this

/-- C13 (amended): the opacity stored in an `OpacityNode` is the value last
passed to the `OpacityNode(opacity)` constructor or to `setOpacity`,
unchanged, so it lies in `[0, 1]` exactly when that value does; the
default-constructed node has opacity `1`. -/
theorem opacity_stored_as_given (n : OpacityNode) (v : ℚ) :
    (OpacityNode.create v).opacity = v ∧ (n.setOpacity v).opacity = v ∧
    ((0 ≤ (OpacityNode.create v).opacity ∧ (OpacityNode.create v).opacity ≤ 1) ↔
      (0 ≤ v ∧ v ≤ 1)) ∧
    ((0 ≤ (n.setOpacity v).opacity ∧ (n.setOpacity v).opacity ≤ 1) ↔ (0 ≤ v ∧ v ≤ 1)) ∧
    OpacityNode.default.opacity = 1 ∧ (n.setOpacity v).m_type = n.m_type :=
  ⟨rfl, rfl, Iff.rfl, Iff.rfl, rfl, rfl⟩

/-- C19: `Node::from<T>(n)` returns `n` exactly when the tag of `n` is
`T::StaticType` and returns null otherwise; a node built by a `LayerNode`
constructor is not a `RectangleNode` for `from`, and a node built by the
public `RectangleNode` constructors is not a `LayerNode`. -/
theorem from_matches_exact_tag (T : NodeClass) (h : Heap) (n : NodeId) :
    (Node.fromNode T h n = some n ↔ (h n).type = T.StaticType) ∧
    ((h n).type ≠ T.StaticType → Node.fromNode T h n = none) ∧
    (∀ U : NodeClass, (h n).type = U.constructedType →
      (Node.fromNode T h n = some n ↔ U = T)) ∧
    ((h n).type = NodeClass.LayerNode.constructedType →
      Node.fromNode .RectangleNode h n = none) ∧
    ((h n).type = NodeClass.RectangleNode.constructedType →
      Node.fromNode .LayerNode h n = none) := by
  refine ⟨?_, ?_, ?_, ?_, ?_⟩
  · unfold Node.fromNode; split <;> simp_all
  · intro hne; simp [Node.fromNode, hne]
  · intro U hU
    unfold Node.fromNode
    rw [hU]
    cases U <;> cases T <;> simp [NodeClass.constructedType, NodeClass.StaticType]
  · intro hl; simp [Node.fromNode, hl, NodeClass.constructedType, NodeClass.StaticType]
  · intro hl; simp [Node.fromNode, hl, NodeClass.constructedType, NodeClass.StaticType]

/-- C20 (as stated, refuted): `Node::Type` has five enumerators, so there are
no six pairwise distinct node kinds. -/
theorem no_six_node_kinds :
    NodeType.all.length = 5 ∧ (∀ t : NodeType, t ∈ NodeType.all) ∧
    ¬ ∃ l : List NodeType, l.Nodup ∧ l.length = 6 := by
  refine ⟨rfl, fun t => by cases t <;> decide, ?_⟩
  rintro ⟨l, hnd, hlen⟩
  have h1 := hnd.length_le_card
  have h2 : Fintype.card NodeType = 5 := rfl
  omega

/-- C20 (amended): the node-kind discriminant is the closed set of exactly
five kinds (Basic, Rectangle, Layer, Transform, Opacity) with the pairwise
distinct tag values `0` to `4`; every tag value is kept unchanged by the
4-bit tag field; a node constructed with kind `k` reports `type() = k`. -/
theorem node_kinds_closed_set :
    (∀ t : NodeType, t ∈ NodeType.all) ∧ NodeType.all.Nodup ∧ NodeType.all.length = 5 ∧
    NodeType.all.map NodeType.value = [0, 1, 2, 3, 4] ∧
    Function.Injective NodeType.value ∧
    (∀ k : NodeType, tagField k.value = k.value ∧ k.value < 2 ^ 3) ∧
    (∀ k : NodeType, (Node.new k).type = k) := by
  refine ⟨fun t => by cases t <;> decide, by decide, rfl, rfl, ?_, ?_, fun k => rfl⟩
  · intro a b hab
    cases a <;> cases b <;> first | rfl | exact absurd hab (by decide)
  · intro k
    cases k <;> decide

/-! ### Key events -/

theorem keyMapEntries_find_name :
    ∀ e ∈ keyMapEntries, keyMapEntries.find? (fun e1 => decide (e1.1 = e.1)) = some e := by
  decide

theorem keyMapFind_of_injective (code : SDLKeyName → SDL_Keycode)
    (hinj : Function.Injective code) (name : SDLKeyName) (key : Key)
    (hmem : (name, key) ∈ keyMapEntries) : keyMapFind code (code name) = some key := by
  have h1 : (fun e : SDLKeyName × Key => decide (code e.1 = code name)) =
      (fun e => decide (e.1 = name)) := by
    funext e
    by_cases h : e.1 = name
    · simp [h]
    · simp [h, hinj.ne h]
  unfold keyMapFind
  rw [h1, keyMapEntries_find_name (name, key) hmem]
  rfl

theorem keyMapFind_some (code : SDLKeyName → SDL_Keycode) (sym : SDL_Keycode) (key : Key)
    (h : keyMapFind code sym = some key) :
    ∃ name, (name, key) ∈ keyMapEntries ∧ code name = sym := by
  unfold keyMapFind at h
  cases hf : keyMapEntries.find? (fun e => decide (code e.1 = sym)) with
  | none => rw [hf] at h; exact Option.noConfusion h
  | some e =>
    rw [hf] at h
    have hk : e.2 = key := Option.some.inj h
    have hp := List.find?_some hf
    have hm := List.mem_of_find?_eq_some hf
    refine ⟨e.1, ?_, by simpa using hp⟩
    rw [← hk]; exact hm

theorem keyMapFind_none (code : SDLKeyName → SDL_Keycode) (sym : SDL_Keycode) :
    keyMapFind code sym = none ↔ ∀ e ∈ keyMapEntries, code e.1 ≠ sym := by
  unfold keyMapFind
  rw [Option.map_eq_none', List.find?_eq_none]
  simp

/-- C14: when the backend has its window and surface, the event is for that
window and the type is `KeyDown` or `KeyUp`, `sendKeyEvent` returns without
failing an assertion; if the native key code is in the key table it has handed
the surface exactly one `KeyEvent`, of that type, whose key code is the table
entry of the native code and whose modifiers are `0`; if the code is not in
the table it has handed over nothing.  With the key codes of SDL 2, the
native key `a` going down yields `Key_A` with no modifiers. -/
theorem sendKeyEvent_mapping (code : SDLKeyName → SDL_Keycode) (b : SDLBackend)
    (e : SDL_KeyboardEvent) (t : EventType) (w s : Nat)
    (hw : b.m_window = some w) (hid : e.windowID = w) (hs : b.m_surface = some s)
    (ht : t = .KeyDown ∨ t = .KeyUp) :
    ((∀ en ∈ keyMapEntries, code en.1 ≠ e.sym) → sendKeyEvent code b e t = .delivered []) ∧
    ((∃ en ∈ keyMapEntries, code en.1 = e.sym) →
      ∃ name key, (name, key) ∈ keyMapEntries ∧ code name = e.sym ∧
        sendKeyEvent code b e t =
          .delivered [{ type := t, m_keyCode := key, m_modifiers := 0 }]) ∧
    (Function.Injective code → ∀ name key, (name, key) ∈ keyMapEntries → e.sym = code name →
      sendKeyEvent code b e t =
        .delivered [{ type := t, m_keyCode := key, m_modifiers := 0 }]) ∧
    sendKeyEvent sdl2Keycode b { windowID := w, sym := 97 } .KeyDown =
      .delivered [{ type := .KeyDown, m_keyCode := .Key_A, m_modifiers := 0 }] := by
  have hstep : ∀ (c : SDLKeyName → SDL_Keycode) (ev : SDL_KeyboardEvent), ev.windowID = w →
      sendKeyEvent c b ev t =
        match keyMapFind c ev.sym with
        | none => .delivered []
        | some key => .delivered [{ type := t, m_keyCode := key, m_modifiers := 0 }] := by
    intro c ev hev
    unfold sendKeyEvent
    simp only [hw, hs, hev, ne_eq, not_true_eq_false, if_false]
    cases keyMapFind c ev.sym with
    | none => rfl
    | some key => simp [ht]
  refine ⟨?_, ?_, ?_, ?_⟩
  · intro hnone
    rw [hstep code e hid, (keyMapFind_none code e.sym).2 hnone]
  · rintro ⟨en, hen, hcode⟩
    cases hf : keyMapFind code e.sym with
    | none => exact absurd hcode ((keyMapFind_none code e.sym).1 hf en hen)
    | some key =>
      obtain ⟨name, hmem, hname⟩ := keyMapFind_some code e.sym key hf
      exact ⟨name, key, hmem, hname, by rw [hstep code e hid, hf]⟩
  · intro hinj name key hmem hsym
    rw [hstep code e hid, hsym, keyMapFind_of_injective code hinj name key hmem]
  · unfold sendKeyEvent
    simp only [hw, hs, ne_eq, not_true_eq_false, if_false]
    rfl

/-- Witness for C14: the key `a` goes up in window `7`, with the key codes of
SDL 2. -/
theorem sendKeyEvent_mapping_witness :
    ((∀ en ∈ keyMapEntries, sdl2Keycode en.1 ≠ 97) →
      sendKeyEvent sdl2Keycode sampleBackend { windowID := 7, sym := 97 } .KeyUp =
        .delivered []) ∧
    ((∃ en ∈ keyMapEntries, sdl2Keycode en.1 = 97) →
      ∃ name key, (name, key) ∈ keyMapEntries ∧ sdl2Keycode name = 97 ∧
        sendKeyEvent sdl2Keycode sampleBackend { windowID := 7, sym := 97 } .KeyUp =
          .delivered [{ type := .KeyUp, m_keyCode := key, m_modifiers := 0 }]) ∧
    (Function.Injective sdl2Keycode → ∀ name key, (name, key) ∈ keyMapEntries →
      (97 : SDL_Keycode) = sdl2Keycode name →
      sendKeyEvent sdl2Keycode sampleBackend { windowID := 7, sym := 97 } .KeyUp =
        .delivered [{ type := .KeyUp, m_keyCode := key, m_modifiers := 0 }]) ∧
    sendKeyEvent sdl2Keycode sampleBackend { windowID := 7, sym := 97 } .KeyDown =
      .delivered [{ type := .KeyDown, m_keyCode := .Key_A, m_modifiers := 0 }] :=
  sendKeyEvent_mapping sdl2Keycode sampleBackend { windowID := 7, sym := 97 } .KeyUp 7 1
    rfl rfl rfl (Or.inr rfl)

/-! ### Signals -/

theorem find_updateBucket_same (S : SignalId) (f : List HandlerId → List HandlerId)
    (bs : List Bucket) :
    (updateBucket S f bs).find? (fun b => decide (b.signal = S)) =
      (bs.find? (fun b => decide (b.signal = S))).map
        (fun b => { b with handlers := f b.handlers }) := by
  induction bs with
  | nil => rfl
  | cons b bs ih =>
    by_cases hb : b.signal = S
    · simp [updateBucket, hb, List.find?_cons]
    · simp [updateBucket, hb, List.find?_cons, ih]

theorem find_updateBucket_other (S S1 : SignalId) (hne : S1 ≠ S)
    (f : List HandlerId → List HandlerId) (bs : List Bucket) :
    (updateBucket S f bs).find? (fun b => decide (b.signal = S1)) =
      bs.find? (fun b => decide (b.signal = S1)) := by
  induction bs with
  | nil => rfl
  | cons b bs ih =>
    by_cases hb : b.signal = S
    · have hb1 : ¬ b.signal = S1 := fun h => hne (h.symm.trans hb)
      simp [updateBucket, hb, List.find?_cons, hne.symm]
    · by_cases hb1 : b.signal = S1
      · simp [updateBucket, hb, List.find?_cons, hb1, hne]
      · simp [updateBucket, hb, List.find?_cons, hb1, ih]

theorem connect_apply_other (st : Emitters) (S : SignalId) (E e : EmitterId) (h : HandlerId)
    (he : e ≠ E) : connect st S E h e = st e := by
  unfold connect
  cases findBucket st S E <;> simp [he]

/-- The handlers called by `emit` after a `connect`. -/
theorem emit_connect (st : Emitters) (S S1 : SignalId) (E E1 : EmitterId) (h : HandlerId) :
    emit (connect st S E h) S1 E1 =
      if S1 = S ∧ E1 = E then setInsert (emit st S E) h else emit st S1 E1 := by
  by_cases hE : E1 = E
  · subst hE
    cases hst : st E1 with
    | none =>
      by_cases hS : S1 = S
      · subst hS; simp [emit, connect, findBucket, hst]
      · simp [emit, connect, findBucket, hst, hS, Ne.symm hS]
    | some bs =>
      cases hf : bs.find? (fun b => decide (b.signal = S)) with
      | none =>
        by_cases hS : S1 = S
        · subst hS
          simp [emit, connect, findBucket, hst, hf, List.find?_append]
        · cases hf1 : bs.find? (fun b => decide (b.signal = S1)) with
          | none => simp [emit, connect, findBucket, hst, hf, hS, Ne.symm hS, List.find?_append, hf1]
          | some b1 =>
            simp [emit, connect, findBucket, hst, hf, hS, List.find?_append, hf1]
      | some b0 =>
        by_cases hS : S1 = S
        · subst hS
          simp [emit, connect, findBucket, hst, hf, find_updateBucket_same]
        · simp [emit, connect, findBucket, hst, hf, hS, find_updateBucket_other S S1 hS]
  · have hne : ¬ (S1 = S ∧ E1 = E) := fun hh => hE hh.2
    rw [if_neg hne]
    unfold emit findBucket
    rw [connect_apply_other st S E E1 h hE]

/-- The handlers called by `emit` after a `disconnect` that returned. -/
theorem emit_disconnect (st st1 : Emitters) (S S1 : SignalId) (E E1 : EmitterId)
    (h : HandlerId) (hd : disconnect st S E h = some st1) :
    emit st1 S1 E1 = if S1 = S ∧ E1 = E then setErase (emit st S E) h else emit st S1 E1 := by
  unfold disconnect at hd
  cases hf : findBucket st S E with
  | none => rw [hf] at hd; exact Option.noConfusion hd
  | some b0 =>
    rw [hf] at hd
    have hst1 := (Option.some.inj hd).symm
    subst hst1
    by_cases hE : E1 = E
    · subst hE
      cases hst : st E1 with
      | none => simp [findBucket, hst] at hf
      | some bs =>
        have hf2 : bs.find? (fun b => decide (b.signal = S)) = some b0 := by
          simpa [findBucket, hst] using hf
        by_cases hS : S1 = S
        · subst hS
          simp [emit, findBucket, hst, hf2, find_updateBucket_same]
        · simp [emit, findBucket, hst, hS, find_updateBucket_other S S1 hS]
    · simp [emit, findBucket, hE]

theorem count_setInsert (s : List HandlerId) (h x : HandlerId) (hs : s.count h ≤ 1) :
    (setInsert s h).count x = if x = h then 1 else s.count x := by
  unfold setInsert
  by_cases hm : h ∈ s
  · rw [if_pos hm]
    by_cases hx : x = h
    · subst hx
      have := List.count_pos_iff.2 hm
      rw [if_pos rfl]; omega
    · rw [if_neg hx]
  · rw [if_neg hm]
    by_cases hx : x = h
    · subst hx
      rw [if_pos rfl, List.count_cons_self, List.count_eq_zero.2 hm]
    · rw [if_neg hx, List.count_cons_of_ne hx]

theorem count_setErase (s : List HandlerId) (h x : HandlerId) (hs : s.count h ≤ 1) :
    (setErase s h).count x = if x = h then 0 else s.count x := by
  unfold setErase
  by_cases hx : x = h
  · subst hx
    rw [if_pos rfl, List.count_erase_self]; omega
  · rw [if_neg hx, List.count_erase_of_ne hx]

/-- One call keeps `emit` in step with the connected relation. -/
theorem emit_count_step (st st1 : Emitters) (c : SignalId → EmitterId → HandlerId → Bool)
    (hinv : ∀ S E h, (emit st S E).count h = if c S E h then 1 else 0)
    (op : SignalOp) (hs : signalStep st op = some st1) :
    ∀ S E h, (emit st1 S E).count h = if connectedStep c op S E h then 1 else 0 := by
  have hle : ∀ S E h, (emit st S E).count h ≤ 1 := fun S E h => by
    rw [hinv]; split <;> omega
  intro S1 E1 h1
  cases op with
  | connect S E h =>
    simp only [signalStep, Option.some.injEq] at hs
    subst hs
    rw [emit_connect]
    by_cases hSE : S1 = S ∧ E1 = E
    · obtain ⟨rfl, rfl⟩ := hSE
      simp only [and_self, if_true, connectedStep, true_and]
      rw [count_setInsert _ _ _ (hle _ _ _)]
      by_cases hh : h1 = h
      · simp [hh]
      · simp [hh, hinv]
    · rw [if_neg hSE, hinv]
      have : ¬ (S1 = S ∧ E1 = E ∧ h1 = h) := fun hh => hSE ⟨hh.1, hh.2.1⟩
      simp [connectedStep, this]
  | disconnect S E h =>
    simp only [signalStep] at hs
    rw [emit_disconnect st st1 S S1 E E1 h hs]
    by_cases hSE : S1 = S ∧ E1 = E
    · obtain ⟨rfl, rfl⟩ := hSE
      simp only [and_self, if_true, connectedStep, true_and]
      rw [count_setErase _ _ _ (hle _ _ _)]
      by_cases hh : h1 = h
      · simp [hh]
      · simp [hh, hinv]
    · rw [if_neg hSE, hinv]
      have : ¬ (S1 = S ∧ E1 = E ∧ h1 = h) := fun hh => hSE ⟨hh.1, hh.2.1⟩
      simp [connectedStep, this]

/-- A sequence of calls keeps `emit` in step with the connected relation. -/
theorem emit_count_run (ops : List SignalOp) :
    ∀ (st st1 : Emitters) (c : SignalId → EmitterId → HandlerId → Bool),
      (∀ S E h, (emit st S E).count h = if c S E h then 1 else 0) →
      signalRun ops st = some st1 →
      ∀ S E h, (emit st1 S E).count h = if connectedAfter c ops S E h then 1 else 0 := by
  induction ops with
  | nil =>
    intro st st1 c hinv hr
    simp only [signalRun, Option.some.injEq] at hr
    subst hr
    exact hinv
  | cons op ops ih =>
    intro st st1 c hinv hr
    simp only [signalRun] at hr
    cases hs : signalStep st op with
    | none => rw [hs] at hr; exact Option.noConfusion hr
    | some st2 =>
      rw [hs] at hr
      exact ih st2 st1 (connectedStep c op) (emit_count_step st st2 c hinv op hs) hr

theorem emit_noConnections (S : SignalId) (E : EmitterId) : emit noConnections S E = [] := rfl

/-- C15: after any calls of `connect` and `disconnect` that returned, made
from a state without connections, `S.emit(E, args)` calls `onSignal(args)`
exactly once on each handler that has been connected to `(S, E)` and not
since disconnected, and on no other handler (a connection of the same handler
to another signal or another emitter does not count); when nothing is
connected to `(S, E)` it calls nothing. -/
theorem emit_exactly_connected (ops : List SignalOp) (st : Emitters)
    (hr : signalRun ops noConnections = some st) (S : SignalId) (E : EmitterId) :
    (∀ h, (emit st S E).count h =
      if connectedAfter nothingConnected ops S E h then 1 else 0) ∧
    (∀ h, h ∈ emit st S E ↔ connectedAfter nothingConnected ops S E h = true) ∧
    (emit st S E).Nodup ∧
    ((∀ h, connectedAfter nothingConnected ops S E h = false) → emit st S E = []) ∧
    emit noConnections S E = [] := by
  have hcount := emit_count_run ops noConnections st nothingConnected
    (fun S E h => by simp [emit_noConnections, nothingConnected]) hr S E
  have hmem : ∀ h, h ∈ emit st S E ↔ connectedAfter nothingConnected ops S E h = true := by
    intro h
    rw [← List.count_pos_iff, hcount h]
    by_cases hc : connectedAfter nothingConnected ops S E h = true <;> simp [hc]
  refine ⟨hcount, hmem, ?_, ?_, rfl⟩
  · rw [List.nodup_iff_count_le_one]
    intro h; rw [hcount h]; split <;> omega
  · intro hnone
    rw [List.eq_nil_iff_forall_not_mem]
    intro h hh
    have := (hmem h).1 hh
    rw [hnone h] at this
    exact Bool.noConfusion this

/-- Witness for C15: the calls of `sampleSignalOps`; afterwards signal `1`
calls only handler `100` for emitter `10`. -/
theorem emit_exactly_connected_witness :
    signalRun sampleSignalOps noConnections = some sampleEmitters ∧
    emit sampleEmitters 1 10 = [100] ∧
    ((∀ h, (emit sampleEmitters 1 10).count h =
      if connectedAfter nothingConnected sampleSignalOps 1 10 h then 1 else 0) ∧
    (∀ h, h ∈ emit sampleEmitters 1 10 ↔
      connectedAfter nothingConnected sampleSignalOps 1 10 h = true) ∧
    (emit sampleEmitters 1 10).Nodup ∧
    ((∀ h, connectedAfter nothingConnected sampleSignalOps 1 10 h = false) →
      emit sampleEmitters 1 10 = []) ∧
    emit noConnections 1 10 = []) :=
  ⟨rfl, by decide, emit_exactly_connected sampleSignalOps sampleEmitters rfl 1 10⟩

/-- C16: destroying an emitter `E`, after any calls of `connect` and
`disconnect` that returned, calls `onSignal()` exactly once on every handler
connected to `onDestruction` for `E` and on no handler that is connected to
`onDestruction` only for other emitters; all these calls come before the
buckets and the bucket vector of `E` are deleted; afterwards `E` has no
buckets and the other emitters are untouched. -/
theorem destruction_notifies (ops : List SignalOp) (st : Emitters)
    (hr : signalRun ops noConnections = some st) (E : EmitterId) :
    (∀ h, (destroyEmitter st E).1.count (.onSignal h) =
      if connectedAfter nothingConnected ops onDestruction E h then 1 else 0) ∧
    (∃ rest, (destroyEmitter st E).1 =
        (emit st onDestruction E).map DestructionStep.onSignal ++ rest ∧
      (∀ h, DestructionStep.onSignal h ∉ rest) ∧ DestructionStep.deleteBuckets ∈ rest ∧
      (∀ b, (∃ bs, st E = some bs ∧ b ∈ bs) → DestructionStep.deleteBucket b.signal ∈ rest)) ∧
    (destroyEmitter st E).2 E = none ∧
    (∀ e, e ≠ E → (destroyEmitter st E).2 e = st e) := by
  have hcount := emit_count_run ops noConnections st nothingConnected
    (fun S E h => by simp [emit_noConnections, nothingConnected]) hr onDestruction E
  have hrest : ∀ h, DestructionStep.onSignal h ∉
      (match st E with
        | none => []
        | some bs => bs.map (fun b => DestructionStep.deleteBucket b.signal)) ++
      [DestructionStep.deleteBuckets] := by
    intro h hh
    cases hst : st E with
    | none => rw [hst] at hh; simp at hh
    | some bs => rw [hst] at hh; simp at hh
  refine ⟨?_, ⟨_, by simp only [destroyEmitter, List.append_assoc], hrest, by simp, ?_⟩,
    by simp [destroyEmitter], fun e he => by simp [destroyEmitter, he]⟩
  · intro h
    have hinj : Function.Injective DestructionStep.onSignal := fun a b hab => by
      injection hab
    have h0 := List.count_eq_zero.2 (hrest h)
    simp only [destroyEmitter, List.append_assoc]
    rw [List.count_append, List.count_map_of_injective _ _ hinj, h0, hcount h]
    rfl
  · rintro b ⟨bs, hbs, hb⟩
    rw [hbs]
    simp only [List.mem_append, List.mem_map]
    exact Or.inl ⟨b, hb, rfl⟩

/-- Witness for C16: after `sampleDestructionOps` emitter `10` is destroyed;
only handler `100` is called, before the bucket and the vector are deleted. -/
theorem destruction_notifies_witness :
    signalRun sampleDestructionOps noConnections = some sampleDestructionEmitters ∧
    (destroyEmitter sampleDestructionEmitters 10).1 =
      [.onSignal 100, .deleteBucket onDestruction, .deleteBuckets] ∧
    ((∀ h, (destroyEmitter sampleDestructionEmitters 10).1.count (.onSignal h) =
      if connectedAfter nothingConnected sampleDestructionOps onDestruction 10 h
      then 1 else 0) ∧
    (∃ rest, (destroyEmitter sampleDestructionEmitters 10).1 =
        (emit sampleDestructionEmitters onDestruction 10).map DestructionStep.onSignal
          ++ rest ∧
      (∀ h, DestructionStep.onSignal h ∉ rest) ∧ DestructionStep.deleteBuckets ∈ rest ∧
      (∀ b, (∃ bs, sampleDestructionEmitters 10 = some bs ∧ b ∈ bs) →
        DestructionStep.deleteBucket b.signal ∈ rest)) ∧
    (destroyEmitter sampleDestructionEmitters 10).2 10 = none ∧
    (∀ e, e ≠ 10 → (destroyEmitter sampleDestructionEmitters 10).2 e =
      sampleDestructionEmitters e)) :=
  ⟨rfl, by decide,
    destruction_notifies sampleDestructionOps sampleDestructionEmitters rfl 10⟩

/-! ### Allocation pool -/

theorem sound_fresh : Pool.fresh.Sound :=
  ⟨Nat.le_refl 0, by decide, fun h => absurd h (Nat.lt_irrefl 0)⟩

theorem set_same (l : List Nat) (k i : Nat) (h : l[k]? = some i) : l.set k i = l := by
  induction l generalizing k with
  | nil => rfl
  | cons a l ih =>
    cases k with
    | zero => simp at h; simp [h]
    | succ k => simp at h; simp [ih k h]

theorem toNat_emod_of_lt (i : Nat) (h : i < 2 ^ 32) : ((i : Int) % 2 ^ 32).toNat = i := by
  rw [Int.emod_eq_of_lt (Int.ofNat_nonneg i) (by exact_mod_cast h)]
  rfl

theorem sound_setMemory {p p1 : Pool} {m n : Nat} (h : p.setMemory m n = .ok p1) :
    p1.Sound := by
  unfold Pool.setMemory at h
  split at h
  · injection h with h
    subst h
    exact ⟨Nat.zero_le _, Nat.mod_lt _ (by decide), fun _ => ⟨by simp, _, rfl,
      List.length_range _, fun x hx => List.mem_range.1 hx⟩⟩
  · exact PoolResult.noConfusion h

/-- What `allocate` returns on a sound pool that is not exhausted. -/
theorem allocate_of_sound {p : Pool} (hs : p.Sound) (hne : p.isExhausted = false) :
    ∃ fr i, p.free = some fr ∧ fr[p.nextFree]? = some i ∧ i < p.size ∧
      p.allocate = .ok ({ p with nextFree := p.nextFree + 1 }, (i : Int)) := by
  have hlt : p.nextFree < p.size := by
    simpa [Pool.isExhausted] using hne
  obtain ⟨hmem, fr, hfr, hlen, hall⟩ := hs.2.2 (by omega)
  have hidx : p.nextFree < fr.length := by omega
  refine ⟨fr, fr[p.nextFree], hfr, List.getElem?_eq_getElem hidx,
    hall _ (List.getElem_mem hidx), ?_⟩
  unfold Pool.allocate
  rw [hne]
  cases hm : p.memory with
  | none => exact absurd hm hmem
  | some a =>
    simp only [hfr, List.getElem?_eq_getElem hidx, hall _ (List.getElem_mem hidx), if_true]
    rfl

theorem sound_deallocate {p p1 : Pool} {t : Int} (hs : p.Sound)
    (h : p.deallocate t = .ok p1) : p1.Sound := by
  unfold Pool.deallocate at h
  cases hm : p.memory with
  | none => rw [hm] at h; exact PoolResult.noConfusion h
  | some a =>
    cases hf : p.free with
    | none => rw [hm, hf] at h; exact PoolResult.noConfusion h
    | some fr =>
      rw [hm, hf] at h
      simp only at h
      split at h
      · exact PoolResult.noConfusion h
      · split at h
        · exact PoolResult.noConfusion h
        · rename_i hnz halloc
          split at h
          · injection h with h
            subst h
            have hpos : (t % 2 ^ 32).toNat < p.size := by
              simpa [Pool.isAlloctated] using halloc
            refine ⟨by simp only; have := hs.1; omega, hs.2.1, fun hsz => ?_⟩
            obtain ⟨_, fr0, hfr0, hlen, hall⟩ := hs.2.2 hsz
            have hfr : fr0 = fr := Option.some.inj (hfr0.symm.trans hf)
            subst hfr
            refine ⟨by simp [hm], _, rfl, by simp [hlen], fun x hx => ?_⟩
            rcases List.mem_or_eq_of_mem_set hx with h1 | h1
            · exact hall x h1
            · rw [h1]; exact hpos
          · exact PoolResult.noConfusion h

theorem sound_step {p p1 : Pool} (hs : p.Sound) (op : PoolOp) (h : poolStep p op = .ok p1) :
    p1.Sound := by
  cases op with
  | setMemory m n => exact sound_setMemory h
  | create heapPtr =>
    simp only [poolStep, Pooled.create] at h
    cases he : p.isExhausted with
    | true =>
      rw [he] at h
      simp only [if_true] at h
      injection h with h
      rw [← h]; exact hs
    | false =>
      obtain ⟨fr, i, _, _, _, ha⟩ := allocate_of_sound hs he
      rw [he, ha] at h
      simp only [Bool.false_eq_true, if_false] at h
      injection h with h
      subst h
      have hlt : p.nextFree < p.size := by simpa [Pool.isExhausted] using he
      exact ⟨by simp only; omega, hs.2.1, hs.2.2⟩
  | destroy o =>
    simp only [poolStep, Pooled.destroy] at h
    split at h
    · exact sound_deallocate hs h
    · injection h with h
      rw [← h]; exact hs

theorem sound_run (ops : List PoolOp) {p p1 : Pool} (hs : p.Sound)
    (h : poolRun ops p = .ok p1) : p1.Sound := by
  induction ops generalizing p with
  | nil =>
    simp only [poolRun] at h
    injection h with h
    rw [← h]; exact hs
  | cons op ops ih =>
    simp only [poolRun] at h
    cases hst : poolStep p op with
    | ok p2 => rw [hst] at h; exact ih (sound_step hs op hst) h
    | assertFailed => rw [hst] at h; exact PoolResult.noConfusion h
    | undefinedBehaviour => rw [hst] at h; exact PoolResult.noConfusion h

/-- C17: in every pool state reached by calls of `setMemory`, `create` and
`destroy` that returned (also when `setMemory` was never called), `create()`
returns: when the pool is exhausted it hands out a heap object that is not
marked and leaves the pool as it is; otherwise it hands out the block
`free[nextFree]`, marked as pool-allocated, and advances `nextFree`; no
assertion of `allocate()` fires.  `destroy()` gives the block back to the
pool (through `deallocate`) exactly when the object is marked, and destroying
the object just created from the pool restores the pool. -/
theorem create_never_fails (ops : List PoolOp) (p : Pool)
    (hr : poolRun ops Pool.fresh = .ok p) (heapPtr : Int) :
    (∃ r, Pooled.create p heapPtr = .ok r) ∧
    (p.isExhausted = true →
      Pooled.create p heapPtr = .ok (p, { ptr := heapPtr, poolAllocated := false })) ∧
    (p.isExhausted = false → ∃ fr i, p.free = some fr ∧ fr[p.nextFree]? = some i ∧
      i < p.size ∧
      Pooled.create p heapPtr =
        .ok ({ p with nextFree := p.nextFree + 1 }, { ptr := (i : Int), poolAllocated := true }) ∧
      Pooled.destroy { p with nextFree := p.nextFree + 1 }
        { ptr := (i : Int), poolAllocated := true } = .ok p) ∧
    Pooled.create Pool.fresh heapPtr =
      .ok (Pool.fresh, { ptr := heapPtr, poolAllocated := false }) ∧
    (∀ o : PoolObject, o.poolAllocated = false → Pooled.destroy p o = .ok p) ∧
    (∀ o : PoolObject, o.poolAllocated = true → Pooled.destroy p o = p.deallocate o.ptr) := by
  have hs : p.Sound := sound_run ops sound_fresh hr
  have hex : p.isExhausted = true →
      Pooled.create p heapPtr = .ok (p, { ptr := heapPtr, poolAllocated := false }) := by
    intro he; simp [Pooled.create, he]
  have hnex : p.isExhausted = false → ∃ fr i, p.free = some fr ∧ fr[p.nextFree]? = some i ∧
      i < p.size ∧
      Pooled.create p heapPtr =
        .ok ({ p with nextFree := p.nextFree + 1 }, { ptr := (i : Int), poolAllocated := true }) ∧
      Pooled.destroy { p with nextFree := p.nextFree + 1 }
        { ptr := (i : Int), poolAllocated := true } = .ok p := by
    intro he
    obtain ⟨fr, i, hfr, hi, hlt, ha⟩ := allocate_of_sound hs he
    refine ⟨fr, i, hfr, hi, hlt, by simp [Pooled.create, he, ha], ?_⟩
    have hnl : p.nextFree < p.size := by simpa [Pool.isExhausted] using he
    obtain ⟨hmem, fr0, hfr0, hlen, _⟩ := hs.2.2 (by omega)
    have hfr1 : fr0 = fr := Option.some.inj (hfr0.symm.trans hfr)
    subst hfr1
    have hidx : p.nextFree < fr0.length := by omega
    have hmod : ((i : Int) % 2 ^ 32).toNat = i := toNat_emod_of_lt i (by have := hs.2.1; omega)
    cases hm : p.memory with
    | none => exact absurd hm hmem
    | some a =>
      simp only [Pooled.destroy, if_true, Pool.deallocate, hm, hfr, Pool.isAlloctated,
        Nat.add_sub_cancel, hidx, Nat.succ_ne_zero, if_false, hmod, hlt, decide_True,
        Bool.true_eq_false, set_same fr0 p.nextFree i hi]
      cases p
      simp_all
  refine ⟨?_, hex, hnex, by simp [Pooled.create, Pool.isExhausted, Pool.fresh], ?_, ?_⟩
  · cases he : p.isExhausted with
    | true => exact ⟨_, hex he⟩
    | false =>
      obtain ⟨fr, i, _, _, _, hc, _⟩ := hnex he
      exact ⟨_, hc⟩
  · intro o ho; simp [Pooled.destroy, ho]
  · intro o ho; simp [Pooled.destroy, ho]

/-- Witness for C17: in the pool left by `samplePoolOps` one block is free. -/
theorem create_never_fails_witness :
    poolRun samplePoolOps Pool.fresh = .ok samplePool ∧
    ((∃ r, Pooled.create samplePool 6000 = .ok r) ∧
    (samplePool.isExhausted = true →
      Pooled.create samplePool 6000 =
        .ok (samplePool, { ptr := 6000, poolAllocated := false })) ∧
    (samplePool.isExhausted = false → ∃ fr i, samplePool.free = some fr ∧
      fr[samplePool.nextFree]? = some i ∧ i < samplePool.size ∧
      Pooled.create samplePool 6000 =
        .ok ({ samplePool with nextFree := samplePool.nextFree + 1 },
          { ptr := (i : Int), poolAllocated := true }) ∧
      Pooled.destroy { samplePool with nextFree := samplePool.nextFree + 1 }
        { ptr := (i : Int), poolAllocated := true } = .ok samplePool) ∧
    Pooled.create Pool.fresh 6000 =
      .ok (Pool.fresh, { ptr := 6000, poolAllocated := false }) ∧
    (∀ o : PoolObject, o.poolAllocated = false → Pooled.destroy samplePool o = .ok samplePool) ∧
    (∀ o : PoolObject, o.poolAllocated = true →
      Pooled.destroy samplePool o = samplePool.deallocate o.ptr)) :=
  ⟨by decide, create_never_fails samplePoolOps samplePool (by decide) 6000⟩

/-! ### `Node::dump` -/

theorem dumpEach_eq (g : NodeId → Option (List DumpLine)) (F : NodeId → List DumpLine)
    (cs : List NodeId) (hg : ∀ c ∈ cs, g c = some (F c)) :
    dumpEach g cs = some (cs.flatMap F) := by
  induction cs with
  | nil => rfl
  | cons c cs ih =>
    simp only [dumpEach, hg c (List.mem_cons_self c cs),
      ih (fun x hx => hg x (List.mem_cons_of_mem c hx)), List.flatMap_cons]

theorem closedWithin_pos {h : Heap} {k : Nat} {c : NodeId} (hc : ClosedWithin h k c) :
    1 ≤ k := by
  cases k with
  | zero => exact absurd hc (by simp [ClosedWithin])
  | succ k => omega

/-- With enough unfolding, `dump` writes the pre-order lines. -/
theorem dump_eq_preorderLines (h : Heap) (k : Nat) :
    ∀ (n : NodeId) (level fuel : Nat), ClosedWithin h k n → level + k ≤ 2 ^ 32 → k ≤ fuel →
      dump fuel h n level = some (preorderLines h k n level) := by
  induction k with
  | zero => intro n level fuel hcl; exact absurd hcl (by simp [ClosedWithin])
  | succ k ih =>
    intro n level fuel hcl hlv hf
    obtain ⟨f, rfl⟩ : ∃ f1, fuel = f1 + 1 := ⟨fuel - 1, by omega⟩
    have hch : ∀ c ∈ (h n).m_children,
        dump f h c ((level + 1) % 2 ^ 32) = some (preorderLines h k c (level + 1)) := by
      intro c hc
      have hk := closedWithin_pos (hcl c hc).2
      have hmod : (level + 1) % 2 ^ 32 = level + 1 := Nat.mod_eq_of_lt (by omega)
      rw [hmod]
      exact ih c (level + 1) f (hcl c hc).2 (by omega) (by omega)
    simp only [dump, preorderLines,
      dumpEach_eq _ (fun c => preorderLines h k c (level + 1)) _ hch]

theorem preorderLines_nodes (h : Heap) (k : Nat) :
    ∀ (n : NodeId) (level : Nat),
      (preorderLines h k n level).map (fun l => l.node) = subtree h k n := by
  induction k with
  | zero => intro n level; rfl
  | succ k ih =>
    intro n level
    simp only [preorderLines, subtree, List.map_cons, List.map_flatMap, dumpLine]
    congr 1
    exact flatMap_congr_mem _ (fun c _ => ih c (level + 1))

theorem preorderLines_indent (h : Heap) (k : Nat) :
    ∀ (n : NodeId) (level : Nat), ClosedWithin h k n →
      ∀ l ∈ preorderLines h k n level,
        ∃ d, l.indent = level + d ∧ ancestor h d l.node = some n := by
  induction k with
  | zero => intro n level hcl; exact absurd hcl (by simp [ClosedWithin])
  | succ k ih =>
    intro n level hcl l hl
    simp only [preorderLines, List.mem_cons, List.mem_flatMap] at hl
    rcases hl with rfl | ⟨c, hc, hlc⟩
    · exact ⟨0, rfl, rfl⟩
    · obtain ⟨d, hd1, hd2⟩ := ih c (level + 1) (hcl c hc).2 l hlc
      refine ⟨d + 1, by omega, ?_⟩
      rw [ancestor_add, hd2]
      simp [ancestor, (hcl c hc).1]

/-- C18: on the root `n` of a finite tree (closed within `k` levels, no node
listed twice) whose indentation stays below `2 ^ 32`, `Node::dump(n, level)`
returns for every sufficient bound on its unfolding; it writes exactly one
line per node of the subtree, the lines are in depth-first pre-order with the
children of each node in child-sequence order, and the line of a node `d`
parent links below `n` is indented by `level + d` spaces. -/
theorem dump_preorder (h : Heap) (k : Nat) (n : NodeId) (level : Nat)
    (hcl : ClosedWithin h k n) (hnd : (subtree h k n).Nodup) (hlv : level + k ≤ 2 ^ 32) :
    ∃ lines, (∀ fuel, k ≤ fuel → dump fuel h n level = some lines) ∧
      lines.map (fun l => l.node) = subtree h k n ∧
      lines.length = (subtree h k n).length ∧
      (∀ m, m ∈ subtree h k n → (lines.map (fun l => l.node)).count m = 1) ∧
      (∀ m, m ∉ subtree h k n → (lines.map (fun l => l.node)).count m = 0) ∧
      (∀ l ∈ lines, ∃ d, l.indent = level + d ∧ ancestor h d l.node = some n) ∧
      (∀ l ∈ lines, l = dumpLine h l.node l.indent) := by
  have hn := preorderLines_nodes h k n level
  refine ⟨preorderLines h k n level,
    fun fuel hf => dump_eq_preorderLines h k n level fuel hcl hlv hf, hn, ?_, ?_, ?_,
    preorderLines_indent h k n level hcl, ?_⟩
  · rw [← hn, List.length_map]
  · intro m hm; rw [hn]; exact List.count_eq_one_of_mem hnd hm
  · intro m hm; rw [hn]; exact List.count_eq_zero.2 hm
  · clear hn hnd hlv hcl
    induction k generalizing n level with
    | zero => intro l hl; exact absurd hl (List.not_mem_nil l)
    | succ k ih =>
      intro l hl
      simp only [preorderLines, List.mem_cons, List.mem_flatMap] at hl
      rcases hl with rfl | ⟨c, _, hlc⟩
      · rfl
      · exact ih c (level + 1) l hlc

/-- Witness for C18: `dump` of the root `0` of `sampleTree` at level `0`
writes the nodes `0, 1, 2, 3, 4` indented by `0, 1, 2, 2, 1`. -/
theorem dump_preorder_witness :
    ((dump 3 sampleTree 0 0).map fun ls => ls.map fun l => (l.node, l.indent)) =
      some [(0, 0), (1, 1), (2, 2), (3, 2), (4, 1)] ∧
    ∃ lines, (∀ fuel, 3 ≤ fuel → dump fuel sampleTree 0 0 = some lines) ∧
      lines.map (fun l => l.node) = subtree sampleTree 3 0 ∧
      lines.length = (subtree sampleTree 3 0).length ∧
      (∀ m, m ∈ subtree sampleTree 3 0 → (lines.map (fun l => l.node)).count m = 1) ∧
      (∀ m, m ∉ subtree sampleTree 3 0 → (lines.map (fun l => l.node)).count m = 0) ∧
      (∀ l ∈ lines, ∃ d, l.indent = 0 + d ∧ ancestor sampleTree d l.node = some 0) ∧
      (∀ l ∈ lines, l = dumpLine sampleTree l.node l.indent) :=
  ⟨by decide, dump_preorder sampleTree 3 0 0 (by decide) (by decide) (by decide)⟩

/-! ### Round trips -/

theorem node_ext (x y : Node) (h1 : x.m_parent = y.m_parent) (h2 : x.m_children = y.m_children)
    (h3 : x.m_type = y.m_type) (h4 : x.m_preprocess = y.m_preprocess)
    (h5 : x.hookCalls = y.hookCalls) (h6 : x.alive = y.alive) : x = y := by
  cases x; cases y; simp_all

theorem heap_ext_links {h g : Heap} (hd : SameData h g)
    (hp : ∀ m, (g m).m_parent = (h m).m_parent)
    (hc : ∀ m, (g m).m_children = (h m).m_children) : g = h := by
  funext m
  exact node_ext _ _ (hp m) (hc m) (hd m).1 (hd m).2.1 (hd m).2.2.1 (hd m).2.2.2

/-- C27: when `c` has no parent and is not a child of `P`, `P.append(c)`
followed by `P.remove(c)` returns and leaves the heap exactly as it was (the
child sequence of `P`, the parent reference of `c`, the children of `c` and
everything else); so does `P.prepend(c)` followed by `P.remove(c)`. -/
theorem attach_detach_roundtrip (h : Heap) (P c : NodeId)
    (hpar : (h c).m_parent = none) (hnot : c ∉ (h P).m_children) :
    (∃ g, append h P c = .done g ∧ remove g P c = .done h) ∧
    (∃ g, prepend h P c = .done g ∧ remove g P c = .done h) := by
  constructor
  · refine ⟨_, append_done h P c hpar hnot, ?_⟩
    rw [remove_done _ P c (by simp)]
    congr 1
    refine heap_ext_links ?_ ?_ ?_
    · exact sameData_trans (sameData_trans (sameData_trans (sameData_setChildren _ _ _)
        (sameData_setParentField _ _ _)) (sameData_setChildren _ _ _))
        (sameData_setParentField _ _ _)
    · intro m
      by_cases hm : m = c
      · subst hm; simp [hpar]
      · simp [hm]
    · intro m
      by_cases hm : m = P
      · subst hm; simp [List.erase_append_right _ hnot]
      · simp [hm]
  · refine ⟨_, prepend_done h P c hpar hnot, ?_⟩
    rw [remove_done _ P c (by simp)]
    congr 1
    refine heap_ext_links ?_ ?_ ?_
    · exact sameData_trans (sameData_trans (sameData_trans (sameData_setChildren _ _ _)
        (sameData_setParentField _ _ _)) (sameData_setChildren _ _ _))
        (sameData_setParentField _ _ _)
    · intro m
      by_cases hm : m = c
      · subst hm; simp [hpar]
      · simp [hm]
    · intro m
      by_cases hm : m = P
      · subst hm; simp
      · simp [hm]

/-- Witness for C27: node `5` is attached to, and removed from, the root of
`sampleTree`. -/
theorem attach_detach_roundtrip_witness :
    (∃ g, append sampleTree 0 5 = .done g ∧ remove g 0 5 = .done sampleTree) ∧
    (∃ g, prepend sampleTree 0 5 = .done g ∧ remove g 0 5 = .done sampleTree) :=
  attach_detach_roundtrip sampleTree 0 5 (by decide) (by decide)

theorem splice_back (cs : List NodeId) (E W : NodeId) (hE : E ∈ cs) (hW : W ∉ cs) :
    (cs.set (cs.indexOf E) W).take ((cs.set (cs.indexOf E) W).indexOf W) ++ [E] ++
      (cs.set (cs.indexOf E) W).drop ((cs.set (cs.indexOf E) W).indexOf W + 1) = cs := by
  induction cs with
  | nil => exact absurd hE (List.not_mem_nil E)
  | cons a l ih =>
    by_cases ha : a = E
    · subst ha
      simp [List.indexOf_cons_self]
    · have haW : a ≠ W := fun hh => hW (hh ▸ List.mem_cons_self a l)
      have hEl : E ∈ l := by
        rcases List.mem_cons.1 hE with h1 | h1
        · exact absurd h1.symm ha
        · exact h1
      have hWl : W ∉ l := fun hh => hW (List.mem_cons_of_mem a hh)
      have := ih hEl hWl
      rw [List.indexOf_cons_ne _ ha, List.set_cons_succ,
        List.indexOf_cons_ne _ haW]
      simp only [List.take_succ_cons, List.drop_succ_cons, List.cons_append]
      rw [List.append_assoc] at this
      simp only [List.singleton_append] at this
      simp only [List.singleton_append, List.append_assoc, List.cons_append, List.nil_append]
      rw [this]

/-- Wrapping a fresh node `W` around `E` puts `W` under the parent `P` of
`E`, another node, so that `W.evict()` has undefined behaviour; the
statements of `evict` that follow the search give back the heap from before
the wrapping when the search is taken to return the position of `W` in the
vector of `P`. -/
theorem wrap_then_evict (h : Heap) (W E P : NodeId) (hc : Consistent h)
    (hW : (h W).m_parent = none) (hWc : (h W).m_children = [])
    (hE : (h E).m_parent = some P) :
    ∃ g, injectAbove h W E = .done g ∧ (g W).m_parent = some P ∧ P ≠ W ∧
      evict g W = .undefinedBehaviour ∧
      evictFrom g W P (vecFind (g P).m_children W) = .done h := by
  have hmem : E ∈ (h P).m_children := hc.mem_of_parent hE
  have hWP : W ≠ P := by
    intro hh; rw [hh] at hWc; rw [hWc] at hmem; exact List.not_mem_nil E hmem
  have hEW : E ≠ W := by
    intro hh; rw [hh, hW] at hE; exact Option.noConfusion hE
  have hWn : W ∉ (h P).m_children := fun hm => by
    have := hc.2 P W hm; rw [hW] at this; exact Option.noConfusion this
  have hgW : ((setParentField (setChildren (setParentField
      (setChildren h P ((h P).m_children.set (vecFind (h P).m_children E) W)) W (some P)) W
      (((setParentField (setChildren h P ((h P).m_children.set (vecFind (h P).m_children E) W))
        W (some P)) W).m_children ++ [E])) E (some W)) W).m_parent = some P := by
    simp [Ne.symm hEW]
  have hgmem : W ∈ ((setParentField (setChildren (setParentField
      (setChildren h P ((h P).m_children.set (vecFind (h P).m_children E) W)) W (some P)) W
      (((setParentField (setChildren h P ((h P).m_children.set (vecFind (h P).m_children E) W))
        W (some P)) W).m_children ++ [E])) E (some W)) P).m_children := by
    simp only [setParentField_children, setChildren_children, if_neg (Ne.symm hWP), if_true,
      vecFind]
    exact List.mem_iff_getElem.2 ⟨(h P).m_children.indexOf E,
      by simpa using List.indexOf_lt_length.2 hmem, by simp⟩
  refine ⟨_, injectAbove_done h W E P hW hE hmem, hgW, Ne.symm hWP,
    evict_of_other _ W P hgW (Ne.symm hWP), ?_⟩
  obtain ⟨g2, e2, hp2, hW2, hoth, hpar2, hsd2⟩ :=
    evictFrom_links _ W P hgmem (Ne.symm hWP)
  rw [e2]
  congr 1
  refine heap_ext_links ?_ ?_ ?_
  · exact sameData_trans (sameData_trans (sameData_trans (sameData_trans
      (sameData_setChildren _ _ _) (sameData_setParentField _ _ _))
      (sameData_setChildren _ _ _)) (sameData_setParentField _ _ _)) hsd2
  · intro m
    rw [hpar2 m]
    by_cases hmW : m = W
    · subst hmW; simp [hW]
    · by_cases hmE : m = E
      · subst hmE; simp [hmW, hWP, hWc, hE]
      · simp [hmW, hmE, hWP, hWc]
  · intro m
    by_cases hmW : m = W
    · subst hmW; rw [hW2, hWc]
    · by_cases hmP : m = P
      · subst hmP
        rw [hp2]
        simp only [setParentField_children, setChildren_children, if_neg hWP,
          if_neg (Ne.symm hWP), if_true, vecFind, hWc, List.nil_append, List.reverse_singleton]
        exact splice_back _ E W hmem hWn
      · rw [hoth m hmP hmW]
        simp [hmW, hmP]

/-- C26 (the code departs from the claim): the fresh node `9` is wrapped
around node `1` of `sampleTree`; `9.injectAbove(1)` returns with `9` under
node `0`, and `9.evict()` then has undefined behaviour instead of restoring
the tree.  The same holds in every heap with consistent links for a node `E`
with parent `P` and a node `W` with no parent and no children: `W.evict()`
hands `std::find` iterators of the vectors of `P` and of `W`.  Only when the
search is taken to return the position of `W` in the vector of `P` do the
statements that follow restore the heap exactly. -/
theorem wrap_unwrap_undefined :
    (∃ g, injectAbove sampleTree 9 1 = .done g ∧ (g 9).m_parent = some 0 ∧
      evict g 9 = .undefinedBehaviour ∧
      evictFrom g 9 0 (vecFind (g 0).m_children 9) = .done sampleTree) ∧
    (∀ (h : Heap) (W E P : NodeId), Consistent h → (h W).m_parent = none →
      (h W).m_children = [] → (h E).m_parent = some P →
      ∃ g, injectAbove h W E = .done g ∧ (g W).m_parent = some P ∧ P ≠ W ∧
        evict g W = .undefinedBehaviour ∧
        evictFrom g W P (vecFind (g P).m_children W) = .done h) := by
  refine ⟨?_, wrap_then_evict⟩
  obtain ⟨g, e1, e2, _, e3, e4⟩ := wrap_then_evict sampleTree 9 1 0
    (consistent_run [.append 0 1, .append 1 2, .append 1 3, .append 0 4]
      (consistent_of_detached detached_freshHeap) ⟨id, id, id, id, trivial⟩ rfl)
    (by decide) (by decide) (by decide)
  exact ⟨g, e1, e2, e3, e4⟩

/-- C30 (the code departs from the claim): after `0.append(1)`, the search
of `1.evict()` starts at the `begin()` of node `0` and is bounded by the
`end()` of node `1`, two different vectors; for every node whose parent is
another node the two bounds belong to different nodes, whereas `injectAbove`
takes both bounds from the parent. -/
theorem evict_search_range_mixed :
    evictSearchRange parentAndChild 1 = some { first := 0, last := 1 } ∧
    injectAboveSearchRange parentAndChild 1 = some { first := 0, last := 0 } ∧
    (∀ (h : Heap) (n p : NodeId), (h n).m_parent = some p → p ≠ n →
      ∃ r, evictSearchRange h n = some r ∧ r.first = p ∧ r.last = n ∧ r.first ≠ r.last) ∧
    (∀ (h : Heap) (n p : NodeId), (h n).m_parent = some p →
      ∃ r, injectAboveSearchRange h n = some r ∧ r.first = p ∧ r.last = p) := by
  refine ⟨by decide, by decide, ?_, ?_⟩
  · intro h n p hp hne
    exact ⟨{ first := p, last := n }, by simp [evictSearchRange, hp], rfl, rfl, hne⟩
  · intro h n p hp
    exact ⟨{ first := p, last := p }, by simp [injectAboveSearchRange, hp], rfl, rfl⟩

/-! ### Layout of the key enumeration and the key table -/

theorem modifiers_mem_all (m : Modifiers) : m ∈ Modifiers.all := by
  rcases m with ⟨_ | _, _ | _, _ | _⟩ <;> decide

theorem keyWithModifiers_split :
    ∀ m ∈ Modifiers.all, ∀ k ∈ nonModifierKeys,
      keyWithModifiers k m % 0x80 = k.value ∧ keyWithModifiers k m / 0x80 * 0x80 = m.mask := by
  decide

theorem mask_injective :
    ∀ m1 ∈ Modifiers.all, ∀ m2 ∈ Modifiers.all, m1.mask = m2.mask → m1 = m2 := by
  decide

theorem nonModifier_values_nodup : (nonModifierKeys.map Key.value).Nodup := by
  decide

/-- C21: the 44 key identifiers declared before the modifiers have pairwise
distinct values, all below `0x80`; `Key_Shift`, `Key_Alt` and `Key_Ctrl` are
the single bits 7, 8 and 9; so the value `k | m` of a key with a set of
modifiers determines both: the bits below `0x80` are the key, the others the
modifiers. -/
theorem key_layout :
    nonModifierKeys.length = 44 ∧
    (∀ k : Key, k ∈ nonModifierKeys ∨ k ∈ modifierKeys) ∧
    (nonModifierKeys.map Key.value).Nodup ∧
    (∀ k ∈ nonModifierKeys, k.value < 0x80) ∧
    Key.Key_Shift.value = 2 ^ 7 ∧ Key.Key_Alt.value = 2 ^ 8 ∧ Key.Key_Ctrl.value = 2 ^ 9 ∧
    (∀ k ∈ nonModifierKeys, ∀ m : Modifiers,
      keyWithModifiers k m % 0x80 = k.value ∧ keyWithModifiers k m / 0x80 * 0x80 = m.mask) ∧
    (∀ k1 ∈ nonModifierKeys, ∀ k2 ∈ nonModifierKeys, ∀ m1 m2 : Modifiers,
      keyWithModifiers k1 m1 = keyWithModifiers k2 m2 → k1 = k2 ∧ m1 = m2) := by
  have hsplit : ∀ k ∈ nonModifierKeys, ∀ m : Modifiers,
      keyWithModifiers k m % 0x80 = k.value ∧ keyWithModifiers k m / 0x80 * 0x80 = m.mask :=
    fun k hk m => keyWithModifiers_split m (modifiers_mem_all m) k hk
  refine ⟨rfl, fun k => by cases k <;> decide, nonModifier_values_nodup, by decide, rfl, rfl,
    rfl, hsplit, ?_⟩
  intro k1 hk1 k2 hk2 m1 m2 heq
  have h1 := hsplit k1 hk1 m1
  have h2 := hsplit k2 hk2 m2
  rw [heq] at h1
  constructor
  · exact List.inj_on_of_nodup_map nonModifier_values_nodup hk1 hk2 (h1.1.symm.trans h2.1)
  · exact mask_injective m1 (modifiers_mem_all m1) m2 (modifiers_mem_all m2)
      (h1.2.symm.trans h2.2)

theorem keyMapNames_length :
    ∀ key ∈ nonModifierKeys, (keyMapNames key).length = if key = .Key_Enter then 2 else 1 := by
  decide

theorem keyMapEntries_keys : ∀ e ∈ keyMapEntries, e.2 ∈ nonModifierKeys := by
  decide

theorem keyMapEntries_functional :
    ∀ e1 ∈ keyMapEntries, ∀ e2 ∈ keyMapEntries, e1.1 = e2.1 → e1.2 = e2.2 := by
  decide

theorem mem_keyMapNames (name : SDLKeyName) (key : Key) :
    name ∈ keyMapNames key ↔ (name, key) ∈ keyMapEntries := by
  simp only [keyMapNames, List.mem_map, List.mem_filter, decide_eq_true_eq]
  constructor
  · rintro ⟨e, ⟨hm, hk⟩, hn⟩
    have : e = (name, key) := Prod.ext hn hk
    rw [← this]; exact hm
  · intro hm
    exact ⟨(name, key), ⟨hm, rfl⟩, rfl⟩

theorem keyMapFind_iff (code : SDLKeyName → SDL_Keycode) (hinj : Function.Injective code)
    (c : SDL_Keycode) (key : Key) :
    keyMapFind code c = some key ↔ ∃ name, name ∈ keyMapNames key ∧ c = code name := by
  constructor
  · intro h
    obtain ⟨name, hm, hc⟩ := keyMapFind_some code c key h
    exact ⟨name, (mem_keyMapNames name key).2 hm, hc.symm⟩
  · rintro ⟨name, hm, rfl⟩
    exact keyMapFind_of_injective code hinj name key ((mem_keyMapNames name key).1 hm)

theorem sdlKeyName_mem_all (n : SDLKeyName) : n ∈ SDLKeyName.all := by
  cases n <;> decide

theorem sdl2Keycode_injective : Function.Injective sdl2Keycode := by
  have hnd : (SDLKeyName.all.map sdl2Keycode).Nodup := by decide
  intro a b hab
  exact List.inj_on_of_nodup_map hnd (sdlKeyName_mem_all a) (sdlKeyName_mem_all b) hab

/-- C22: whenever the native key codes named in the table are pairwise
distinct (as they are in SDL), each of the 44 non-modifier keys has a native
code that the table, and so `sendKeyEvent`, maps to it; no native code is
mapped to two keys and none to a modifier; `Key_Enter` is reached from exactly
the two codes `SDLK_RETURN` and `SDLK_KP_ENTER`, and every other key from
exactly one code. -/
theorem every_key_reachable (code : SDLKeyName → SDL_Keycode)
    (hinj : Function.Injective code) :
    (∀ key ∈ nonModifierKeys, ∃ name, (name, key) ∈ keyMapEntries ∧
      keyMapFind code (code name) = some key ∧
      ∀ (b : SDLBackend) (w s : Nat) (t : EventType), b.m_window = some w →
        b.m_surface = some s → (t = .KeyDown ∨ t = .KeyUp) →
        sendKeyEvent code b { windowID := w, sym := code name } t =
          .delivered [{ type := t, m_keyCode := key, m_modifiers := 0 }]) ∧
    (∀ e1 ∈ keyMapEntries, ∀ e2 ∈ keyMapEntries, code e1.1 = code e2.1 → e1.2 = e2.2) ∧
    (∀ c key, keyMapFind code c = some key → key ∈ nonModifierKeys) ∧
    (∀ c, keyMapFind code c = some Key.Key_Enter ↔
      (c = code .SDLK_RETURN ∨ c = code .SDLK_KP_ENTER)) ∧
    code .SDLK_RETURN ≠ code .SDLK_KP_ENTER ∧
    (∀ key ∈ nonModifierKeys, key ≠ Key.Key_Enter →
      ∃ name, ∀ c, keyMapFind code c = some key ↔ c = code name) := by
  refine ⟨?_, ?_, ?_, ?_, ?_, ?_⟩
  · intro key hkey
    have hlen := keyMapNames_length key hkey
    have hpos : 0 < (keyMapNames key).length := by rw [hlen]; split <;> omega
    obtain ⟨name, hname⟩ := List.exists_mem_of_length_pos hpos
    have hmem := (mem_keyMapNames name key).1 hname
    have hfind := keyMapFind_of_injective code hinj name key hmem
    refine ⟨name, hmem, hfind, ?_⟩
    intro b w s t hw hs ht
    unfold sendKeyEvent
    simp only [hw, hs, ne_eq, not_true_eq_false, if_false, hfind]
    simp [ht]
  · intro e1 h1 e2 h2 hc
    exact keyMapEntries_functional e1 h1 e2 h2 (hinj hc)
  · intro c key h
    obtain ⟨name, hm, _⟩ := keyMapFind_some code c key h
    exact keyMapEntries_keys (name, key) hm
  · intro c
    rw [keyMapFind_iff code hinj]
    have : keyMapNames .Key_Enter = [.SDLK_RETURN, .SDLK_KP_ENTER] := by decide
    rw [this]
    simp
  · intro h
    exact absurd (hinj h) (by decide)
  · intro key hkey hne
    have hlen := keyMapNames_length key hkey
    rw [if_neg hne] at hlen
    obtain ⟨name, hname⟩ := List.length_eq_one.1 hlen
    refine ⟨name, fun c => ?_⟩
    rw [keyMapFind_iff code hinj, hname]
    simp

/-- Witness for C22: the key codes of SDL 2 are pairwise distinct. -/
theorem every_key_reachable_witness :
    (∀ key ∈ nonModifierKeys, ∃ name, (name, key) ∈ keyMapEntries ∧
      keyMapFind sdl2Keycode (sdl2Keycode name) = some key ∧
      ∀ (b : SDLBackend) (w s : Nat) (t : EventType), b.m_window = some w →
        b.m_surface = some s → (t = .KeyDown ∨ t = .KeyUp) →
        sendKeyEvent sdl2Keycode b { windowID := w, sym := sdl2Keycode name } t =
          .delivered [{ type := t, m_keyCode := key, m_modifiers := 0 }]) ∧
    (∀ e1 ∈ keyMapEntries, ∀ e2 ∈ keyMapEntries,
      sdl2Keycode e1.1 = sdl2Keycode e2.1 → e1.2 = e2.2) ∧
    (∀ c key, keyMapFind sdl2Keycode c = some key → key ∈ nonModifierKeys) ∧
    (∀ c, keyMapFind sdl2Keycode c = some Key.Key_Enter ↔
      (c = sdl2Keycode .SDLK_RETURN ∨ c = sdl2Keycode .SDLK_KP_ENTER)) ∧
    sdl2Keycode .SDLK_RETURN ≠ sdl2Keycode .SDLK_KP_ENTER ∧
    (∀ key ∈ nonModifierKeys, key ≠ Key.Key_Enter →
      ∃ name, ∀ c, keyMapFind sdl2Keycode c = some key ↔ c = sdl2Keycode name) :=
  every_key_reachable sdl2Keycode sdl2Keycode_injective

/-! ### The free list of the allocation pool -/

theorem drop_set_self (l : List Nat) (k x : Nat) (hk : k < l.length) :
    (l.set k x).drop k = x :: l.drop (k + 1) := by
  rw [List.drop_set, if_neg (Nat.lt_irrefl k), Nat.sub_self, List.drop_eq_getElem_cons hk]
  rfl

theorem inv_setMemory {m n : Nat} {p0 : Pool} (h : Pool.fresh.setMemory m n = .ok p0) :
    FreeListInv { pool := p0, live := [] } ∧ p0.size = n % 2 ^ 32 ∧ p0.nextFree = 0 := by
  simp only [Pool.setMemory, Pool.fresh, and_self, if_true] at h
  injection h with h
  subst h
  refine ⟨⟨by simp, Nat.mod_lt _ (by decide), List.range (n % 2 ^ 32), rfl,
    List.length_range _, rfl, Nat.zero_le _, by simpa using List.nodup_range _,
    List.nodup_nil, fun i => by simp, fun i hi => absurd hi (List.not_mem_nil i)⟩, rfl, rfl⟩

/-- `allocate()` on a pool that satisfies the invariant and is not exhausted. -/
theorem inv_allocate {s : TrackedPool} (hinv : FreeListInv s)
    (hne : s.pool.isExhausted = false) :
    ∃ i, i < s.pool.size ∧ i ∉ s.live ∧
      s.pool.allocate = .ok ({ s.pool with nextFree := s.pool.nextFree + 1 }, (i : Int)) ∧
      trackedStep s .allocate =
        .ok { pool := { s.pool with nextFree := s.pool.nextFree + 1 }, live := i :: s.live } ∧
      FreeListInv
        { pool := { s.pool with nextFree := s.pool.nextFree + 1 }, live := i :: s.live } := by
  obtain ⟨hmem, hsz, fr, hfr, hlen, hnext, hle, hnd, hlnd, hiff, hlive⟩ := hinv
  have hlt : s.pool.nextFree < s.pool.size := by simpa [Pool.isExhausted] using hne
  have hidx : s.pool.nextFree < fr.length := by omega
  have hdrop := List.drop_eq_getElem_cons hidx
  have hi : fr[s.pool.nextFree] ∈ fr.drop s.pool.nextFree := by
    rw [hdrop]; exact List.mem_cons_self _ _
  have hi2 := (hiff _).1 hi
  have halloc : s.pool.allocate =
      .ok ({ s.pool with nextFree := s.pool.nextFree + 1 }, (fr[s.pool.nextFree] : Int)) := by
    unfold Pool.allocate
    rw [hne]
    cases hm : s.pool.memory with
    | none => exact absurd hm hmem
    | some a =>
      simp only [hfr, List.getElem?_eq_getElem hidx, hi2.1, if_true]
      simp [hm]
  rw [hdrop, List.nodup_cons] at hnd
  refine ⟨fr[s.pool.nextFree], hi2.1, hi2.2, halloc, ?_, ?_⟩
  · simp only [trackedStep, halloc, Int.toNat_ofNat]
  · refine ⟨hmem, hsz, fr, hfr, hlen, by simp [hnext], by simp only; omega, hnd.2,
      List.nodup_cons.2 ⟨hi2.2, hlnd⟩, fun j => ?_, fun j hj => ?_⟩
    · have := hiff j
      rw [hdrop, List.mem_cons] at this
      simp only [List.mem_cons, not_or]
      constructor
      · intro hj
        have h1 := this.1 (Or.inr hj)
        exact ⟨h1.1, fun hh => hnd.1 (hh ▸ hj), h1.2⟩
      · rintro ⟨h1, h2, h3⟩
        rcases this.2 ⟨h1, h3⟩ with h4 | h4
        · exact absurd h4 h2
        · exact h4
    · rcases List.mem_cons.1 hj with h1 | h1
      · rw [h1]; exact hi2.1
      · exact hlive j h1

/-- `deallocate(t)` of a live block on a pool that satisfies the invariant. -/
theorem inv_deallocate {s : TrackedPool} (hinv : FreeListInv s) {i : Nat}
    (hi : i ∈ s.live) :
    ∃ p1, s.pool.deallocate (i : Int) = .ok p1 ∧
      trackedStep s (.deallocate i) = .ok { pool := p1, live := s.live.erase i } ∧
      p1.size = s.pool.size ∧ p1.nextFree + 1 = s.pool.nextFree ∧
      FreeListInv { pool := p1, live := s.live.erase i } := by
  obtain ⟨hmem, hsz, fr, hfr, hlen, hnext, hle, hnd, hlnd, hiff, hlive⟩ := hinv
  have hisz : i < s.pool.size := hlive i hi
  have hpos : 0 < s.pool.nextFree := by
    rw [hnext]; exact List.length_pos_of_mem hi
  have hk : s.pool.nextFree - 1 < fr.length := by omega
  have hmod : ((i : Int) % 2 ^ 32).toNat = i := toNat_emod_of_lt i (by omega)
  have hnotfree : i ∉ fr.drop s.pool.nextFree := fun hh => ((hiff i).1 hh).2 hi
  have hdealloc : s.pool.deallocate (i : Int) =
      .ok { s.pool with nextFree := s.pool.nextFree - 1,
                        free := some (fr.set (s.pool.nextFree - 1) i) } := by
    unfold Pool.deallocate
    cases hm : s.pool.memory with
    | none => exact absurd hm hmem
    | some a =>
      simp only [hfr, Pool.isAlloctated, hmod, hisz, decide_True, Bool.true_eq_false,
        if_false, hk, if_true, Nat.pos_iff_ne_zero.1 hpos]
      simp [hm]
  have hd2 : (fr.set (s.pool.nextFree - 1) i).drop (s.pool.nextFree - 1) =
      i :: fr.drop s.pool.nextFree := by
    rw [drop_set_self fr _ i hk]
    congr 2
    omega
  refine ⟨_, hdealloc, by simp only [trackedStep, hdealloc], rfl, by simp only; omega, ?_⟩
  refine ⟨hmem, hsz, fr.set (s.pool.nextFree - 1) i, rfl, by simp [hlen], ?_, by simp only; omega,
    ?_, hlnd.erase i, fun j => ?_, fun j hj => hlive j (List.mem_of_mem_erase hj)⟩
  · simp only [List.length_erase_of_mem hi]
    omega
  · simp only
    rw [hd2]
    exact List.nodup_cons.2 ⟨hnotfree, hnd⟩
  · simp only
    rw [hd2, List.mem_cons, hlnd.mem_erase_iff, hiff j]
    constructor
    · rintro (h1 | ⟨h1, h2⟩)
      · rw [h1]; exact ⟨hisz, fun hh => hh.1 rfl⟩
      · exact ⟨h1, fun hh => h2 hh.2⟩
    · rintro ⟨h1, h2⟩
      by_cases hji : j = i
      · exact Or.inl hji
      · exact Or.inr ⟨h1, fun hh => h2 ⟨hji, hh⟩⟩

/-- A sequence of calls that meet the caller's obligation returns and keeps
the invariant. -/
theorem inv_run (ops : List BlockOp) :
    ∀ s : TrackedPool, FreeListInv s → Disciplined ops s →
      ∃ s1, trackedRun ops s = .ok s1 ∧ FreeListInv s1 ∧ s1.pool.size = s.pool.size := by
  induction ops with
  | nil => intro s hinv _; exact ⟨s, rfl, hinv, rfl⟩
  | cons op ops ih =>
    intro s hinv hd
    cases op with
    | allocate =>
      obtain ⟨i, _, _, _, hstep, hinv1⟩ := inv_allocate hinv hd.1
      have hd2 := hd.2
      rw [hstep] at hd2
      obtain ⟨s1, hr, hinv2, hsz⟩ := ih _ hinv1 hd2
      exact ⟨s1, by simp only [trackedRun, hstep]; exact hr, hinv2, hsz⟩
    | deallocate i =>
      obtain ⟨p1, _, hstep, hsz1, _, hinv1⟩ := inv_deallocate hinv hd.1
      have hd2 := hd.2
      rw [hstep] at hd2
      obtain ⟨s1, hr, hinv2, hsz⟩ := ih _ hinv1 hd2
      exact ⟨s1, by simp only [trackedRun, hstep]; exact hr, hinv2, hsz.trans hsz1⟩

theorem inv_allocate_many (k : Nat) :
    ∀ s : TrackedPool, FreeListInv s → s.pool.nextFree + k ≤ s.pool.size →
      ∃ s1, trackedRun (List.replicate k .allocate) s = .ok s1 ∧ FreeListInv s1 ∧
        s1.pool.size = s.pool.size ∧ s1.pool.nextFree = s.pool.nextFree + k := by
  induction k with
  | zero => intro s hinv _; exact ⟨s, rfl, hinv, rfl, rfl⟩
  | succ k ih =>
    intro s hinv hle
    have hne : s.pool.isExhausted = false := by
      simp only [Pool.isExhausted, ge_iff_le, decide_eq_false_iff_not, not_le]; omega
    obtain ⟨i, _, _, _, hstep, hinv1⟩ := inv_allocate hinv hne
    obtain ⟨s1, hr, hinv2, hsz, hnf⟩ := ih _ hinv1 (by simp only; omega)
    refine ⟨s1, ?_, hinv2, hsz, by rw [hnf]; simp only; omega⟩
    simp only [List.replicate_succ, trackedRun, hstep]
    exact hr

/-- C23: after `setMemory(m, n)` and any calls of `allocate()` made when the
pool is not exhausted and of `deallocate(t)` made on live blocks, every call
has returned (no assertion failed), the entries `free[nextFree .. n-1]` are
pairwise distinct block indices below `n` and are exactly the blocks that are
not live; the next `allocate()`, when the pool is not exhausted, returns a
block below `n` that is not live. -/
theorem free_list_invariant (m n : Nat) (p0 : Pool) (ops : List BlockOp)
    (hset : Pool.fresh.setMemory m n = .ok p0)
    (hd : Disciplined ops { pool := p0, live := [] }) :
    ∃ s fr, trackedRun ops { pool := p0, live := [] } = .ok s ∧
      s.pool.size = n % 2 ^ 32 ∧ s.pool.free = some fr ∧ fr.length = s.pool.size ∧
      (fr.drop s.pool.nextFree).Nodup ∧
      (∀ i ∈ fr.drop s.pool.nextFree, i < s.pool.size) ∧
      (∀ i, i < s.pool.size → (i ∈ fr.drop s.pool.nextFree ↔ i ∉ s.live)) ∧
      s.live.Nodup ∧
      (s.pool.isExhausted = false → ∃ i, i < s.pool.size ∧ i ∉ s.live ∧
        s.pool.allocate = .ok ({ s.pool with nextFree := s.pool.nextFree + 1 }, (i : Int))) := by
  obtain ⟨hinv0, hsz0, _⟩ := inv_setMemory hset
  obtain ⟨s, hr, hinv, hsz⟩ := inv_run ops _ hinv0 hd
  have hinv2 := hinv
  obtain ⟨_, _, fr, hfr, hlen, _, _, hnd, hlnd, hiff, _⟩ := hinv
  refine ⟨s, fr, hr, hsz.trans hsz0, hfr, hlen, hnd, fun i hi => ((hiff i).1 hi).1,
    fun i hi => ?_, hlnd, fun hne => ?_⟩
  · rw [hiff i]; exact ⟨fun h => h.2, fun h => ⟨hi, h⟩⟩
  · obtain ⟨i, h1, h2, h3, _, _⟩ := inv_allocate hinv2 hne
    exact ⟨i, h1, h2, h3⟩

/-- Witness for C23: `sampleBlockOps` on a pool of three blocks. -/
theorem free_list_invariant_witness :
    Pool.fresh.setMemory 1000 3 = .ok samplePool3.pool ∧
    Disciplined sampleBlockOps { pool := samplePool3.pool, live := [] } ∧
    ∃ s fr, trackedRun sampleBlockOps { pool := samplePool3.pool, live := [] } = .ok s ∧
      s.pool.size = 3 % 2 ^ 32 ∧ s.pool.free = some fr ∧ fr.length = s.pool.size ∧
      (fr.drop s.pool.nextFree).Nodup ∧
      (∀ i ∈ fr.drop s.pool.nextFree, i < s.pool.size) ∧
      (∀ i, i < s.pool.size → (i ∈ fr.drop s.pool.nextFree ↔ i ∉ s.live)) ∧
      s.live.Nodup ∧
      (s.pool.isExhausted = false → ∃ i, i < s.pool.size ∧ i ∉ s.live ∧
        s.pool.allocate = .ok ({ s.pool with nextFree := s.pool.nextFree + 1 }, (i : Int))) :=
  have hd : Disciplined sampleBlockOps { pool := samplePool3.pool, live := [] } :=
    ⟨rfl, rfl, List.mem_cons_of_mem _ (List.mem_cons_self _ _), rfl, trivial⟩
  ⟨by decide, hd, free_list_invariant 1000 3 samplePool3.pool sampleBlockOps (by decide) hd⟩

/-- C24: in every state reached from `setMemory(m, n)` by `allocate()` calls
made when not exhausted and `deallocate(t)` calls on live blocks, `nextFree`
is the number of live blocks, so `isExhausted()` holds exactly when `n` blocks
are live; the first `n` allocations all return and the pool reports
exhaustion after exactly `n` of them; a pool that never received `setMemory`
is exhausted from the start. -/
theorem pool_capacity (m n : Nat) (p0 : Pool) (ops : List BlockOp)
    (hset : Pool.fresh.setMemory m n = .ok p0)
    (hd : Disciplined ops { pool := p0, live := [] }) :
    (∃ s, trackedRun ops { pool := p0, live := [] } = .ok s ∧
      s.pool.nextFree = s.live.length ∧ s.live.length ≤ n % 2 ^ 32 ∧
      (s.pool.isExhausted = true ↔ s.live.length = n % 2 ^ 32)) ∧
    (∀ k, k ≤ n % 2 ^ 32 →
      ∃ s, trackedRun (List.replicate k .allocate) { pool := p0, live := [] } = .ok s ∧
        s.live.length = k ∧ (s.pool.isExhausted = true ↔ k = n % 2 ^ 32)) ∧
    Pool.fresh.isExhausted = true := by
  obtain ⟨hinv0, hsz0, hnf0⟩ := inv_setMemory hset
  refine ⟨?_, ?_, by decide⟩
  · obtain ⟨s, hr, hinv, hsz⟩ := inv_run ops _ hinv0 hd
    obtain ⟨_, _, fr, _, _, hnext, hle, _, _, _, _⟩ := hinv
    have hsn : s.pool.size = n % 2 ^ 32 := hsz.trans hsz0
    refine ⟨s, hr, hnext, by omega, ?_⟩
    simp only [Pool.isExhausted, ge_iff_le, decide_eq_true_eq]
    omega
  · intro k hk
    obtain ⟨s, hr, hinv, hsz, hnf⟩ := inv_allocate_many k _ hinv0
      (by simp only [hnf0, hsz0]; omega)
    obtain ⟨_, _, fr, _, _, hnext, hle, _, _, _, _⟩ := hinv
    have hk2 : s.pool.nextFree = k := by rw [hnf]; simp only [hnf0]; omega
    have hsn : s.pool.size = n % 2 ^ 32 := hsz.trans hsz0
    refine ⟨s, hr, by omega, ?_⟩
    simp only [Pool.isExhausted, ge_iff_le, decide_eq_true_eq]
    omega

/-- Witness for C24: `sampleBlockOps` on a pool of three blocks. -/
theorem pool_capacity_witness :
    Pool.fresh.setMemory 1000 3 = .ok samplePool3.pool ∧
    Disciplined sampleBlockOps { pool := samplePool3.pool, live := [] } ∧
    ((∃ s, trackedRun sampleBlockOps { pool := samplePool3.pool, live := [] } = .ok s ∧
      s.pool.nextFree = s.live.length ∧ s.live.length ≤ 3 % 2 ^ 32 ∧
      (s.pool.isExhausted = true ↔ s.live.length = 3 % 2 ^ 32)) ∧
    (∀ k, k ≤ 3 % 2 ^ 32 →
      ∃ s, trackedRun (List.replicate k .allocate) { pool := samplePool3.pool, live := [] } =
          .ok s ∧
        s.live.length = k ∧ (s.pool.isExhausted = true ↔ k = 3 % 2 ^ 32)) ∧
    Pool.fresh.isExhausted = true) :=
  have hd : Disciplined sampleBlockOps { pool := samplePool3.pool, live := [] } :=
    ⟨rfl, rfl, List.mem_cons_of_mem _ (List.mem_cons_self _ _), rfl, trivial⟩
  ⟨by decide, hd, pool_capacity 1000 3 samplePool3.pool sampleBlockOps (by decide) hd⟩

/-- C25 (as stated, refuted): in `samplePool` block `0` has already been
given back (the only live block is `1`), yet `deallocate` of block `0` passes
every assertion and leaves block `0` twice in the free list. -/
theorem double_free_accepted :
    poolRun [.setMemory 1000 2, .create 5000, .create 5001,
      .destroy { ptr := 0, poolAllocated := true }] Pool.fresh = .ok samplePool ∧
    samplePool.deallocate 0 =
      .ok { memory := some 1000, free := some [0, 0], nextFree := 0, size := 2 } ∧
    ¬ ([0, 0] : List Nat).Nodup := by
  decide

/-- C25 (amended): on every pool state reached by calls that returned,
`deallocate(t)` fails its assertions when the block offset of `t`, taken as an
`unsigned`, is not below `size`, and when no block has been handed out
(`nextFree = 0`); in every other case it accepts `t`, whether or not that
block is live, and writes its index into the free list. -/
theorem deallocate_checks_range_only (ops : List PoolOp) (p : Pool)
    (hr : poolRun ops Pool.fresh = .ok p) (t : Int) :
    (¬ (t % 2 ^ 32).toNat < p.size → p.deallocate t = .assertFailed) ∧
    (p.nextFree = 0 → p.deallocate t = .assertFailed) ∧
    ((t % 2 ^ 32).toNat < p.size → p.nextFree ≠ 0 →
      ∃ fr, p.free = some fr ∧
        p.deallocate t =
          .ok { p with nextFree := p.nextFree - 1,
                       free := some (fr.set (p.nextFree - 1) (t % 2 ^ 32).toNat) }) := by
  have hs : p.Sound := sound_run ops sound_fresh hr
  refine ⟨?_, ?_, ?_⟩
  · intro hrange
    unfold Pool.deallocate
    cases p.memory with
    | none => rfl
    | some a =>
      cases p.free with
      | none => rfl
      | some fr =>
        by_cases h0 : p.nextFree = 0
        · simp [h0]
        · have hf : decide ((t % 2 ^ 32).toNat < p.size) = false := decide_eq_false hrange
          simp only [h0, if_false, Pool.isAlloctated, hf, if_true]
  · intro h0
    unfold Pool.deallocate
    cases p.memory with
    | none => rfl
    | some a =>
      cases p.free with
      | none => rfl
      | some fr => simp [h0]
  · intro hrange h0
    have hsz : 0 < p.size := by omega
    obtain ⟨hmem, fr, hfr, hlen, _⟩ := hs.2.2 hsz
    have hk : p.nextFree - 1 < fr.length := by have := hs.1; omega
    refine ⟨fr, hfr, ?_⟩
    unfold Pool.deallocate
    cases hm : p.memory with
    | none => exact absurd hm hmem
    | some a =>
      simp only [hfr, h0, if_false, Pool.isAlloctated, hrange, decide_True, Bool.true_eq_false,
        hk, if_true]

/-- Witness for C25: `samplePool`, reached by `samplePoolOps`, and block `1`. -/
theorem deallocate_checks_range_only_witness :
    poolRun samplePoolOps Pool.fresh = .ok samplePool ∧
    ((¬ ((1 : Int) % 2 ^ 32).toNat < samplePool.size →
      samplePool.deallocate 1 = .assertFailed) ∧
    (samplePool.nextFree = 0 → samplePool.deallocate 1 = .assertFailed) ∧
    (((1 : Int) % 2 ^ 32).toNat < samplePool.size → samplePool.nextFree ≠ 0 →
      ∃ fr, samplePool.free = some fr ∧
        samplePool.deallocate 1 =
          .ok { samplePool with nextFree := samplePool.nextFree - 1,
                                free := some (fr.set (samplePool.nextFree - 1)
                                  ((1 : Int) % 2 ^ 32).toNat) })) :=
  ⟨by decide, deallocate_checks_range_only samplePoolOps samplePool (by decide) 1⟩

/-! ### Connections as a set -/

theorem find_append_single (bs : List Bucket) (b : Bucket) (S1 : SignalId) :
    (bs ++ [b]).find? (fun x => decide (x.signal = S1)) =
      match bs.find? (fun x => decide (x.signal = S1)) with
      | some r => some r
      | none => if b.signal = S1 then some b else none := by
  induction bs with
  | nil => by_cases hb : b.signal = S1 <;> simp [List.find?_cons, hb]
  | cons a bs ih =>
    by_cases ha : a.signal = S1
    · simp [List.find?_cons, ha]
    · simp only [List.cons_append, List.find?_cons, ha, decide_False]
      exact ih

/-- Whether `(S1, E1)` has a bucket after a `connect`. -/
theorem findBucket_connect_isSome (st : Emitters) (S S1 : SignalId) (E E1 : EmitterId)
    (h : HandlerId) :
    (findBucket (connect st S E h) S1 E1).isSome = true ↔
      ((S1 = S ∧ E1 = E) ∨ (findBucket st S1 E1).isSome = true) := by
  by_cases hE : E1 = E
  · subst hE
    cases hst : st E1 with
    | none =>
      by_cases hS : S1 = S
      · subst hS; simp [connect, findBucket, hst]
      · simp [connect, findBucket, hst, hS, Ne.symm hS]
    | some bs =>
      cases hf : bs.find? (fun b => decide (b.signal = S)) with
      | none =>
        by_cases hS : S1 = S
        · subst hS
          simp [connect, findBucket, hst, hf, find_append_single]
        · cases hf1 : bs.find? (fun b => decide (b.signal = S1)) <;>
            simp [connect, findBucket, hst, hf, hS, Ne.symm hS, find_append_single, hf1]
      | some b0 =>
        by_cases hS : S1 = S
        · subst hS
          simp [connect, findBucket, hst, hf, find_updateBucket_same]
        · simp [connect, findBucket, hst, hf, hS, find_updateBucket_other S S1 hS]
  · have hne : ¬ (S1 = S ∧ E1 = E) := fun hh => hE hh.2
    simp only [hne, false_or]
    unfold findBucket
    rw [connect_apply_other st S E E1 h hE]

/-- Whether `(S1, E1)` has a bucket after a `disconnect` that returned. -/
theorem findBucket_disconnect_isSome (st st1 : Emitters) (S S1 : SignalId) (E E1 : EmitterId)
    (h : HandlerId) (hd : disconnect st S E h = some st1) :
    (findBucket st1 S1 E1).isSome = (findBucket st S1 E1).isSome := by
  unfold disconnect at hd
  cases hf : findBucket st S E with
  | none => rw [hf] at hd; exact Option.noConfusion hd
  | some b0 =>
    rw [hf] at hd
    have hst1 := (Option.some.inj hd).symm
    subst hst1
    by_cases hE : E1 = E
    · subst hE
      cases hst : st E1 with
      | none => simp [findBucket, hst] at hf
      | some bs =>
        by_cases hS : S1 = S
        · subst hS
          simp [findBucket, hst, find_updateBucket_same]
        · simp [findBucket, hst, find_updateBucket_other S S1 hS]
    · simp [findBucket, hE]

/-- A bucket for `(S, E)` exists exactly when `connect` was called for
`(S, E)`, before or during the calls. -/
theorem findBucket_run (ops : List SignalOp) :
    ∀ (st st1 : Emitters), signalRun ops st = some st1 → ∀ S E,
      ((findBucket st1 S E).isSome = true ↔
        ((findBucket st S E).isSome = true ∨ ∃ h, SignalOp.connect S E h ∈ ops)) := by
  induction ops with
  | nil =>
    intro st st1 hr S E
    simp only [signalRun, Option.some.injEq] at hr
    subst hr; simp
  | cons op ops ih =>
    intro st st1 hr S E
    simp only [signalRun] at hr
    cases hs : signalStep st op with
    | none => rw [hs] at hr; exact Option.noConfusion hr
    | some st2 =>
      rw [hs] at hr
      rw [ih st2 st1 hr S E]
      cases op with
      | connect S0 E0 h0 =>
        simp only [signalStep, Option.some.injEq] at hs
        subst hs
        rw [findBucket_connect_isSome]
        simp only [List.mem_cons, SignalOp.connect.injEq]
        constructor
        · rintro ((⟨rfl, rfl⟩ | h1) | ⟨h, h2⟩)
          · exact Or.inr ⟨h0, Or.inl ⟨rfl, rfl, rfl⟩⟩
          · exact Or.inl h1
          · exact Or.inr ⟨h, Or.inr h2⟩
        · rintro (h1 | ⟨h, (⟨rfl, rfl, rfl⟩ | h2)⟩)
          · exact Or.inl (Or.inr h1)
          · exact Or.inl (Or.inl ⟨rfl, rfl⟩)
          · exact Or.inr ⟨h, h2⟩
      | disconnect S0 E0 h0 =>
        simp only [signalStep] at hs
        rw [findBucket_disconnect_isSome st st2 S0 S E0 E h0 hs]
        simp

theorem updateBucket_map_signal (S : SignalId) (f : List HandlerId → List HandlerId)
    (bs : List Bucket) : (updateBucket S f bs).map (fun b => b.signal) =
      bs.map (fun b => b.signal) := by
  induction bs with
  | nil => rfl
  | cons b bs ih =>
    by_cases hb : b.signal = S
    · simp [updateBucket, hb]
    · simp [updateBucket, hb, ih]

theorem updateBucket_id (S : SignalId) (f : List HandlerId → List HandlerId)
    (bs : List Bucket)
    (hf : ∀ b, bs.find? (fun x => decide (x.signal = S)) = some b → f b.handlers = b.handlers) :
    updateBucket S f bs = bs := by
  induction bs with
  | nil => rfl
  | cons b bs ih =>
    by_cases hb : b.signal = S
    · have := hf b (by simp [List.find?_cons, hb])
      cases b with
      | mk sg hs =>
        simp only at hb this
        subst hb
        simp [updateBucket, this]
    · simp only [updateBucket, hb, if_false]
      rw [ih (fun b1 h1 => hf b1 (by simpa [List.find?_cons, hb] using h1))]

/-- One call keeps the signals of the buckets of every emitter distinct. -/
theorem buckets_nodup_step (st st1 : Emitters)
    (hinv : ∀ E bs, st E = some bs → (bs.map (fun b => b.signal)).Nodup)
    (op : SignalOp) (hs : signalStep st op = some st1) :
    ∀ E bs, st1 E = some bs → (bs.map (fun b => b.signal)).Nodup := by
  intro E1 bs1 hbs1
  cases op with
  | connect S E h =>
    simp only [signalStep, Option.some.injEq] at hs
    subst hs
    by_cases hE : E1 = E
    · subst hE
      unfold connect at hbs1
      cases hst : st E1 with
      | none =>
        simp only [findBucket, hst, if_true, Option.some.injEq] at hbs1
        rw [← hbs1]; simp
      | some bs =>
        cases hf : bs.find? (fun b => decide (b.signal = S)) with
        | none =>
          simp only [findBucket, hst, hf, if_true, Option.some.injEq] at hbs1
          rw [← hbs1, List.map_append, List.nodup_append]
          refine ⟨hinv E1 bs hst, by simp, ?_⟩
          intro x hx hx2
          simp only [List.map_cons, List.map_nil, List.mem_singleton] at hx2
          obtain ⟨b, hb, hbx⟩ := List.mem_map.1 hx
          have := List.find?_eq_none.1 hf b hb
          simp only [decide_eq_true_eq] at this
          exact this (hbx.trans hx2)
        | some b0 =>
          simp only [findBucket, hst, hf, if_true, Option.map_some', Option.some.injEq] at hbs1
          rw [← hbs1, updateBucket_map_signal]
          exact hinv E1 bs hst
    · rw [connect_apply_other st S E E1 h hE] at hbs1
      exact hinv E1 bs1 hbs1
  | disconnect S E h =>
    simp only [signalStep] at hs
    unfold disconnect at hs
    cases hf : findBucket st S E with
    | none => rw [hf] at hs; exact Option.noConfusion hs
    | some b0 =>
      rw [hf] at hs
      have hst1 := (Option.some.inj hs).symm
      subst hst1
      by_cases hE : E1 = E
      · subst hE
        cases hst : st E1 with
        | none => simp [hst] at hbs1
        | some bs =>
          simp only [hst, if_true, Option.map_some', Option.some.injEq] at hbs1
          rw [← hbs1, updateBucket_map_signal]
          exact hinv E1 bs hst
      · simp only [hE, if_false] at hbs1
        exact hinv E1 bs1 hbs1

theorem buckets_nodup_run (ops : List SignalOp) :
    ∀ (st st1 : Emitters), (∀ E bs, st E = some bs → (bs.map (fun b => b.signal)).Nodup) →
      signalRun ops st = some st1 →
      ∀ E bs, st1 E = some bs → (bs.map (fun b => b.signal)).Nodup := by
  induction ops with
  | nil =>
    intro st st1 hinv hr
    simp only [signalRun, Option.some.injEq] at hr
    subst hr; exact hinv
  | cons op ops ih =>
    intro st st1 hinv hr
    simp only [signalRun] at hr
    cases hs : signalStep st op with
    | none => rw [hs] at hr; exact Option.noConfusion hr
    | some st2 =>
      rw [hs] at hr
      exact ih st2 st1 (buckets_nodup_step st st2 hinv op hs) hr

theorem setInsert_idem (s : List HandlerId) (h : HandlerId) :
    setInsert (setInsert s h) h = setInsert s h := by
  unfold setInsert
  by_cases hm : h ∈ s <;> simp [hm]

/-- After one or more `connect` calls with the same handler, `emit` calls
what a single `insert` into the set gives. -/
theorem emit_connectTimes (S : SignalId) (E : EmitterId) (h : HandlerId) :
    ∀ (n : Nat) (st : Emitters),
      emit (connectTimes st S E h (n + 1)) S E = setInsert (emit st S E) h := by
  intro n
  induction n with
  | zero =>
    intro st
    simp only [connectTimes]
    rw [emit_connect]; simp
  | succ n ih =>
    intro st
    rw [connectTimes, ih (connect st S E h), emit_connect]
    simp only [and_self, if_true]
    exact setInsert_idem _ _

/-- After one or more `connect` calls the bucket of `(S, E)` exists. -/
theorem findBucket_connectTimes (S : SignalId) (E : EmitterId) (h : HandlerId) :
    ∀ (n : Nat) (st : Emitters),
      (findBucket (connectTimes st S E h (n + 1)) S E).isSome = true := by
  intro n
  induction n with
  | zero =>
    intro st
    simp only [connectTimes]
    exact (findBucket_connect_isSome st S S E E h).2 (Or.inl ⟨rfl, rfl⟩)
  | succ n ih =>
    intro st
    rw [connectTimes]
    exact ih (connect st S E h)

theorem disconnect_of_bucket (st : Emitters) (S : SignalId) (E : EmitterId) (h : HandlerId)
    (hb : (findBucket st S E).isSome = true) : ∃ st1, disconnect st S E h = some st1 := by
  unfold disconnect
  cases hf : findBucket st S E with
  | none => rw [hf] at hb; exact Bool.noConfusion hb
  | some b => exact ⟨_, rfl⟩

theorem disconnect_of_no_bucket (st : Emitters) (S : SignalId) (E : EmitterId) (h : HandlerId)
    (hb : ¬ (findBucket st S E).isSome = true) : disconnect st S E h = none := by
  unfold disconnect
  cases hf : findBucket st S E with
  | none => rfl
  | some b => rw [hf] at hb; exact absurd rfl hb

/-- Disconnecting a handler that `emit` does not call leaves every bucket as
it was, when the bucket of `(S, E)` exists. -/
theorem disconnect_absent (st : Emitters) (S : SignalId) (E : EmitterId) (h : HandlerId)
    (hb : (findBucket st S E).isSome = true) (hh : h ∉ emit st S E) :
    disconnect st S E h = some st := by
  unfold disconnect
  cases hf : findBucket st S E with
  | none => rw [hf] at hb; exact Bool.noConfusion hb
  | some b =>
    simp only [Option.some.injEq]
    funext e
    by_cases he : e = E
    · subst he
      rw [if_pos rfl]
      cases hst : st e with
      | none => rfl
      | some bs =>
        simp only [Option.map_some', Option.some.injEq]
        apply updateBucket_id
        intro b1 hb1
        have hfb : findBucket st S e = some b1 := by simp [findBucket, hst, hb1]
        have hem : emit st S e = b1.handlers := by simp [emit, hfb]
        rw [hem] at hh
        exact List.erase_of_not_mem hh
    · rw [if_neg he]

/-- C28: after any calls of `connect` and `disconnect` that returned, made
from a state without connections: connecting the same handler to `(S, E)` one
or more times makes `emit` call it exactly once and changes no other handler
of `(S, E)`, and one `disconnect` after that returns and leaves the handler
uncalled, the others unchanged; the buckets of an emitter have pairwise
different signals; `disconnect` of a handler that `emit` does not call
returns with the state unchanged when `connect` was called for `(S, E)`
before, and fails its assertion when `connect` was never called for `(S, E)`. -/
theorem connections_form_a_set (ops : List SignalOp) (st : Emitters)
    (hr : signalRun ops noConnections = some st) (S : SignalId) (E : EmitterId) (h : HandlerId) :
    (∀ n, 1 ≤ n →
      (emit (connectTimes st S E h n) S E).count h = 1 ∧
      (∀ x, x ≠ h → (emit (connectTimes st S E h n) S E).count x = (emit st S E).count x) ∧
      ∃ st1, disconnect (connectTimes st S E h n) S E h = some st1 ∧
        (emit st1 S E).count h = 0 ∧
        ∀ x, x ≠ h → (emit st1 S E).count x = (emit st S E).count x) ∧
    (∀ bs, st E = some bs → (bs.map (fun b => b.signal)).Nodup) ∧
    (h ∉ emit st S E → (∃ h0, SignalOp.connect S E h0 ∈ ops) → disconnect st S E h = some st) ∧
    ((¬ ∃ h0, SignalOp.connect S E h0 ∈ ops) → disconnect st S E h = none) := by
  have hcount := emit_count_run ops noConnections st nothingConnected
    (fun S1 E1 h1 => by simp [emit_noConnections, nothingConnected]) hr
  have hle : ∀ x, (emit st S E).count x ≤ 1 := fun x => by
    rw [hcount]; split <;> omega
  have hbucket := findBucket_run ops noConnections st hr S E
  have hnone : ¬ (findBucket noConnections S E).isSome = true := by
    simp [findBucket, noConnections]
  refine ⟨?_, ?_, ?_, ?_⟩
  · intro n hn
    obtain ⟨m, rfl⟩ : ∃ m, n = m + 1 := ⟨n - 1, by omega⟩
    have hem := emit_connectTimes S E h m st
    have hins : ∀ x, (emit (connectTimes st S E h (m + 1)) S E).count x =
        if x = h then 1 else (emit st S E).count x := fun x => by
      rw [hem]; exact count_setInsert _ _ _ (hle h)
    refine ⟨by rw [hins, if_pos rfl], fun x hx => by rw [hins, if_neg hx], ?_⟩
    obtain ⟨st1, hd⟩ := disconnect_of_bucket _ S E h (findBucket_connectTimes S E h m st)
    have hle2 : (emit (connectTimes st S E h (m + 1)) S E).count h ≤ 1 := by
      rw [hins, if_pos rfl]
    have her : ∀ x, (emit st1 S E).count x =
        if x = h then 0 else (emit (connectTimes st S E h (m + 1)) S E).count x := fun x => by
      rw [emit_disconnect _ st1 S S E E h hd]
      simp only [and_self, if_true]
      exact count_setErase _ _ _ hle2
    refine ⟨st1, hd, by rw [her, if_pos rfl], fun x hx => ?_⟩
    rw [her, if_neg hx, hins, if_neg hx]
  · exact buckets_nodup_run ops noConnections st
      (fun E1 bs hbs => by simp [noConnections] at hbs) hr E
  · intro hh hex
    exact disconnect_absent st S E h (hbucket.2 (Or.inr hex)) hh
  · intro hex
    apply disconnect_of_no_bucket
    intro hb
    rcases hbucket.1 hb with h1 | h1
    · exact hnone h1
    · exact hex h1

theorem connections_form_a_set_witness :
    ((∀ n, 1 ≤ n →
      (emit (connectTimes sampleEmitters 1 10 103 n) 1 10).count 103 = 1 ∧
      (∀ x, x ≠ 103 →
        (emit (connectTimes sampleEmitters 1 10 103 n) 1 10).count x =
          (emit sampleEmitters 1 10).count x) ∧
      ∃ st1, disconnect (connectTimes sampleEmitters 1 10 103 n) 1 10 103 = some st1 ∧
        (emit st1 1 10).count 103 = 0 ∧
        ∀ x, x ≠ 103 → (emit st1 1 10).count x = (emit sampleEmitters 1 10).count x) ∧
    (∀ bs, sampleEmitters 10 = some bs → (bs.map (fun b => b.signal)).Nodup) ∧
    (103 ∉ emit sampleEmitters 1 10 → (∃ h0, SignalOp.connect 1 10 h0 ∈ sampleSignalOps) →
      disconnect sampleEmitters 1 10 103 = some sampleEmitters) ∧
    ((¬ ∃ h0, SignalOp.connect 1 10 h0 ∈ sampleSignalOps) →
      disconnect sampleEmitters 1 10 103 = none)) ∧
    disconnect sampleEmitters 1 10 103 = some sampleEmitters ∧
    disconnect sampleEmitters 3 10 100 = none :=
  ⟨connections_form_a_set sampleSignalOps sampleEmitters rfl 1 10 103,
   (connections_form_a_set sampleSignalOps sampleEmitters rfl 1 10 103).2.2.1
     (by decide) ⟨100, by decide⟩,
   (connections_form_a_set sampleSignalOps sampleEmitters rfl 3 10 100).2.2.2
     (by simp [sampleSignalOps])⟩

/-! ### Render requests -/

theorem requestRender_flag (s : EventLoop) :
    (requestRender s).backend.m_renderRequested = true := by
  unfold requestRender
  by_cases hf : s.backend.m_renderRequested = true
  · simp [hf]
  · simp [hf]

theorem requestRender_of_set (s : EventLoop) (hf : s.backend.m_renderRequested = true) :
    requestRender s = s := by
  simp [requestRender, hf]

theorem requestRender_of_clear (s : EventLoop) (hf : s.backend.m_renderRequested = false) :
    requestRender s =
      { backend := { s.backend with m_renderRequested := true }
        queue := s.queue ++ [SDL_Event.userEvent] } := by
  simp [requestRender, hf]

theorem requestRenderTimes_of_set (n : Nat) :
    ∀ s : EventLoop, s.backend.m_renderRequested = true → requestRenderTimes n s = s := by
  induction n with
  | zero => intro s _; rfl
  | succ n ih =>
    intro s hf
    rw [requestRenderTimes, requestRender_of_set s hf]
    exact ih s hf

/-- One or more requests in a row have the effect of one. -/
theorem requestRenderTimes_succ (n : Nat) (s : EventLoop) :
    requestRenderTimes (n + 1) s = requestRender s := by
  rw [requestRenderTimes]
  exact requestRenderTimes_of_set n _ (requestRender_flag s)

theorem renderInv_requestRender (s : EventLoop) (hinv : RenderInv s) :
    RenderInv (requestRender s) := by
  by_cases hf : s.backend.m_renderRequested = true
  · rw [requestRender_of_set s hf]; exact hinv
  · have hf2 : s.backend.m_renderRequested = false := by simpa using hf
    rw [requestRender_of_clear s hf2]
    unfold RenderInv pendingRenders at *
    simp only [hf2, Bool.false_eq_true, if_false] at hinv
    simp [List.count_append, hinv]

theorem renderInv_times (n : Nat) (s : EventLoop) (hinv : RenderInv s) :
    RenderInv (requestRenderTimes n s) := by
  cases n with
  | zero => exact hinv
  | succ n => rw [requestRenderTimes_succ]; exact renderInv_requestRender s hinv

theorem renderInv_post (s : EventLoop) (e : SDL_Event) (he : e ≠ SDL_Event.userEvent)
    (hinv : RenderInv s) : RenderInv { s with queue := s.queue ++ [e] } := by
  unfold RenderInv pendingRenders at *
  simp only [List.count_append, List.count_cons_of_ne (Ne.symm he), List.count_nil, Nat.add_zero]
  exact hinv

theorem renderInv_pop (s : EventLoop) (e : SDL_Event) (rest : List SDL_Event)
    (he : e ≠ SDL_Event.userEvent) (hq : s.queue = e :: rest) (hinv : RenderInv s) :
    RenderInv { s with queue := rest } := by
  unfold RenderInv pendingRenders at *
  rw [hq, List.count_cons_of_ne (Ne.symm he)] at hinv
  exact hinv

/-- Taking the render event off the queue and clearing the flag. -/
theorem renderInv_popUser (s : EventLoop) (rest : List SDL_Event)
    (hq : s.queue = SDL_Event.userEvent :: rest) (hinv : RenderInv s) :
    SDL_Event.userEvent ∉ rest ∧
      RenderInv { backend := { s.backend with m_renderRequested := false }, queue := rest } := by
  unfold RenderInv pendingRenders at *
  rw [hq, List.count_cons_self] at hinv
  have h0 : rest.count SDL_Event.userEvent = 0 := by
    split at hinv <;> omega
  exact ⟨List.count_eq_zero.1 h0, by simpa using h0⟩

theorem renderInv_processEvents (s s1 : EventLoop) (k t : Nat) (hinv : RenderInv s)
    (hp : processEvents s k t = some s1) : RenderInv s1 := by
  unfold processEvents at hp
  cases hsf : s.backend.m_surface with
  | none => rw [hsf] at hp; exact Option.noConfusion hp
  | some sf =>
    rw [hsf] at hp
    simp only [Option.some.injEq] at hp
    rw [← hp]
    apply renderInv_times
    cases hq : s.queue with
    | nil => exact hinv
    | cons e rest =>
      cases e with
      | userEvent =>
        exact renderInv_times _ _ (renderInv_popUser s rest hq hinv).2
      | windowEvent w r =>
        have hpop := renderInv_pop s _ rest (by simp) hq hinv
        simp only
        by_cases hw : w ≠ getWindowID s.backend
        · rw [if_pos hw]; exact hpop
        · rw [if_neg hw]
          by_cases hr : r = true
          · rw [if_pos hr]; exact renderInv_requestRender _ hpop
          · rw [if_neg hr]; exact hpop
      | other =>
        exact renderInv_times _ _ (renderInv_pop s _ rest (by simp) hq hinv)

theorem renderInv_step (s s1 : EventLoop) (op : LoopOp) (hinv : RenderInv s)
    (hs : loopStep s op = some s1) : RenderInv s1 := by
  cases op with
  | requestRender =>
    simp only [loopStep, Option.some.injEq] at hs
    rw [← hs]; exact renderInv_requestRender s hinv
  | postWindow w r =>
    simp only [loopStep, Option.some.injEq] at hs
    rw [← hs]; exact renderInv_post s _ (by simp) hinv
  | postOther =>
    simp only [loopStep, Option.some.injEq] at hs
    rw [← hs]; exact renderInv_post s _ (by simp) hinv
  | processEvents k t =>
    exact renderInv_processEvents s s1 k t hinv hs

theorem renderInv_run (ops : List LoopOp) :
    ∀ s s1 : EventLoop, RenderInv s → loopRun ops s = some s1 → RenderInv s1 := by
  induction ops with
  | nil =>
    intro s s1 hinv hr
    simp only [loopRun, Option.some.injEq] at hr
    rw [← hr]; exact hinv
  | cons op ops ih =>
    intro s s1 hinv hr
    simp only [loopRun] at hr
    cases hs : loopStep s op with
    | none => rw [hs] at hr; exact Option.noConfusion hr
    | some s2 =>
      rw [hs] at hr
      exact ih s2 s1 (renderInv_step s s2 op hinv hs) hr

/-- C29: in every state reached from a backend whose flag is clear and whose
queue holds no render event, by calls of `requestRender` and `processEvents`
and arrivals of other events, at most one render event is waiting, and one is
waiting exactly when `m_renderRequested` is set; `requestRender()` appends a
render event exactly when the flag is clear, and the flag is set afterwards;
when the render event is the oldest event, `processEvents` hands it to
`onRender` with the flag clear, so that with no request from `onRender` and
`onTick` the flag stays clear and no render waits, and with one or more
requests exactly one render event is appended and the flag is set. -/
theorem render_requests_coalesce (ops : List LoopOp) (s0 s : EventLoop)
    (hflag : s0.backend.m_renderRequested = false) (hqueue : SDL_Event.userEvent ∉ s0.queue)
    (hr : loopRun ops s0 = some s) :
    pendingRenders s ≤ 1 ∧
    (pendingRenders s = 1 ↔ s.backend.m_renderRequested = true) ∧
    (requestRender s).backend.m_renderRequested = true ∧
    (requestRender s).queue =
      (if s.backend.m_renderRequested = true then s.queue
       else s.queue ++ [SDL_Event.userEvent]) ∧
    pendingRenders (requestRender s) = 1 ∧
    (∀ rest sf k t, s.queue = SDL_Event.userEvent :: rest → s.backend.m_surface = some sf →
      ∃ s1, processEvents s k t = some s1 ∧
        (k + t = 0 → s1.backend.m_renderRequested = false ∧ s1.queue = rest ∧
          pendingRenders s1 = 0) ∧
        (1 ≤ k + t → s1.backend.m_renderRequested = true ∧
          s1.queue = rest ++ [SDL_Event.userEvent] ∧ pendingRenders s1 = 1)) := by
  have h0 : RenderInv s0 := by
    unfold RenderInv pendingRenders
    simp [hflag, List.count_eq_zero.2 hqueue]
  have hinv : RenderInv s := renderInv_run ops s0 s h0 hr
  have hreq : RenderInv (requestRender s) := renderInv_requestRender s hinv
  refine ⟨?_, ?_, requestRender_flag s, ?_, ?_, ?_⟩
  · unfold RenderInv at hinv; rw [hinv]; split <;> omega
  · unfold RenderInv at hinv; rw [hinv]
    by_cases hf : s.backend.m_renderRequested = true <;> simp [hf]
  · by_cases hf : s.backend.m_renderRequested = true
    · rw [if_pos hf, requestRender_of_set s hf]
    · rw [if_neg hf, requestRender_of_clear s (by simpa using hf)]
  · unfold RenderInv at hreq
    rw [hreq, if_pos (requestRender_flag s)]
  · intro rest sf k t hq hsf
    obtain ⟨hrest, hpop⟩ := renderInv_popUser s rest hq hinv
    have hp : processEvents s k t = some (requestRenderTimes t (requestRenderTimes k
        { backend := { s.backend with m_renderRequested := false }, queue := rest })) := by
      simp [processEvents, hsf, hq]
    refine ⟨_, hp, ?_, ?_⟩
    · intro hkt
      have hk : k = 0 := by omega
      have ht : t = 0 := by omega
      subst hk; subst ht
      simp [requestRenderTimes, pendingRenders, List.count_eq_zero.2 hrest]
    · intro hkt
      have hone : requestRenderTimes t (requestRenderTimes k
          { backend := { s.backend with m_renderRequested := false }, queue := rest }) =
          requestRender
            { backend := { s.backend with m_renderRequested := false }, queue := rest } := by
        cases k with
        | zero =>
          obtain ⟨m, rfl⟩ : ∃ m, t = m + 1 := ⟨t - 1, by omega⟩
          simp only [requestRenderTimes]
          exact requestRenderTimes_succ m _
        | succ k =>
          rw [requestRenderTimes_succ k]
          exact requestRenderTimes_of_set t _ (requestRender_flag _)
      rw [hone, requestRender_of_clear _ rfl]
      simp [pendingRenders, List.count_append, List.count_eq_zero.2 hrest]

theorem render_requests_coalesce_witness :
    sampleLoopAfter.queue = [SDL_Event.userEvent] ∧
    (pendingRenders sampleLoopAfter ≤ 1 ∧
    (pendingRenders sampleLoopAfter = 1 ↔ sampleLoopAfter.backend.m_renderRequested = true) ∧
    (requestRender sampleLoopAfter).backend.m_renderRequested = true ∧
    (requestRender sampleLoopAfter).queue =
      (if sampleLoopAfter.backend.m_renderRequested = true then sampleLoopAfter.queue
       else sampleLoopAfter.queue ++ [SDL_Event.userEvent]) ∧
    pendingRenders (requestRender sampleLoopAfter) = 1 ∧
    (∀ rest sf k t, sampleLoopAfter.queue = SDL_Event.userEvent :: rest →
      sampleLoopAfter.backend.m_surface = some sf →
      ∃ s1, processEvents sampleLoopAfter k t = some s1 ∧
        (k + t = 0 → s1.backend.m_renderRequested = false ∧ s1.queue = rest ∧
          pendingRenders s1 = 0) ∧
        (1 ≤ k + t → s1.backend.m_renderRequested = true ∧
          s1.queue = rest ++ [SDL_Event.userEvent] ∧ pendingRenders s1 = 1))) :=
  ⟨by decide, render_requests_coalesce sampleLoopOps sampleLoop sampleLoopAfter rfl
    (by decide) rfl⟩

end Rengine
